import Mathlib

/-!
# STAR language: lexical analyzer and interpreter

A shallow embedding of `src/LexicalAnalyzer/lexical_analyzer.c` and
`src/StarInterpreter/starInterpreter.c`.

Conventions of the embedding.

* A C string is the `List Char` of its characters before the terminating NUL; the end of
  the list plays the role of the NUL byte (so `*(ptr + 1)` at the last character is NUL,
  which belongs to no character class).
* A `Token*` cursor into the token array is the list of the tokens from the cursor to the
  end of the array; `current_token++` is `List.tail`. Dereferencing a cursor that has left
  the array is undefined behaviour in C and is the outcome `Res.undefined` here.
* The `value` field of a token whose text the tokenizer never writes (punctuation,
  brackets) is modelled as the empty text.
* `int` is a 32-bit two's complement integer: the results of `+`, `-` and `*` are wrapped by
  `toInt32`. The division `INT_MIN / -1`, whose result is not an `int` and which traps on
  the usual machines, is undefined behaviour: the outcome `Eval.undefined`.
* `exit(EXIT_FAILURE)` is the outcome `Res.fatal`, which keeps the interpreter state at the
  moment of the exit. Loops whose termination is not evident take a fuel argument; running
  out of fuel is the outcome `Res.outOfFuel`.
* The token array has `MAX_STRING_LENGTH` (256) entries and the source never tests
  `num_tokens`: a write to `tokens[num_tokens]` with `num_tokens` at 256 or beyond is
  undefined behaviour, the outcome `LexResult.undefined`.
* The fixed capacity of the `expression` line buffer of the assignment branch is not
  tracked: programs are assumed to stay within it.
-/

namespace Star

/-! ## C library functions -/

/-- The `isspace` of the C locale: space, `\t`, `\n`, `\v`, `\f`, `\r`. -/
def isspace (c : Char) : Bool :=
  c.toNat == 32 || (decide (9 ≤ c.toNat) && decide (c.toNat ≤ 13))

/-- The `isdigit` of the C locale. -/
def isdigit (c : Char) : Bool :=
  decide (48 ≤ c.toNat) && decide (c.toNat ≤ 57)

/-- The `isalpha` of the C locale: `A`-`Z` and `a`-`z`. -/
def isalpha (c : Char) : Bool :=
  (decide (65 ≤ c.toNat) && decide (c.toNat ≤ 90)) ||
    (decide (97 ≤ c.toNat) && decide (c.toNat ≤ 122))

/-- The `isalnum` of the C locale. -/
def isalnum (c : Char) : Bool :=
  isalpha c || isdigit c

/-- Two's complement wrap-around of a mathematical integer to a 32-bit `int`. -/
def toInt32 (z : Int) : Int :=
  (z + 2147483648) % 4294967296 - 2147483648

/-- The value of the longest prefix of decimal digits, continuing the accumulator. -/
def digits_value : List Char → Nat → Nat
  | [], acc => acc
  | c :: r, acc => if isdigit c then digits_value r (acc * 10 + (c.toNat - 48)) else acc

/-- The result of `strtol` for the number `z`: a value outside the range of a 64-bit `long`
is replaced by `LONG_MIN` or `LONG_MAX`. -/
def strtol_range (z : Int) : Int :=
  if z < -9223372036854775808 then -9223372036854775808
  else if 9223372036854775807 < z then 9223372036854775807
  else z

/-- The `atoi` of the C library, which is `(int) strtol(s, NULL, 10)`: skip white space,
read an optional sign, then the longest run of decimal digits; the `long` that `strtol`
returns is converted to `int` by keeping its low 32 bits. -/
def atoi (s : List Char) : Int :=
  match s.dropWhile isspace with
  | [] => 0
  | c :: r =>
    if c = '-' then toInt32 (strtol_range (-(digits_value r 0 : Int)))
    else if c = '+' then toInt32 (strtol_range (digits_value r 0 : Int))
    else toInt32 (strtol_range (digits_value (c :: r) 0 : Int))

/-- The decimal digit character of `d % 10`. -/
def digit_char (d : Nat) : Char :=
  Char.ofNat (48 + d % 10)

/-- Decimal digits of `n` in front of `acc`, most significant first. -/
def nat_digits : Nat → Nat → List Char → List Char
  | 0, _, acc => acc
  | fuel + 1, n, acc =>
    if n / 10 = 0 then digit_char n :: acc
    else nat_digits fuel (n / 10) (digit_char n :: acc)

/-- The text that `sprintf(buf, "%d", n)` writes for a non-negative `n`. -/
def render_nat (n : Nat) : List Char :=
  nat_digits (n + 1) n []

/-- The text that `sprintf(buf, "%d", z)` writes. -/
def sprintf_d (z : Int) : List Char :=
  if z < 0 then '-' :: render_nat z.natAbs else render_nat z.toNat

/-- The loop `while (p(*ptr) && i < limit) buf[i++] = *ptr++;` with `budget = limit - i`:
the characters copied and the remaining text. -/
def scan_while (p : Char → Bool) : Nat → List Char → List Char × List Char
  | 0, s => ([], s)
  | _ + 1, [] => ([], [])
  | n + 1, c :: r =>
    if p c then (c :: (scan_while p n r).1, (scan_while p n r).2) else ([], c :: r)

/-- The tokens that `strtok(buffer, " ")` followed by repeated `strtok(NULL, " ")` return,
in order: the maximal runs of characters other than the space. The second argument is the
run being accumulated. -/
def strtok_tokens : List Char → List Char → List (List Char)
  | [], cur => if cur.isEmpty then [] else [cur]
  | c :: r, cur =>
    if c = ' ' then (if cur.isEmpty then strtok_tokens r [] else cur :: strtok_tokens r [])
    else strtok_tokens r (cur ++ [c])

/-! ## Constants and data types (shared by both programs) -/

def MAX_IDENTIFIER_LENGTH : Nat := 10

def MAX_INTEGER_LENGTH : Nat := 8

def MAX_STRING_LENGTH : Nat := 256

def MAX_VARIABLES : Nat := 100

inductive TokenType where
  | Identifier
  | IntConst
  | Operator
  | String
  | Keyword
  | EndOfLine
  | Comma
  | LeftCurlyBracket
  | RightCurlyBracket
  | Terminator
  deriving DecidableEq

structure Token where
  type : TokenType
  value : List Char
  deriving DecidableEq

/-- The lexical errors, each followed by `exit(EXIT_FAILURE)` in the source. -/
inductive LexErr where
  | unterminatedComment
  | identifierTooLong
  | integerTooLong
  | stringTooLong
  | unterminatedString
  deriving DecidableEq

/-- The local state of the scan loop of `tokenize_source_code`; `warnings` counts the
"Integer constant forced to zero" lines written to stderr. -/
structure LexState where
  ptr : List Char
  in_comment : Bool
  tokens : List Token
  warnings : Nat
  deriving DecidableEq

/-- Outcome of `tokenize_source_code`: the tokens returned, `exit(EXIT_FAILURE)` after a
lexical error, undefined behaviour (a write past the end of the token array), or fuel
exhausted. -/
inductive LexResult where
  | tokens (ts : List Token) (warnings : Nat)
  | error (e : LexErr)
  | undefined
  | outOfFuel
  deriving DecidableEq

/-- The error exits of the integer and string branches: these branches have written the
text of the token into `tokens[num_tokens].value` before they test for the error. The
identifier branch collects the word in the local buffer `keyword` and the comment branch
writes nothing. -/
def LexErr.after_write (e : LexErr) : Bool :=
  match e with
  | .integerTooLong => true
  | .stringTooLong => true
  | .unterminatedString => true
  | .unterminatedComment => false
  | .identifierTooLong => false

/-- The comment-skipping loop `while (*ptr != '*' || *(ptr + 1) != '/')`, followed by
`ptr += 2`; `none` when the end of the text is reached first. -/
def skip_comment : List Char → Option (List Char)
  | [] => none
  | c :: r =>
    if c = '*' ∧ r.head? = some '/' then some r.tail else skip_comment r

/-- The chain of `strcmp` calls against the eight keywords. -/
def is_keyword (w : List Char) : Bool :=
  w == "int".toList || w == "text".toList || w == "is".toList || w == "loop".toList ||
    w == "times".toList || w == "read".toList || w == "write".toList ||
    w == "newLine".toList

/-- The test `isdigit(*(ptr + 1))` on the text after the current character. -/
def next_is_digit (rest : List Char) : Bool :=
  match rest with
  | [] => false
  | d :: _ => isdigit d

/-- The scan loop `while (*ptr != '\0')` around one iteration `step`, ending with the
Terminator token. Every token is written at `tokens[num_tokens]`, and `num_tokens` is the
number of tokens so far: an iteration that appends a token, an error exit of a branch that
has written the token text, and the final write of the Terminator are undefined behaviour
when the array of `MAX_STRING_LENGTH` entries is full. -/
def lex_loop (step : LexState → Except LexErr LexState) : Nat → LexState → LexResult
  | 0, _ => .outOfFuel
  | fuel + 1, s =>
    match s.ptr with
    | [] =>
      if s.tokens.length < MAX_STRING_LENGTH then
        .tokens (s.tokens ++ [⟨.Terminator, []⟩]) s.warnings
      else .undefined
    | _ :: _ =>
      match step s with
      | .error e =>
        if e.after_write = true ∧ MAX_STRING_LENGTH ≤ s.tokens.length then .undefined
        else .error e
      | .ok s1 =>
        if s.tokens.length < s1.tokens.length ∧ MAX_STRING_LENGTH ≤ s.tokens.length then
          .undefined
        else lex_loop step fuel s1

/-- The first `k` iterations of the scan loop around `step` (an iteration at the end of the
text does nothing). -/
def lex_steps (step : LexState → Except LexErr LexState) : Nat → LexState → Except LexErr LexState
  | 0, s => .ok s
  | k + 1, s =>
    match step s with
    | .error e => .error e
    | .ok s1 => lex_steps step k s1

/-- The scan of `source_code` arrives, after some iterations of the loop, without a lexical
error and without a write past the end of the token array, at the loop state `s`. -/
def scan_reaches (step : LexState → Except LexErr LexState) (source_code : List Char)
    (s : LexState) : Prop :=
  (∃ k, lex_steps step k ⟨source_code, false, [], 0⟩ = .ok s) ∧
    s.tokens.length ≤ MAX_STRING_LENGTH

/-- Every iteration of a scan loop on a text that has not ended consumes at least one
character, and an iteration at the end of the text changes nothing. -/
def Progress (step : LexState → Except LexErr LexState) : Prop :=
  (∀ s s1, s.ptr ≠ [] → step s = .ok s1 → s1.ptr.length < s.ptr.length) ∧
    (∀ s, s.ptr = [] → step s = .ok s)

/-- The integer-constant branch, the same text in both programs; `c` is `*ptr` and `rest`
the text after it. -/
def lex_integer (s : LexState) (c : Char) (rest : List Char) : Except LexErr LexState :=
  let sign : List Char := if c = '-' then ['-'] else []
  let body : List Char := if c = '-' then rest else c :: rest
  let d := scan_while isdigit (MAX_INTEGER_LENGTH + 1 - sign.length) body
  if sign.length + d.1.length > MAX_INTEGER_LENGTH then .error .integerTooLong
  else
    let value := atoi (sign ++ d.1)
    if value < 0 then
      .ok { s with ptr := d.2, tokens := s.tokens ++ [⟨.IntConst, sprintf_d 0⟩],
                   warnings := s.warnings + 1 }
    else
      .ok { s with ptr := d.2, tokens := s.tokens ++ [⟨.IntConst, sprintf_d value⟩] }

/-! ## The tokenizer of `starInterpreter.c` -/

namespace StarInterpreter

/-- Function `is_valid_identifier_char` of the source (the tokenizer does not call it). -/
def is_valid_identifier_char (ch : Char) : Bool :=
  isalnum ch || ch = '_'

/-- One iteration of the scan loop of `tokenize_source_code`, for a text that has not
ended. -/
def lex_step (s : LexState) : Except LexErr LexState :=
  match s.ptr with
  | [] => .ok s
  | c :: rest =>
    if isspace c then .ok { s with ptr := rest }
    else if c = '/' ∧ rest.head? = some '*' then
      .ok { s with ptr := rest.tail, in_comment := true }
    else if s.in_comment then
      match skip_comment (c :: rest) with
      | none => .error .unterminatedComment
      | some r => .ok { s with ptr := r, in_comment := false }
    else if isalpha c then
      let w := scan_while (fun ch => isalpha ch || ch = '_') MAX_IDENTIFIER_LENGTH (c :: rest)
      if is_keyword w.1 then
        .ok { s with ptr := w.2, tokens := s.tokens ++ [⟨.Keyword, w.1⟩] }
      else
        match w.2 with
        | [] => .ok { s with ptr := w.2, tokens := s.tokens ++ [⟨.Identifier, w.1⟩] }
        | d :: _ =>
          if isalpha d || d = '_' then .error .identifierTooLong
          else .ok { s with ptr := w.2, tokens := s.tokens ++ [⟨.Identifier, w.1⟩] }
    else if isdigit c || (c = '-' && next_is_digit rest) then lex_integer s c rest
    else if c = '\x22' then
      let b := scan_while (fun ch => ch != '\x22') MAX_STRING_LENGTH rest
      let after := match b.2 with
        | [] => []
        | q :: r => if q = '\x22' then r else q :: r
      if b.1.length ≥ MAX_STRING_LENGTH then .error .stringTooLong
      else if after.isEmpty then .error .unterminatedString
      else .ok { s with ptr := after, tokens := s.tokens ++ [⟨.String, b.1⟩] }
    else if c = '.' then .ok { s with ptr := rest, tokens := s.tokens ++ [⟨.EndOfLine, []⟩] }
    else if c = ',' then .ok { s with ptr := rest, tokens := s.tokens ++ [⟨.Comma, []⟩] }
    else if c = '+' ∨ c = '-' ∨ c = '*' then
      .ok { s with ptr := rest, tokens := s.tokens ++ [⟨.Operator, [c]⟩] }
    else if c = '\x7b' then
      .ok { s with ptr := rest, tokens := s.tokens ++ [⟨.LeftCurlyBracket, []⟩] }
    else if c = '\x7d' then
      .ok { s with ptr := rest, tokens := s.tokens ++ [⟨.RightCurlyBracket, []⟩] }
    else .ok { s with ptr := rest }

/-- Function `tokenize_source_code` of `starInterpreter.c`. Every iteration consumes at
least one character, so `length + 1` units of fuel are enough for the whole text. -/
def tokenize_source_code (source_code : List Char) : LexResult :=
  lex_loop lex_step (source_code.length + 1) ⟨source_code, false, [], 0⟩

end StarInterpreter

/-! ## The tokenizer of `lexical_analyzer.c` -/

namespace LexicalAnalyzer

/-- The comparison `*ptr == "_"` of the source compares the character code with the
address of a string literal, which is never a character code: it is always false. -/
def eq_string_literal_address (_ch : Char) : Bool :=
  false

/-- One iteration of the scan loop of `tokenize_source_code`, for a text that has not
ended. -/
def lex_step (s : LexState) : Except LexErr LexState :=
  match s.ptr with
  | [] => .ok s
  | c :: rest =>
    if isspace c then .ok { s with ptr := rest }
    else if c = '/' ∧ rest.head? = some '*' then
      .ok { s with ptr := rest.tail, in_comment := true }
    else if s.in_comment then
      match skip_comment (c :: rest) with
      | none => .error .unterminatedComment
      | some r => .ok { s with ptr := r, in_comment := false }
    else if isalpha c then
      let w := scan_while (fun ch => isalpha ch || eq_string_literal_address ch)
        MAX_IDENTIFIER_LENGTH (c :: rest)
      if is_keyword w.1 then
        .ok { s with ptr := w.2, tokens := s.tokens ++ [⟨.Keyword, w.1⟩] }
      else
        match w.2 with
        | [] => .ok { s with ptr := w.2, tokens := s.tokens ++ [⟨.Identifier, w.1⟩] }
        | d :: _ =>
          if isalpha d || eq_string_literal_address d then .error .identifierTooLong
          else .ok { s with ptr := w.2, tokens := s.tokens ++ [⟨.Identifier, w.1⟩] }
    else if isdigit c || (c = '-' && next_is_digit rest) then lex_integer s c rest
    else if c = '\x22' then
      let b := scan_while (fun ch => ch != '\x22') (MAX_STRING_LENGTH - 1) rest
      let closing : List Char := match b.2 with
        | [] => []
        | q :: _ => if q = '\x22' then ['\x22'] else []
      let after := match b.2 with
        | [] => []
        | q :: r => if q = '\x22' then r else q :: r
      if 1 + b.1.length + closing.length ≥ MAX_STRING_LENGTH then .error .stringTooLong
      else if after.isEmpty then .error .unterminatedString
      else .ok { s with ptr := after,
                        tokens := s.tokens ++ [⟨.String, '\x22' :: (b.1 ++ closing)⟩] }
    else if isalpha c then
      let w := scan_while isalpha MAX_STRING_LENGTH (c :: rest)
      .ok { s with ptr := w.2, tokens := s.tokens ++ [⟨.Keyword, w.1⟩] }
    else if c = '.' then .ok { s with ptr := rest, tokens := s.tokens ++ [⟨.EndOfLine, []⟩] }
    else if c = ',' then .ok { s with ptr := rest, tokens := s.tokens ++ [⟨.Comma, []⟩] }
    else if c = '+' ∨ c = '-' ∨ c = '*' ∨ c = '/' then
      .ok { s with ptr := rest, tokens := s.tokens ++ [⟨.Operator, [c]⟩] }
    else if c = '\x7b' then
      .ok { s with ptr := rest, tokens := s.tokens ++ [⟨.LeftCurlyBracket, []⟩] }
    else if c = '\x7d' then
      .ok { s with ptr := rest, tokens := s.tokens ++ [⟨.RightCurlyBracket, []⟩] }
    else .ok { s with ptr := rest }

/-- Function `tokenize_source_code` of `lexical_analyzer.c`. -/
def tokenize_source_code (source_code : List Char) : LexResult :=
  lex_loop lex_step (source_code.length + 1) ⟨source_code, false, [], 0⟩

end LexicalAnalyzer

/-! ## The interpreter of `starInterpreter.c` -/

namespace StarInterpreter

inductive VarType where
  | Integer
  | Text
  deriving DecidableEq

/-- The union `value` of a `Variable` together with its `type` tag: the source writes and
reads the member `intValue` exactly when the tag is `Integer` and `strValue` exactly when
it is `Text`, so the tag is the constructor. -/
inductive VarValue where
  | intValue (n : Int)
  | strValue (s : List Char)
  deriving DecidableEq

structure Variable where
  name : List Char
  value : VarValue
  deriving DecidableEq

/-- The `type` field of a `Variable`. -/
def Variable.type (v : Variable) : VarType :=
  match v.value with
  | .intValue _ => .Integer
  | .strValue _ => .Text

/-- The errors of the interpreter, each followed by `exit(EXIT_FAILURE)` in the source,
with the name or operator that the message prints. -/
inductive Err where
  | notDeclared (name : List Char)
  | readNotDeclared (name : List Char)
  | writeNotDeclared (name : List Char)
  | alreadyDeclared (name : List Char)
  | tooManyVariables
  | undefinedVariable (name : List Char)
  | notAnInteger (name : List Char)
  | divisionByZero
  | unknownOperator (op : Char)
  deriving DecidableEq

/-- The global state of a run: the array `variables` (its length is `var_count`), what has
been printed to stdout, the names for which the "Negative value forced to zero" warning was
printed to stderr, and the unread console input. -/
structure State where
  vars : List Variable
  stdout : List Char
  warnings : List (List Char)
  stdin : List Char
  deriving DecidableEq

/-- Outcome of a statement-level function: normal return with the new state and a result,
`exit(EXIT_FAILURE)` in a state, undefined behaviour, or fuel exhausted. -/
inductive Res (α : Type) where
  | ok (st : State) (a : α)
  | fatal (e : Err) (st : State)
  | undefined
  | outOfFuel
  deriving DecidableEq

/-- Sequencing: continue with the state and result of a normal return. -/
def Res.bind {α β : Type} (r : Res α) (f : State → α → Res β) : Res β :=
  match r with
  | .ok st a => f st a
  | .fatal e st => .fatal e st
  | .undefined => .undefined
  | .outOfFuel => .outOfFuel

/-- Function `find_variable`: linear scan, first match. -/
def find_variable (vars : List Variable) (name : List Char) : Option Variable :=
  vars.find? (fun v => v.name == name)

/-- Write through the pointer that `find_variable` returned: replace the value of the first
variable called `name`. -/
def store_value (name : List Char) (val : VarValue) : List Variable → List Variable
  | [] => []
  | v :: vs => if v.name == name then { v with value := val } :: vs
               else v :: store_value name val vs

/-- Function `declare_variable`. -/
def declare_variable (st : State) (name : List Char) (type : VarType) : Res Unit :=
  if (find_variable st.vars name).isSome then .fatal (.alreadyDeclared name) st
  else if st.vars.length ≥ MAX_VARIABLES then .fatal .tooManyVariables st
  else
    let value : VarValue := match type with
      | .Integer => .intValue 0
      | .Text => .strValue []
    .ok { st with vars := st.vars ++ [⟨name.take MAX_IDENTIFIER_LENGTH, value⟩] } ()

/-- The test of `evaluate_expression` for an integer constant:
`isdigit(token[0]) || (token[0] == '-' && isdigit(token[1]))`. -/
def is_integer_token (token : List Char) : Bool :=
  match token with
  | [] => false
  | c :: r => isdigit c || (c = '-' && next_is_digit r)

/-- The value of one operand of `evaluate_expression`. -/
def operand_value (vars : List Variable) (token : List Char) : Except Err Int :=
  if is_integer_token token then .ok (atoi token)
  else
    match find_variable vars token with
    | none => .error (.undefinedVariable token)
    | some var =>
      match var.value with
      | .intValue n => .ok n
      | .strValue _ => .error (.notAnInteger token)

/-- Outcome of `evaluate_expression`: the `int` returned, `exit(EXIT_FAILURE)` after an
error message, or undefined behaviour (the division `INT_MIN / -1`). -/
inductive Eval where
  | ok (value : Int)
  | error (e : Err)
  | undefined
  deriving DecidableEq

/-- The `switch (op)` of `evaluate_expression`; `/` is the truncating division of C, which
is guarded against the divisor 0 only: the quotient of `INT_MIN` by `-1` is not an `int`,
and the division traps. -/
def apply_operator (op : Char) (result value : Int) : Eval :=
  if op = '+' then .ok (toInt32 (result + value))
  else if op = '-' then .ok (toInt32 (result - value))
  else if op = '*' then .ok (toInt32 (result * value))
  else if op = '/' then
    if value = 0 then .error .divisionByZero
    else if result = -2147483648 ∧ value = -1 then .undefined
    else .ok (toInt32 (Int.tdiv result value))
  else .error (.unknownOperator op)

/-- The `while (token != NULL)` loop of `evaluate_expression` over the tokens that `strtok`
returns: an operand, then (when present) an operator token of which only the first
character is kept, then the next operand. -/
def evaluate_loop (vars : List Variable) : List (List Char) → Int → Char → Eval
  | [], result, _ => .ok result
  | token :: more, result, op =>
    match operand_value vars token with
    | .error e => .error e
    | .ok value =>
      match apply_operator op result value with
      | .error e => .error e
      | .undefined => .undefined
      | .ok result1 =>
        match more with
        | [] => .ok result1
        | optoken :: more1 => evaluate_loop vars more1 result1 (optoken.headD ' ')

/-- Function `evaluate_expression`: the text is cut to the 255 characters that fit the
buffer, split at spaces, and folded from `result = 0`, `op = '+'`. -/
def evaluate_expression (vars : List Variable) (expr : List Char) : Eval :=
  evaluate_loop vars (strtok_tokens (expr.take (MAX_STRING_LENGTH - 1)) []) 0 '+'

/-- Function `assign_variable`. -/
def assign_variable (st : State) (name value : List Char) : Res Unit :=
  match find_variable st.vars name with
  | none => .fatal (.notDeclared name) st
  | some var =>
    if value.contains '+' || value.contains '-' then
      match evaluate_expression st.vars value with
      | .error e => .fatal e st
      | .undefined => .undefined
      | .ok r =>
        let result : Int := if r < 0 then 0 else r
        match var.value with
        | .intValue _ =>
          .ok { st with vars := store_value name (.intValue result) st.vars } ()
        | .strValue _ =>
          let text := (sprintf_d result).take (MAX_STRING_LENGTH - 1)
          .ok { st with vars := store_value name (.strValue text) st.vars } ()
    else
      match var.value with
      | .intValue _ =>
        if atoi value < 0 then
          .ok { st with vars := store_value name (.intValue 0) st.vars,
                        warnings := st.warnings ++ [name] } ()
        else
          .ok { st with vars := store_value name (.intValue (atoi value)) st.vars } ()
      | .strValue _ =>
        let text := value.take (MAX_STRING_LENGTH - 1)
        .ok { st with vars := store_value name (.strValue text) st.vars } ()

/-- The conversion `scanf("%d", &value)`: skip white space, then an optional sign and at
least one digit; `none` when the input does not start with a number (then `value` stays
uninitialised). Returns the value and the unread input. -/
def scanf_d (input : List Char) : Option (Int × List Char) :=
  let s := input.dropWhile isspace
  let body := match s with
    | [] => []
    | c :: r => if c = '-' ∨ c = '+' then r else c :: r
  if next_is_digit body then some (atoi s, body.dropWhile isdigit) else none

/-- The conversion `scanf("%s", value)`: skip white space, then the run of characters up to
the next white space; `none` at the end of the input. -/
def scanf_s (input : List Char) : Option (List Char × List Char) :=
  let s := input.dropWhile isspace
  if s.isEmpty then none
  else some (s.takeWhile (fun c => !isspace c), s.dropWhile (fun c => !isspace c))

/-- The `while (current_token->type == Identifier)` loop of `handle_read`. -/
def read_loop : State → List Token → Res (List Token)
  | _, [] => .undefined
  | st, t :: rest =>
    if t.type ≠ .Identifier then .ok st (t :: rest)
    else
      match find_variable st.vars t.value with
      | none => .fatal (.readNotDeclared t.value) st
      | some var =>
        let stored : Option State := match var.value with
          | .intValue _ =>
            match scanf_d st.stdin with
            | none => none
            | some (value, input) =>
              some { st with
                vars := store_value t.value (.intValue value) st.vars
                stdout := st.stdout ++ "Enter integer value for ".toList ++ t.value ++ ": ".toList
                stdin := input }
          | .strValue _ =>
            match scanf_s st.stdin with
            | none => none
            | some (value, input) =>
              some { st with
                vars := store_value t.value (.strValue value) st.vars
                stdout := st.stdout ++ "Enter string value for ".toList ++ t.value ++ ": ".toList
                stdin := input }
        match stored with
        | none => .undefined
        | some st1 =>
          match rest with
          | [] => .undefined
          | t1 :: rest1 =>
            if t1.type = .Comma then read_loop st1 rest1 else .ok st1 (t1 :: rest1)

/-- The closing `if (current_token->type == EndOfLine) current_token++;` of the statement
functions. -/
def skip_end_of_line (st : State) (current_token : List Token) : Res (List Token) :=
  match current_token with
  | [] => .undefined
  | t :: rest => if t.type = .EndOfLine then .ok st rest else .ok st (t :: rest)

/-- Function `handle_read`; the cursor is just past the keyword `read`. -/
def handle_read (st : State) (tokens : List Token) : Res (List Token) :=
  (read_loop st tokens).bind skip_end_of_line

/-- The text that one item of a write statement prints: a variable's value or a string
token's text. -/
def write_item (var : Variable) : List Char :=
  match var.value with
  | .intValue n => sprintf_d n
  | .strValue s => s

/-- The `while (type == Identifier || type == String)` loop of `handle_write`. -/
def write_loop : State → List Token → Res (List Token)
  | _, [] => .undefined
  | st, t :: rest =>
    if t.type = .Identifier ∨ t.type = .String then
      let printed : Res Unit :=
        if t.type = .Identifier then
          match find_variable st.vars t.value with
          | none => .fatal (.writeNotDeclared t.value) st
          | some var => .ok { st with stdout := st.stdout ++ write_item var } ()
        else .ok { st with stdout := st.stdout ++ t.value } ()
      printed.bind fun st1 _ =>
        match rest with
        | [] => .undefined
        | t1 :: rest1 =>
          if t1.type = .Comma then write_loop st1 rest1 else .ok st1 (t1 :: rest1)
    else .ok st (t :: rest)

/-- Function `handle_write`; the cursor is at the keyword `write` or `newLine`. -/
def handle_write (st : State) (tokens : List Token) : Res (List Token) :=
  match tokens with
  | [] => .undefined
  | t :: rest =>
    if t.value = "write".toList then (write_loop st rest).bind skip_end_of_line
    else if t.value = "newLine".toList then
      skip_end_of_line { st with stdout := st.stdout ++ ['\n'] } rest
    else .ok st (t :: rest)

/-- The loop `while (current_token->type != RightCurlyBracket) execute_statement(...)` of
`handle_loop`, around the statement executor `exec`. -/
def loop_body (exec : State → List Token → Res (List Token)) :
    Nat → State → List Token → Res (List Token)
  | 0, _, _ => .outOfFuel
  | _ + 1, _, [] => .undefined
  | fuel + 1, st, t :: rest =>
    if t.type = .RightCurlyBracket then .ok st (t :: rest)
    else (exec st (t :: rest)).bind fun st1 cur => loop_body exec fuel st1 cur

/-- The loop `for (int i = 0; i < loop_count; i++)` of `handle_loop`: every iteration
resets the cursor to `loop_body_start`; the third argument is the iterations left. -/
def loop_iterations (exec : State → List Token → Res (List Token)) (fuel : Nat)
    (loop_body_start : List Token) : Nat → State → List Token → Res (List Token)
  | 0, st, current_token => .ok st current_token
  | n + 1, st, _ =>
    (loop_body exec fuel st loop_body_start).bind fun st1 cur =>
      loop_iterations exec fuel loop_body_start n st1 cur

/-- Function `handle_loop`, around the statement executor `exec`; the cursor is at the
keyword `loop`. -/
def handle_loop (exec : State → List Token → Res (List Token)) (fuel : Nat)
    (st : State) (tokens : List Token) : Res (List Token) :=
  match tokens.tail with
  | [] => .undefined
  | t1 :: r1 =>
    if t1.type = .IntConst then
      let loop_count := atoi t1.value
      match r1 with
      | [] => .undefined
      | t2 :: r2 =>
        if t2.value = "times".toList then
          match r2 with
          | [] => .undefined
          | t3 :: r3 =>
            if t3.type = .LeftCurlyBracket then
              (loop_iterations exec fuel r3 loop_count.toNat st r3).bind fun st1 cur =>
                .ok st1 cur.tail
            else .ok st (t3 :: r3)
        else .ok st (t2 :: r2)
    else .ok st (t1 :: r1)

/-- The `while (current_token->type == Identifier)` loop of the declaration branch of
`execute_statement`. The bindings `next_at_rest` and `next_at_rest2` are the next iteration
of the loop at a cursor that a later `match` takes apart (when no Comma is skipped). -/
def declaration_loop (var_type : VarType) : State → List Token → Res (List Token)
  | _, [] => .undefined
  | st, t :: rest =>
    if t.type ≠ .Identifier then .ok st (t :: rest)
    else
      let next_at_rest := fun st1 => declaration_loop var_type st1 rest
      match rest with
      | [] => .undefined
      | t1 :: rest1 =>
        if t1.type = .Keyword ∧ t1.value = "is".toList then
          match rest1 with
          | [] => .undefined
          | t2 :: rest2 =>
            let next_at_rest2 := fun st2 => declaration_loop var_type st2 rest2
            (declare_variable st t.value var_type).bind fun st1 _ =>
              (assign_variable st1 t.value t2.value).bind fun st2 _ =>
                match rest2 with
                | [] => .undefined
                | t3 :: rest3 =>
                  if t3.type = .Comma then declaration_loop var_type st2 rest3
                  else next_at_rest2 st2
        else
          (declare_variable st t.value var_type).bind fun st1 _ =>
            if t1.type = .Comma then declaration_loop var_type st1 rest1
            else next_at_rest st1

/-- The loop of the assignment branch that appends `" "` and the token text to
`expression` while the token is an Operator, Identifier or IntConst; `none` when the cursor
leaves the array. -/
def collect_expression : List Char → List Token → Option (List Char × List Token)
  | _, [] => none
  | expression, t :: rest =>
    if t.type = .Operator ∨ t.type = .Identifier ∨ t.type = .IntConst then
      collect_expression (expression ++ ' ' :: t.value) rest
    else some (expression, t :: rest)

/-- The assignment branch of `execute_statement`; the cursor is at the identifier. -/
def assignment (st : State) (var_name : List Char) (after_name : List Token) :
    Res (List Token) :=
  match after_name with
  | [] => .undefined
  | t1 :: rest1 =>
    if t1.type = .Keyword ∧ t1.value = "is".toList then
      match rest1 with
      | [] => .undefined
      | t2 :: rest2 =>
        match collect_expression t2.value rest2 with
        | none => .undefined
        | some (expression, current_token) =>
          match evaluate_expression st.vars expression with
          | .error e => .fatal e st
          | .undefined => .undefined
          | .ok result =>
            (assign_variable st var_name (sprintf_d result)).bind fun st1 _ =>
              .ok st1 current_token
    else .ok st (t1 :: rest1)

/-- Function `execute_statement`. The fuel bounds the nesting of loops (and, inside
`handle_loop`, the statements of one pass over a loop body). -/
def execute_statement : Nat → State → List Token → Res (List Token)
  | 0, _, _ => .outOfFuel
  | _ + 1, _, [] => .undefined
  | fuel + 1, st, t :: rest =>
    let branch : Res (List Token) :=
      if t.type = .Keyword ∧ (t.value = "int".toList ∨ t.value = "text".toList) then
        declaration_loop (if t.value = "int".toList then .Integer else .Text) st rest
      else if t.type = .Identifier then assignment st t.value rest
      else if t.type = .Keyword then
        if t.value = "read".toList then handle_read st rest
        else if t.value = "write".toList ∨ t.value = "newLine".toList then
          handle_write st (t :: rest)
        else if t.value = "loop".toList then
          handle_loop (execute_statement fuel) fuel st (t :: rest)
        else .ok st (t :: rest)
      else .ok st (t :: rest)
    branch.bind skip_end_of_line

/-- Function `interpret`: `while (current_token->type != Terminator) execute_statement`. -/
def interpret : Nat → State → List Token → Res Unit
  | 0, _, _ => .outOfFuel
  | _ + 1, _, [] => .undefined
  | fuel + 1, st, t :: rest =>
    if t.type = .Terminator then .ok st ()
    else (execute_statement fuel st (t :: rest)).bind fun st1 cur => interpret fuel st1 cur

/-- The state in which `main` starts: no variable, nothing printed, console input `input`. -/
def initial_state (input : List Char) : State :=
  ⟨[], [], [], input⟩

/-- Outcome of a whole run of `main` on a source text. -/
inductive RunResult where
  | lexical (e : LexErr)
  | finished (r : Res Unit)
  deriving DecidableEq

/-- Function `main` after the file has been read: tokenize, then interpret. -/
def run (fuel : Nat) (source_code input : List Char) : RunResult :=
  match tokenize_source_code source_code with
  | .error e => .lexical e
  | .undefined => .finished .undefined
  | .outOfFuel => .finished .outOfFuel
  | .tokens ts _ => .finished (interpret fuel (initial_state input) ts)

end StarInterpreter

end Star

/-! ## Notions used to state the properties -/

namespace Star

/-- A decimal literal: a non-empty text of decimal digits. -/
def is_literal (lit : List Char) : Prop :=
  lit ≠ [] ∧ ∀ c ∈ lit, isdigit c = true

instance is_literal.decidable (lit : List Char) : Decidable (is_literal lit) :=
  inferInstanceAs (Decidable (lit ≠ [] ∧ ∀ c ∈ lit, isdigit c = true))

/-- The number that a decimal literal denotes. -/
def literal_value (lit : List Char) : Int :=
  ((lit.foldl (fun acc c => acc * 10 + (c.toNat - 48)) 0 : Nat) : Int)

/-- The words of a text, each preceded by one space. -/
def spaced_words : List (List Char) → List Char
  | [] => []
  | w :: more => ' ' :: (w ++ spaced_words more)

/-- The words after the first operand of an expression: for every pair, the operator
character and the operand. -/
def tail_words : List (Char × List Char) → List (List Char)
  | [] => []
  | (op, operand) :: more => [op] :: operand :: tail_words more

/-- The text `operand (operator operand)*` with single spaces between the items. -/
def expression_text (first : List Char) (tail : List (Char × List Char)) : List Char :=
  first ++ spaced_words (tail_words tail)

/-- The operators `+`, `-` and `*` on mathematical integers (`*` for any other character). -/
def apply_written (op : Char) (a b : Int) : Int :=
  if op = '+' then a + b else if op = '-' then a - b else a * b

/-- The left-to-right fold of the operators over the operands, in written order, from the
first operand. -/
def fold_left_to_right (first : Int) (tail : List (Char × Int)) : Int :=
  tail.foldl (fun acc p => apply_written p.1 acc p.2) first

/-- The range of a 32-bit `int`. -/
def in_int32 (z : Int) : Prop :=
  -2147483648 ≤ z ∧ z ≤ 2147483647

instance in_int32.decidable (z : Int) : Decidable (in_int32 z) :=
  inferInstanceAs (Decidable (-2147483648 ≤ z ∧ z ≤ 2147483647))

/-- All intermediate values of the left-to-right fold (every operand and every partial
result) fit in a 32-bit `int`. -/
def values_fit : Int → List (Char × Int) → Prop
  | acc, [] => in_int32 acc
  | acc, (op, v) :: more => in_int32 acc ∧ in_int32 v ∧ values_fit (apply_written op acc v) more

instance values_fit.decidable : ∀ (acc : Int) (l : List (Char × Int)), Decidable (values_fit acc l)
  | acc, [] => inferInstanceAs (Decidable (in_int32 acc))
  | acc, (op, v) :: more =>
    have := values_fit.decidable (apply_written op acc v) more
    inferInstanceAs (Decidable (in_int32 acc ∧ in_int32 v ∧ values_fit (apply_written op acc v) more))

namespace StarInterpreter

/-- An operand token of a well-formed expression: an Identifier or IntConst token whose
text is not empty and has no space. -/
def is_operand_token (t : Token) : Prop :=
  (t.type = .Identifier ∨ t.type = .IntConst) ∧ t.value ≠ [] ∧ ∀ c ∈ t.value, c ≠ ' '

/-- The name of an identifier: it starts with a letter and has no space. -/
def is_name (n : List Char) : Prop :=
  ∃ c cs, n = c :: cs ∧ isalpha c = true ∧ ∀ x ∈ cs, x ≠ ' '

/-- The tokens after the first operand of an expression: for every pair, an Operator token
with the operator character as text and the operand token. -/
def expression_tail_tokens : List (Char × Token) → List Token
  | [] => []
  | (op, operand) :: more => ⟨.Operator, [op]⟩ :: operand :: expression_tail_tokens more

/-- The text that the assignment branch of `execute_statement` builds for the expression
`first tail`: the token texts separated by single spaces. -/
def tokens_text (first : Token) (tail : List (Char × Token)) : List Char :=
  first.value ++ spaced_words (tail_words (tail.map fun p => (p.1, p.2.value)))

/-- The source text of the program `int x is 0. loop N times { x is x + 1. }`, with the
count written in decimal. -/
def loop_program (N : Nat) : List Char :=
  "int x is 0. loop ".toList ++ (render_nat N ++ " times \x7b x is x + 1. \x7d".toList)

/-- An item of a write statement: a variable name or a string literal, given by the
characters between its quotes. -/
inductive WriteItem where
  | var (name : List Char)
  | str (body : List Char)

/-- The source text of an item. -/
def WriteItem.source : WriteItem → List Char
  | .var name => name
  | .str body => '\x22' :: (body ++ ['\x22'])

/-- The token of an item in the token sequence of `starInterpreter.c`. -/
def WriteItem.token : WriteItem → Token
  | .var name => ⟨.Identifier, name⟩
  | .str body => ⟨.String, body⟩

/-- An item that the tokenizer accepts and `handle_write` can print: a variable's name is
a word of at most 10 letters and underscores that starts with a letter, is not a keyword
and is declared; a literal's body has no double quote and fewer than 256 characters. -/
def WriteItem.well_formed (vars : List Variable) : WriteItem → Prop
  | .var name =>
    (∃ c cs, name = c :: cs ∧ isalpha c = true ∧
      ∀ x ∈ cs, (isalpha x || decide (x = '_')) = true) ∧
    name.length ≤ 10 ∧ is_keyword name = false ∧ (find_variable vars name).isSome = true
  | .str body => (∀ x ∈ body, x ≠ '\x22') ∧ body.length < 256

/-- The source text after the first item of a write statement: `, ` and the source of
every further item, then the closing `.`. -/
def more_items_source : List WriteItem → List Char
  | [] => ['.']
  | i :: more => ',' :: ' ' :: (i.source ++ more_items_source more)

/-- The source text of the statement `write i, i1, ..., ik.`. -/
def write_source (first : WriteItem) (more : List WriteItem) : List Char :=
  "write ".toList ++ (first.source ++ more_items_source more)

/-- The tokens of one declarator: a name, optionally followed by `is` and one value
token. -/
def declarator_tokens (d : List Char × Option Token) : List Token :=
  match d.2 with
  | none => [⟨.Identifier, d.1⟩]
  | some v => [⟨.Identifier, d.1⟩, ⟨.Keyword, "is".toList⟩, v]

/-- The tokens that follow the first declarator of a declaration statement: a Comma and
the tokens of every further declarator, then the EndOfLine token. -/
def more_declarators_tokens : List (List Char × Option Token) → List Token
  | [] => [⟨.EndOfLine, []⟩]
  | d :: more => ⟨.Comma, []⟩ :: (declarator_tokens d ++ more_declarators_tokens more)

/-- The tokens of the declaration statement `keyword d, d1, ..., dk.`. -/
def declaration_tokens (keyword : List Char) (first : List Char × Option Token)
    (more : List (List Char × Option Token)) : List Token :=
  ⟨.Keyword, keyword⟩ :: (declarator_tokens first ++ more_declarators_tokens more)

/-- A declarator list names an already declared variable: one of its names is in the
symbol table, or one name occurs twice in the list. -/
def names_declared_variable (st : State) (ds : List (List Char × Option Token)) : Prop :=
  (∃ d ∈ ds, (find_variable st.vars d.1).isSome = true) ∨ ¬ (ds.map Prod.fst).Nodup

end StarInterpreter

end Star

/-! ## Notions used to state the properties of integer tokens -/

namespace Star

/-- The value of an integer literal as written: the decimal value of its digits, negated
when the literal has a leading `-`. -/
def written_value (sign digits : List Char) : Int :=
  if sign = ['-'] then -literal_value digits else literal_value digits

/-- An IntConst token carries the decimal rendering of a natural number. -/
def canonical_integer_token (t : Token) : Prop :=
  t.type = .IntConst → ∃ n : Nat, t.value = render_nat n

end Star

/-! ## Notions used to state the properties of assignments -/

namespace Star

/-- The operators `+`, `-`, `*` and the truncating division `/` of C on mathematical
integers. -/
def apply_arith (op : Char) (a b : Int) : Int :=
  if op = '/' then Int.tdiv a b else apply_written op a b

/-- The left-to-right fold of the four operators over the operands, in written order, from
the first operand. -/
def fold_arith (first : Int) (tail : List (Char × Int)) : Int :=
  tail.foldl (fun acc p => apply_arith p.1 acc p.2) first

/-- The left-to-right evaluation stays within the 32-bit range: no divisor is 0, and every
operand and every partial result fits in an `int`. -/
def arith_fit : Int → List (Char × Int) → Prop
  | acc, [] => in_int32 acc
  | acc, (op, v) :: more =>
    in_int32 acc ∧ in_int32 v ∧ (op = '/' → v ≠ 0) ∧ arith_fit (apply_arith op acc v) more

instance arith_fit.decidable : ∀ (acc : Int) (l : List (Char × Int)), Decidable (arith_fit acc l)
  | acc, [] => inferInstanceAs (Decidable (in_int32 acc))
  | acc, (op, v) :: more =>
    have := arith_fit.decidable (apply_arith op acc v) more
    inferInstanceAs (Decidable (in_int32 acc ∧ in_int32 v ∧ (op = '/' → v ≠ 0) ∧
      arith_fit (apply_arith op acc v) more))

namespace StarInterpreter

/-- An operand of an expression: an integer literal, given by its digits, or the name of a
variable. -/
inductive Operand where
  | lit (digits : List Char)
  | var (name : List Char)

/-- The token of an operand. -/
def Operand.token : Operand → Token
  | .lit digits => ⟨.IntConst, digits⟩
  | .var name => ⟨.Identifier, name⟩

/-- A well-formed operand: a decimal literal, or an identifier that names a declared
Integer variable. -/
def Operand.well_formed (vars : List Variable) : Operand → Prop
  | .lit digits => is_literal digits
  | .var name => is_name name ∧ ∃ v, find_variable vars name = some v ∧ v.type = .Integer

/-- The value of an operand: the number that the literal denotes, or the value of the
variable (0 for a name that is not an Integer variable). -/
def Operand.value (vars : List Variable) : Operand → Int
  | .lit digits => literal_value digits
  | .var name =>
    match find_variable vars name with
    | some v =>
      match v.value with
      | .intValue k => k
      | .strValue _ => 0
    | none => 0

/-- One of the four operator characters of the grammar. -/
def is_operator (op : Char) : Prop :=
  op = '+' ∨ op = '-' ∨ op = '*' ∨ op = '/'

instance is_operator.decidable (op : Char) : Decidable (is_operator op) :=
  inferInstanceAs (Decidable (op = '+' ∨ op = '-' ∨ op = '*' ∨ op = '/'))

end StarInterpreter

end Star

/-! ## Notions used to state the properties of the symbol table -/

namespace Star

namespace StarInterpreter

/-- The zero value of a kind: 0 for Integer, the empty text for Text. -/
def zero_value (kind : VarType) : VarValue :=
  match kind with
  | .Integer => .intValue 0
  | .Text => .strValue []

/-- A call that changes the symbol table: `declare_variable(name, type)` or
`assign_variable(name, value)`. -/
inductive TableCall where
  | declare (name : List Char) (type : VarType)
  | assign (name value : List Char)

/-- The name that a call is given. -/
def TableCall.name : TableCall → List Char
  | .declare name _ => name
  | .assign name _ => name

/-- The call made in a state. -/
def TableCall.apply (st : State) : TableCall → Res Unit
  | .declare name type => declare_variable st name type
  | .assign name value => assign_variable st name value

/-- A sequence of calls made one after the other; the first call that exits ends the
sequence. -/
def apply_calls : State → List TableCall → Res Unit
  | st, [] => .ok st ()
  | st, c :: more => (c.apply st).bind fun st1 _ => apply_calls st1 more

/-- The two-letter name number `i`: `aa`, `ab`, ..., `aj`, `ba`, ... -/
def two_letter_name (i : Nat) : List Char :=
  [Char.ofNat (97 + i / 10), Char.ofNat (97 + i % 10)]

/-- The declarations of the Integer variables `aa`, `ab`, ..., `jj`: one hundred distinct
names. -/
def hundred_declarations : List TableCall :=
  (List.range 100).map fun i => .declare (two_letter_name i) .Integer

end StarInterpreter

end Star

/-! ## Notions used to state when expression evaluation fails -/

namespace Star

namespace StarInterpreter

/-- An operand as an expression text can show it: a decimal literal within the range of
`int`, or an identifier name. -/
def Operand.is_written : Operand → Prop
  | .lit digits => is_literal digits ∧ in_int32 (literal_value digits)
  | .var name => is_name name

/-- An operand that has no integer value: an identifier that is undeclared or names a
variable that is not an Integer. -/
def Operand.unusable (vars : List Variable) : Operand → Prop
  | .lit _ => False
  | .var name =>
    match find_variable vars name with
    | none => True
    | some v => v.type ≠ .Integer

/-- The pair `op x` of an expression is one that must fail: the operand is an undeclared
identifier or names a non-Integer variable, or the operator is `/` and the operand has the
value 0, or the operator is not one of `+ - * /`. -/
def fails_at (vars : List Variable) (op : Char) (x : Operand) : Prop :=
  x.unusable vars ∨ (op = '/' ∧ x.value vars = 0) ∨ ¬ is_operator op

/-- The expression `first tail` has, somewhere from left to right, an operand that is an
undeclared identifier or names a non-Integer variable, or a `/` whose right operand has the
value 0, or an operator that is not one of `+ - * /`. -/
def must_fail (vars : List Variable) (first : Operand) (tail : List (Char × Operand)) : Prop :=
  first.unusable vars ∨ ∃ p ∈ tail, fails_at vars p.1 p.2

end StarInterpreter

end Star

/-! ## Notions used to compare the two tokenizers -/

namespace Star

/-- A text of the common language of the two tokenizers: it has no underscore, no double
quote and no `/`. -/
def in_common_language (text : List Char) : Prop :=
  ∀ c ∈ text, c ≠ '_' ∧ c ≠ '\x22' ∧ c ≠ '/'

instance in_common_language.decidable (text : List Char) : Decidable (in_common_language text) :=
  inferInstanceAs (Decidable (∀ c ∈ text, c ≠ '_' ∧ c ≠ '\x22' ∧ c ≠ '/'))

end Star

/-! # Verification -/

namespace Star

/-! ## The scan loop: progress and fuel -/

theorem scan_while_length (p : Char → Bool) (n : Nat) (s : List Char) :
    (scan_while p n s).1.length + (scan_while p n s).2.length = s.length := by
  induction n generalizing s with
  | zero => simp [scan_while]
  | succ n ih =>
    cases s with
    | nil => simp [scan_while]
    | cons c r =>
      by_cases h : p c = true
      · have := ih r
        simp [scan_while, h]
        omega
      · simp [scan_while, h]

theorem scan_while_append (p : Char → Bool) (n : Nat) (s : List Char) :
    (scan_while p n s).1 ++ (scan_while p n s).2 = s := by
  induction n generalizing s with
  | zero => simp [scan_while]
  | succ n ih =>
    cases s with
    | nil => simp [scan_while]
    | cons c r =>
      by_cases h : p c = true
      · simp [scan_while, h, ih r]
      · simp [scan_while, h]

theorem scan_while_rest_le (p : Char → Bool) (n : Nat) (s : List Char) :
    (scan_while p n s).2.length ≤ s.length := by
  have := scan_while_length p n s
  omega

theorem scan_while_cons_lt (p : Char → Bool) (n : Nat) (c : Char) (r : List Char)
    (h : p c = true) : (scan_while p (n + 1) (c :: r)).2.length < (c :: r).length := by
  have := scan_while_rest_le p n r
  simp [scan_while, h]
  omega

/-- A run `w` of at most `n` characters that satisfy `p`, followed by the end of the text or
by a character that does not, is what the loop copies. -/
theorem scan_while_run (p : Char → Bool) (n : Nat) (w rest : List Char)
    (hw : ∀ c ∈ w, p c = true) (hn : w.length ≤ n)
    (hrest : ∀ d r, rest = d :: r → p d = false) :
    scan_while p n (w ++ rest) = (w, rest) := by
  induction w generalizing n with
  | nil =>
    cases n with
    | zero => simp [scan_while]
    | succ n =>
      cases rest with
      | nil => simp [scan_while]
      | cons d r => simp [scan_while, hrest d r rfl]
  | cons c w ih =>
    cases n with
    | zero => simp at hn
    | succ n =>
      have hc : p c = true := hw c (by simp)
      have := ih n (fun x hx => hw x (by simp [hx])) (by simpa using hn)
      simp [scan_while, hc, this]

/-- A run of more than `n` characters that satisfy `p`: the loop stops at the budget. -/
theorem scan_while_budget (p : Char → Bool) (n : Nat) (w rest : List Char)
    (hw : ∀ c ∈ w, p c = true) (hn : n ≤ w.length) :
    scan_while p n (w ++ rest) = (w.take n, w.drop n ++ rest) := by
  induction n generalizing w with
  | zero => simp [scan_while]
  | succ n ih =>
    cases w with
    | nil => simp at hn
    | cons c w =>
      have hc : p c = true := hw c (by simp)
      have := ih w (fun x hx => hw x (by simp [hx])) (by simpa using hn)
      simp [scan_while, hc, this]

theorem skip_comment_length (s r : List Char) (h : skip_comment s = some r) :
    r.length < s.length := by
  induction s with
  | nil => simp [skip_comment] at h
  | cons c t ih =>
    unfold skip_comment at h
    split at h
    · cases t with
      | nil => simp at h; subst h; simp
      | cons d u => simp at h; subst h; simp; omega
    · have := ih h
      simp
      omega

theorem lex_integer_ok (s s1 : LexState) (c : Char) (rest : List Char)
    (h : lex_integer s c rest = .ok s1) :
    s1.ptr = (scan_while isdigit (MAX_INTEGER_LENGTH + 1 - (if c = '-' then ['-'] else []).length)
      (if c = '-' then rest else c :: rest)).2 := by
  simp only [lex_integer] at h
  split_ifs at h <;> (try cases h) <;> simp [*]

theorem lex_integer_progress (s s1 : LexState) (c : Char) (rest : List Char)
    (hc : isdigit c = true ∨ c = '-')
    (h : lex_integer s c rest = .ok s1) : s1.ptr.length < (c :: rest).length := by
  rw [lex_integer_ok s s1 c rest h]
  by_cases hm : c = '-'
  · rw [if_pos hm, if_pos hm]
    have := scan_while_rest_le isdigit (MAX_INTEGER_LENGTH + 1 - ['-'].length) rest
    simp only [List.length_cons] at this ⊢
    omega
  · have hd : isdigit c = true := by
      rcases hc with h1 | h1
      · exact h1
      · exact absurd h1 hm
    have := scan_while_cons_lt isdigit MAX_INTEGER_LENGTH c rest hd
    simpa [hm] using this

theorem StarInterpreter.interpreter_lex_step_progress : Progress StarInterpreter.lex_step := by
  constructor
  · intro s s1 hne h
    unfold StarInterpreter.lex_step at h
    split at h
    · rename_i hp; exact absurd hp hne
    · rename_i c rest hp
      rw [hp]
      by_cases h1 : isspace c = true
      · rw [if_pos h1] at h; injection h with h; subst h; simp
      rw [if_neg h1] at h
      by_cases h2 : c = '/' ∧ rest.head? = some '*'
      · rw [if_pos h2] at h; injection h with h; subst h; simp; exact Nat.lt_succ_of_le (by simp)
      rw [if_neg h2] at h
      by_cases h3 : s.in_comment = true
      · rw [if_pos h3] at h
        split at h
        · cases h
        · rename_i r hr
          injection h with h; subst h
          simpa using skip_comment_length _ _ hr
      rw [if_neg h3] at h
      by_cases h4 : isalpha c = true
      · rw [if_pos h4] at h
        have hlt := scan_while_cons_lt (fun ch => isalpha ch || decide (ch = '_')) 9 c rest
          (by simp [h4])
        simp only [] at h
        split_ifs at h
        · injection h with h; subst h; exact hlt
        · split at h
          · injection h with h; subst h; exact hlt
          · split_ifs at h
            injection h with h; subst h; exact hlt
      rw [if_neg h4] at h
      by_cases h5 : (isdigit c || (decide (c = '-') && next_is_digit rest)) = true
      · rw [if_pos h5] at h
        apply lex_integer_progress s s1 c rest _ h
        simp at h5
        rcases h5 with h1 | h1
        · exact Or.inl h1
        · exact Or.inr h1.1
      rw [if_neg h5] at h
      by_cases h6 : c = '\x22'
      · rw [if_pos h6] at h
        simp only [] at h
        split_ifs at h
        injection h with h; subst h
        have := scan_while_rest_le (fun ch => ch != '\x22') MAX_STRING_LENGTH rest
        simp only []
        split
        · simp
        · rename_i q r hq
          rw [hq] at this
          split
          · simp at this ⊢; omega
          · simp at this ⊢; omega
      rw [if_neg h6] at h
      split_ifs at h <;> (injection h with h; subst h; simp)
  · intro s hs
    unfold StarInterpreter.lex_step
    rw [hs]

theorem LexicalAnalyzer.analyzer_lex_step_progress : Progress LexicalAnalyzer.lex_step := by
  constructor
  · intro s s1 hne h
    unfold LexicalAnalyzer.lex_step at h
    split at h
    · rename_i hp; exact absurd hp hne
    · rename_i c rest hp
      rw [hp]
      by_cases h1 : isspace c = true
      · rw [if_pos h1] at h; injection h with h; subst h; simp
      rw [if_neg h1] at h
      by_cases h2 : c = '/' ∧ rest.head? = some '*'
      · rw [if_pos h2] at h; injection h with h; subst h; simp; exact Nat.lt_succ_of_le (by simp)
      rw [if_neg h2] at h
      by_cases h3 : s.in_comment = true
      · rw [if_pos h3] at h
        split at h
        · cases h
        · rename_i r hr
          injection h with h; subst h
          simpa using skip_comment_length _ _ hr
      rw [if_neg h3] at h
      by_cases h4 : isalpha c = true
      · rw [if_pos h4] at h
        have hlt := scan_while_cons_lt
          (fun ch => isalpha ch || LexicalAnalyzer.eq_string_literal_address ch) 9 c rest
          (by simp [h4])
        simp only [] at h
        split_ifs at h
        · injection h with h; subst h; exact hlt
        · split at h
          · injection h with h; subst h; exact hlt
          · split_ifs at h
            injection h with h; subst h; exact hlt
      rw [if_neg h4] at h
      by_cases h5 : (isdigit c || (decide (c = '-') && next_is_digit rest)) = true
      · rw [if_pos h5] at h
        apply lex_integer_progress s s1 c rest _ h
        simp at h5
        rcases h5 with h1 | h1
        · exact Or.inl h1
        · exact Or.inr h1.1
      rw [if_neg h5] at h
      by_cases h6 : c = '\x22'
      · rw [if_pos h6] at h
        simp only [] at h
        split_ifs at h
        injection h with h; subst h
        have := scan_while_rest_le (fun ch => ch != '\x22') (MAX_STRING_LENGTH - 1) rest
        simp only []
        split
        · simp
        · rename_i q r hq
          rw [hq] at this
          split
          · simp at this ⊢; omega
          · simp at this ⊢; omega
      rw [if_neg h6] at h
      split_ifs at h <;> (injection h with h; subst h; simp)
  · intro s hs
    unfold LexicalAnalyzer.lex_step
    rw [hs]

/-- With enough fuel for the remaining text the amount of fuel does not matter. -/
theorem lex_loop_fuel (step : LexState → Except LexErr LexState) (hp : Progress step)
    (n : Nat) : ∀ (s : LexState) (f1 f2 : Nat), s.ptr.length ≤ n → s.ptr.length < f1 →
      s.ptr.length < f2 → lex_loop step f1 s = lex_loop step f2 s := by
  induction n with
  | zero =>
    intro s f1 f2 hn h1 h2
    have hnil : s.ptr = [] := List.length_eq_zero.mp (Nat.le_zero.mp hn)
    obtain ⟨g1, rfl⟩ : ∃ g, f1 = g + 1 := ⟨f1 - 1, by omega⟩
    obtain ⟨g2, rfl⟩ : ∃ g, f2 = g + 1 := ⟨f2 - 1, by omega⟩
    simp [lex_loop, hnil]
  | succ n ih =>
    intro s f1 f2 hn h1 h2
    obtain ⟨g1, rfl⟩ : ∃ g, f1 = g + 1 := ⟨f1 - 1, by omega⟩
    obtain ⟨g2, rfl⟩ : ∃ g, f2 = g + 1 := ⟨f2 - 1, by omega⟩
    cases hs : s.ptr with
    | nil => simp [lex_loop, hs]
    | cons c r =>
      cases hstep : step s with
      | error e => simp [lex_loop, hs, hstep]
      | ok s1 =>
        have hlt := hp.1 s s1 (by simp [hs]) hstep
        simp only [lex_loop, hs, hstep]
        by_cases hc : s.tokens.length < s1.tokens.length ∧ MAX_STRING_LENGTH ≤ s.tokens.length
        · simp only [if_pos hc]
        · simp only [if_neg hc]
          exact ih s1 g1 g2 (by omega) (by omega) (by omega)

/-- The tokens of a state are kept by the iterations that follow. -/
theorem lex_steps_tokens_kept (step : LexState → Except LexErr LexState)
    (happ : ∀ s s1, step s = .ok s1 → s.tokens <+: s1.tokens) (k : Nat) :
    ∀ (s s1 : LexState), lex_steps step k s = .ok s1 → s.tokens <+: s1.tokens := by
  induction k with
  | zero =>
    intro s s1 h
    simp [lex_steps] at h
    subst h
    exact List.prefix_refl _
  | succ k ih =>
    intro s s1 h
    cases hstep : step s with
    | error e => simp [lex_steps, hstep] at h
    | ok s2 =>
      simp only [lex_steps, hstep] at h
      exact List.IsPrefix.trans (happ s s2 hstep) (ih s2 s1 h)

/-- The scan loop may be resumed from any state that the first iterations reach with the
tokens inside the array. -/
theorem lex_loop_of_steps (step : LexState → Except LexErr LexState) (hp : Progress step)
    (happ : ∀ s s1, step s = .ok s1 → s.tokens <+: s1.tokens)
    (k : Nat) : ∀ (s s1 : LexState), lex_steps step k s = .ok s1 →
      s1.tokens.length ≤ MAX_STRING_LENGTH →
      lex_loop step (s.ptr.length + 1) s = lex_loop step (s1.ptr.length + 1) s1 := by
  induction k with
  | zero =>
    intro s s1 h _
    simp [lex_steps] at h
    subst h
    rfl
  | succ k ih =>
    intro s s1 h hcap
    cases hstep : step s with
    | error e => simp [lex_steps, hstep] at h
    | ok s2 =>
      simp only [lex_steps, hstep] at h
      rw [← ih s2 s1 h hcap]
      cases hs : s.ptr with
      | nil =>
        have := hp.2 s hs
        rw [this] at hstep
        injection hstep with hstep
        subst hstep
        rw [hs]
      | cons c r =>
        have hlt := hp.1 s s2 (by simp [hs]) hstep
        rw [hs] at hlt
        have hkept := (lex_steps_tokens_kept step happ k s2 s1 h).length_le
        have hc : ¬ (s.tokens.length < s2.tokens.length ∧
            MAX_STRING_LENGTH ≤ s.tokens.length) := by
          intro hc
          omega
        simp only [lex_loop, hs, hstep, List.length_cons, if_neg hc]
        exact lex_loop_fuel step hp s2.ptr.length s2 _ _ (Nat.le_refl _)
          (by simpa using hlt) (Nat.lt_succ_self _)

/-- The scan fails with the error of the iteration that follows the state reached, when
that iteration has not written past the token array before the error. -/
theorem lex_loop_error_of_steps (step : LexState → Except LexErr LexState) (hp : Progress step)
    (happ : ∀ s s1, step s = .ok s1 → s.tokens <+: s1.tokens)
    (k : Nat) (s s1 : LexState) (e : LexErr) (h : lex_steps step k s = .ok s1)
    (hcap : s1.tokens.length ≤ MAX_STRING_LENGTH) (he : step s1 = .error e)
    (hroom : e.after_write = true → s1.tokens.length < MAX_STRING_LENGTH) :
    lex_loop step (s.ptr.length + 1) s = .error e := by
  rw [lex_loop_of_steps step hp happ k s s1 h hcap]
  cases hs : s1.ptr with
  | nil =>
    have := hp.2 s1 hs
    rw [this] at he
    cases he
  | cons c r =>
    have hc : ¬ (e.after_write = true ∧ MAX_STRING_LENGTH ≤ s1.tokens.length) := by
      intro hc
      have := hroom hc.1
      omega
    simp only [lex_loop, hs, he, if_neg hc]

/-! ## Character classes -/

theorem isdigit_not_isspace (c : Char) (h : isdigit c = true) : isspace c = false := by
  simp only [isdigit, isspace, Bool.and_eq_true, decide_eq_true_eq, Bool.or_eq_false_iff,
    beq_eq_false_iff_ne, ne_eq, Bool.and_eq_false_iff, decide_eq_false_iff_not] at h ⊢
  omega

theorem isdigit_not_isalpha (c : Char) (h : isdigit c = true) : isalpha c = false := by
  simp only [isdigit, isalpha, Bool.and_eq_true, decide_eq_true_eq, Bool.or_eq_false_iff,
    Bool.and_eq_false_iff, decide_eq_false_iff_not] at h ⊢
  omega

theorem isalpha_not_isspace (c : Char) (h : isalpha c = true) : isspace c = false := by
  simp only [isalpha, isspace, Bool.and_eq_true, decide_eq_true_eq, Bool.or_eq_false_iff,
    beq_eq_false_iff_ne, ne_eq, Bool.and_eq_false_iff, decide_eq_false_iff_not,
    Bool.or_eq_true] at h ⊢
  omega

theorem isalpha_not_isdigit (c : Char) (h : isalpha c = true) : isdigit c = false := by
  simp only [isdigit, isalpha, Bool.and_eq_true, decide_eq_true_eq, Bool.or_eq_true,
    Bool.and_eq_false_iff, decide_eq_false_iff_not] at h ⊢
  omega

theorem isdigit_ne (c d : Char) (h : isdigit c = true) (hd : isdigit d = false) : c ≠ d := by
  intro e
  rw [e, hd] at h
  cases h

theorem isalpha_ne (c d : Char) (h : isalpha c = true) (hd : isalpha d = false) : c ≠ d := by
  intro e
  rw [e, hd] at h
  cases h

/-! ## Which branch an iteration of the scan loop takes -/

theorem StarInterpreter.interpreter_lex_step_integer (s : LexState) (c : Char) (rest : List Char)
    (hptr : s.ptr = c :: rest) (hc : s.in_comment = false)
    (h : isdigit c = true ∨ (c = '-' ∧ next_is_digit rest = true)) :
    StarInterpreter.lex_step s = lex_integer s c rest := by
  have hsp : isspace c = false := by
    rcases h with h | h
    · exact isdigit_not_isspace c h
    · rw [h.1]; decide
  have hsl : ¬ (c = '/' ∧ rest.head? = some '*') := by
    rcases h with h | h
    · exact fun e => isdigit_ne c '/' h (by decide) e.1
    · rw [h.1]; exact fun e => absurd e.1 (by decide)
  have hal : isalpha c = false := by
    rcases h with h | h
    · exact isdigit_not_isalpha c h
    · rw [h.1]; decide
  have hd : (isdigit c || (decide (c = '-') && next_is_digit rest)) = true := by
    rcases h with h | h
    · simp [h]
    · simp [h.1, h.2]
  unfold StarInterpreter.lex_step
  rw [hptr]
  simp only [hsp, hc, hal, Bool.false_eq_true, if_false]
  rw [if_neg hsl, if_pos hd]

theorem LexicalAnalyzer.analyzer_lex_step_integer (s : LexState) (c : Char) (rest : List Char)
    (hptr : s.ptr = c :: rest) (hc : s.in_comment = false)
    (h : isdigit c = true ∨ (c = '-' ∧ next_is_digit rest = true)) :
    LexicalAnalyzer.lex_step s = lex_integer s c rest := by
  have hsp : isspace c = false := by
    rcases h with h | h
    · exact isdigit_not_isspace c h
    · rw [h.1]; decide
  have hsl : ¬ (c = '/' ∧ rest.head? = some '*') := by
    rcases h with h | h
    · exact fun e => isdigit_ne c '/' h (by decide) e.1
    · rw [h.1]; exact fun e => absurd e.1 (by decide)
  have hal : isalpha c = false := by
    rcases h with h | h
    · exact isdigit_not_isalpha c h
    · rw [h.1]; decide
  have hd : (isdigit c || (decide (c = '-') && next_is_digit rest)) = true := by
    rcases h with h | h
    · simp [h]
    · simp [h.1, h.2]
  unfold LexicalAnalyzer.lex_step
  rw [hptr]
  simp only [hsp, hc, hal, Bool.false_eq_true, if_false]
  rw [if_neg hsl, if_pos hd]

/-- The integer branch on a sign (or none) followed by more than eight digits. -/
theorem lex_integer_too_long (s : LexState) (c : Char) (tail digits rest : List Char)
    (hd : ∀ x ∈ digits, isdigit x = true) (hlen : 8 < digits.length)
    (h : (c = '-' ∧ tail = digits ++ rest) ∨ (c :: tail = digits ++ rest)) :
    lex_integer s c tail = .error .integerTooLong := by
  rcases h with ⟨hc, ht⟩ | h
  · have := scan_while_budget isdigit 8 digits rest hd (by omega)
    simp [lex_integer, hc, ht, MAX_INTEGER_LENGTH, this]
    omega
  · have hcd : isdigit c = true := by
      cases digits with
      | nil => simp at hlen
      | cons d ds =>
        simp at h
        rw [h.1]
        exact hd d (by simp)
    have hne : c ≠ '-' := isdigit_ne c '-' hcd (by decide)
    have := scan_while_budget isdigit 9 digits rest hd (by omega)
    simp [lex_integer, hne, h, MAX_INTEGER_LENGTH, this]
    omega

theorem is_keyword_length (w : List Char) (h : is_keyword w = true) : w.length ≤ 7 := by
  simp only [is_keyword, Bool.or_eq_true, beq_iff_eq] at h
  rcases h with ((((((h | h) | h) | h) | h) | h) | h) | h <;> (rw [h]; decide)

/-- The identifier branch of `starInterpreter.c` on a word of at most ten letters and
underscores that is not a keyword and is not continued. -/
theorem StarInterpreter.interpreter_lex_step_word (s : LexState) (c : Char) (cs rest : List Char)
    (hptr : s.ptr = (c :: cs) ++ rest) (hc : s.in_comment = false)
    (hfirst : isalpha c = true)
    (hword : ∀ x ∈ cs, (isalpha x || decide (x = '_')) = true)
    (hlen : (c :: cs).length ≤ 10) (hkw : is_keyword (c :: cs) = false)
    (hrest : ∀ d r, rest = d :: r → (isalpha d || decide (d = '_')) = false) :
    StarInterpreter.lex_step s =
      .ok { s with ptr := rest, tokens := s.tokens ++ [⟨.Identifier, c :: cs⟩] } := by
  have hsp : isspace c = false := isalpha_not_isspace c hfirst
  have hsl : ¬ (c = '/' ∧ (cs ++ rest).head? = some '*') :=
    fun e => isalpha_ne c '/' hfirst (by decide) e.1
  have hrun := scan_while_run (fun ch => isalpha ch || decide (ch = '_')) 10 (c :: cs) rest
    (by
      intro x hx
      rcases List.mem_cons.mp hx with h | h
      · simp [h, hfirst]
      · exact hword x h)
    hlen hrest
  unfold StarInterpreter.lex_step
  rw [hptr]
  simp only [List.cons_append, hsp, hc, hfirst, Bool.false_eq_true, if_false, if_true,
    MAX_IDENTIFIER_LENGTH]
  rw [if_neg hsl]
  simp only [List.cons_append] at hrun
  rw [hrun]
  simp only [hkw, Bool.false_eq_true, if_false]
  cases rest with
  | nil => rfl
  | cons d r =>
    have := hrest d r rfl
    simp only [this, Bool.false_eq_true, if_false]

/-- The identifier branch of `starInterpreter.c` on a word of more than ten letters and
underscores. -/
theorem StarInterpreter.interpreter_lex_step_long_word (s : LexState) (c : Char) (cs rest : List Char)
    (hptr : s.ptr = (c :: cs) ++ rest) (hc : s.in_comment = false)
    (hfirst : isalpha c = true)
    (hword : ∀ x ∈ cs, (isalpha x || decide (x = '_')) = true)
    (hlen : 10 < (c :: cs).length) :
    StarInterpreter.lex_step s = .error .identifierTooLong := by
  have hsp : isspace c = false := isalpha_not_isspace c hfirst
  have hsl : ¬ (c = '/' ∧ (cs ++ rest).head? = some '*') :=
    fun e => isalpha_ne c '/' hfirst (by decide) e.1
  have hall : ∀ x ∈ c :: cs, (isalpha x || decide (x = '_')) = true := by
    intro x hx
    rcases List.mem_cons.mp hx with h | h
    · simp [h, hfirst]
    · exact hword x h
  have hrun := scan_while_budget (fun ch => isalpha ch || decide (ch = '_')) 10 (c :: cs) rest
    hall (by omega)
  have hk : is_keyword ((c :: cs).take 10) = false := by
    cases hkw : is_keyword ((c :: cs).take 10) with
    | false => rfl
    | true =>
      have := is_keyword_length _ hkw
      simp only [List.length_take] at this
      omega
  obtain ⟨d, r, hdr⟩ : ∃ d r, (c :: cs).drop 10 = d :: r := by
    cases hd : (c :: cs).drop 10 with
    | nil =>
      have := congrArg List.length hd
      simp only [List.length_drop, List.length_nil] at this
      omega
    | cons d r => exact ⟨d, r, rfl⟩
  have hd : (isalpha d || decide (d = '_')) = true :=
    hall d (List.mem_of_mem_drop (by rw [hdr]; simp))
  unfold StarInterpreter.lex_step
  rw [hptr]
  simp only [List.cons_append, hsp, hc, hfirst, Bool.false_eq_true, if_false, if_true,
    MAX_IDENTIFIER_LENGTH]
  rw [if_neg hsl]
  simp only [List.cons_append] at hrun
  rw [hrun]
  simp only [hk, hdr, List.cons_append, Bool.false_eq_true, if_false, hd, if_true]

/-- The identifier branch of `lexical_analyzer.c` on a word of at most ten letters that is
not a keyword and is not continued by a letter. -/
theorem LexicalAnalyzer.analyzer_lex_step_word (s : LexState) (c : Char) (cs rest : List Char)
    (hptr : s.ptr = (c :: cs) ++ rest) (hc : s.in_comment = false)
    (hword : ∀ x ∈ c :: cs, isalpha x = true)
    (hlen : (c :: cs).length ≤ 10) (hkw : is_keyword (c :: cs) = false)
    (hrest : ∀ d r, rest = d :: r → isalpha d = false) :
    LexicalAnalyzer.lex_step s =
      .ok { s with ptr := rest, tokens := s.tokens ++ [⟨.Identifier, c :: cs⟩] } := by
  have hfirst : isalpha c = true := hword c (by simp)
  have hsp : isspace c = false := isalpha_not_isspace c hfirst
  have hsl : ¬ (c = '/' ∧ (cs ++ rest).head? = some '*') :=
    fun e => isalpha_ne c '/' hfirst (by decide) e.1
  have hrun := scan_while_run
    (fun ch => isalpha ch || LexicalAnalyzer.eq_string_literal_address ch) 10 (c :: cs) rest
    (by intro x hx; simp [hword x hx])
    hlen (by intro d r h; simp [hrest d r h, LexicalAnalyzer.eq_string_literal_address])
  unfold LexicalAnalyzer.lex_step
  rw [hptr]
  simp only [List.cons_append, hsp, hc, hfirst, Bool.false_eq_true, if_false, if_true,
    MAX_IDENTIFIER_LENGTH]
  rw [if_neg hsl]
  simp only [List.cons_append] at hrun
  rw [hrun]
  simp only [hkw, Bool.false_eq_true, if_false]
  cases rest with
  | nil => rfl
  | cons d r =>
    have := hrest d r rfl
    simp only [this, LexicalAnalyzer.eq_string_literal_address, Bool.or_false,
      Bool.false_eq_true, if_false]

/-- The identifier branch of `lexical_analyzer.c` on a word of more than ten letters. -/
theorem LexicalAnalyzer.analyzer_lex_step_long_word (s : LexState) (c : Char) (cs rest : List Char)
    (hptr : s.ptr = (c :: cs) ++ rest) (hc : s.in_comment = false)
    (hword : ∀ x ∈ c :: cs, isalpha x = true)
    (hlen : 10 < (c :: cs).length) :
    LexicalAnalyzer.lex_step s = .error .identifierTooLong := by
  have hfirst : isalpha c = true := hword c (by simp)
  have hsp : isspace c = false := isalpha_not_isspace c hfirst
  have hsl : ¬ (c = '/' ∧ (cs ++ rest).head? = some '*') :=
    fun e => isalpha_ne c '/' hfirst (by decide) e.1
  have hrun := scan_while_budget
    (fun ch => isalpha ch || LexicalAnalyzer.eq_string_literal_address ch) 10 (c :: cs) rest
    (by intro x hx; simp [hword x hx]) (by omega)
  have hk : is_keyword ((c :: cs).take 10) = false := by
    cases hkw : is_keyword ((c :: cs).take 10) with
    | false => rfl
    | true =>
      have := is_keyword_length _ hkw
      simp only [List.length_take] at this
      omega
  obtain ⟨d, r, hdr⟩ : ∃ d r, (c :: cs).drop 10 = d :: r := by
    cases hd : (c :: cs).drop 10 with
    | nil =>
      have := congrArg List.length hd
      simp only [List.length_drop, List.length_nil] at this
      omega
    | cons d r => exact ⟨d, r, rfl⟩
  have hd : isalpha d = true :=
    hword d (List.mem_of_mem_drop (by rw [hdr]; simp))
  unfold LexicalAnalyzer.lex_step
  rw [hptr]
  simp only [List.cons_append, hsp, hc, hfirst, Bool.false_eq_true, if_false, if_true,
    MAX_IDENTIFIER_LENGTH]
  rw [if_neg hsl]
  simp only [List.cons_append] at hrun
  rw [hrun]
  simp only [hk, hdr, List.cons_append, Bool.false_eq_true, if_false, hd, Bool.true_or, if_true]

/-! ## Tokens are only ever appended -/

theorem lex_integer_tokens (s s1 : LexState) (c : Char) (rest : List Char)
    (h : lex_integer s c rest = .ok s1) : s.tokens <+: s1.tokens := by
  simp only [lex_integer] at h
  split_ifs at h <;> (try cases h) <;> simp

theorem lex_steps_succ_last (step : LexState → Except LexErr LexState) (k : Nat) :
    ∀ (s s1 s2 : LexState), lex_steps step k s = .ok s1 → step s1 = .ok s2 →
      lex_steps step (k + 1) s = .ok s2 := by
  induction k with
  | zero =>
    intro s s1 s2 h h2
    simp [lex_steps] at h
    subst h
    simp [lex_steps, h2]
  | succ k ih =>
    intro s s1 s2 h h2
    cases hstep : step s with
    | error e => simp [lex_steps, hstep] at h
    | ok s3 =>
      simp only [lex_steps, hstep] at h
      have := ih s3 s1 s2 h h2
      rw [lex_steps, hstep]
      exact this

/-- One more iteration that stays inside the token array extends what the scan reaches. -/
theorem scan_reaches_step (step : LexState → Except LexErr LexState) (source_code : List Char)
    (s s1 : LexState) (h : scan_reaches step source_code s) (h1 : step s = .ok s1)
    (hcap : s1.tokens.length ≤ MAX_STRING_LENGTH) :
    scan_reaches step source_code s1 := by
  obtain ⟨⟨k, hk⟩, _⟩ := h
  exact ⟨⟨k + 1, lex_steps_succ_last step k _ s s1 hk h1⟩, hcap⟩

theorem StarInterpreter.interpreter_lex_step_tokens (s s1 : LexState)
    (h : StarInterpreter.lex_step s = .ok s1) : s.tokens <+: s1.tokens := by
  unfold StarInterpreter.lex_step at h
  split at h
  · injection h with h; subst h; exact List.prefix_refl _
  · rename_i c rest hp
    by_cases h1 : isspace c = true
    · rw [if_pos h1] at h; injection h with h; subst h; exact List.prefix_refl _
    rw [if_neg h1] at h
    by_cases h2 : c = '/' ∧ rest.head? = some '*'
    · rw [if_pos h2] at h; injection h with h; subst h; exact List.prefix_refl _
    rw [if_neg h2] at h
    by_cases h3 : s.in_comment = true
    · rw [if_pos h3] at h
      split at h
      · cases h
      · injection h with h; subst h; exact List.prefix_refl _
    rw [if_neg h3] at h
    by_cases h4 : isalpha c = true
    · rw [if_pos h4] at h
      simp only [] at h
      split_ifs at h
      · injection h with h; subst h; simp
      · split at h
        · injection h with h; subst h; simp
        · split_ifs at h
          injection h with h; subst h; simp
    rw [if_neg h4] at h
    by_cases h5 : (isdigit c || (decide (c = '-') && next_is_digit rest)) = true
    · rw [if_pos h5] at h
      exact lex_integer_tokens s s1 c rest h
    rw [if_neg h5] at h
    by_cases h6 : c = '\x22'
    · rw [if_pos h6] at h
      simp only [] at h
      split_ifs at h
      injection h with h; subst h; simp
    rw [if_neg h6] at h
    split_ifs at h <;> (injection h with h; subst h; simp)

theorem LexicalAnalyzer.analyzer_lex_step_tokens (s s1 : LexState)
    (h : LexicalAnalyzer.lex_step s = .ok s1) : s.tokens <+: s1.tokens := by
  unfold LexicalAnalyzer.lex_step at h
  split at h
  · injection h with h; subst h; exact List.prefix_refl _
  · rename_i c rest hp
    by_cases h1 : isspace c = true
    · rw [if_pos h1] at h; injection h with h; subst h; exact List.prefix_refl _
    rw [if_neg h1] at h
    by_cases h2 : c = '/' ∧ rest.head? = some '*'
    · rw [if_pos h2] at h; injection h with h; subst h; exact List.prefix_refl _
    rw [if_neg h2] at h
    by_cases h3 : s.in_comment = true
    · rw [if_pos h3] at h
      split at h
      · cases h
      · injection h with h; subst h; exact List.prefix_refl _
    rw [if_neg h3] at h
    by_cases h4 : isalpha c = true
    · rw [if_pos h4] at h
      simp only [] at h
      split_ifs at h
      · injection h with h; subst h; simp
      · split at h
        · injection h with h; subst h; simp
        · split_ifs at h
          injection h with h; subst h; simp
    rw [if_neg h4] at h
    by_cases h5 : (isdigit c || (decide (c = '-') && next_is_digit rest)) = true
    · rw [if_pos h5] at h
      exact lex_integer_tokens s s1 c rest h
    rw [if_neg h5] at h
    by_cases h6 : c = '\x22'
    · rw [if_pos h6] at h
      simp only [] at h
      split_ifs at h
      injection h with h; subst h; simp
    rw [if_neg h6] at h
    split_ifs at h <;> (injection h with h; subst h; simp)

/-- The tokens of a state of the scan loop open the token sequence that the scan returns. -/
theorem lex_loop_tokens_kept (step : LexState → Except LexErr LexState)
    (happ : ∀ s s1, step s = .ok s1 → s.tokens <+: s1.tokens) (fuel : Nat) :
    ∀ (s : LexState) (ts : List Token) (w : Nat), lex_loop step fuel s = .tokens ts w →
      s.tokens <+: ts := by
  induction fuel with
  | zero => intro s ts w h; simp [lex_loop] at h
  | succ fuel ih =>
    intro s ts w h
    cases hs : s.ptr with
    | nil =>
      simp only [lex_loop, hs] at h
      split_ifs at h
      injection h with h1 h2
      subst h1
      simp
    | cons c r =>
      cases hstep : step s with
      | error e =>
        simp only [lex_loop, hs, hstep] at h
        split_ifs at h
      | ok s1 =>
        simp only [lex_loop, hs, hstep] at h
        split_ifs at h
        exact List.IsPrefix.trans (happ s s1 hstep) (ih s1 ts w h)

/-- The tokens of every state that the scan of `source_code` reaches open the token
sequence that `tokenize_source_code` returns. -/
theorem StarInterpreter.interpreter_reached_tokens_kept (source_code : List Char) (s : LexState)
    (h : scan_reaches StarInterpreter.lex_step source_code s) (ts : List Token) (w : Nat)
    (ht : StarInterpreter.tokenize_source_code source_code = .tokens ts w) :
    s.tokens <+: ts := by
  obtain ⟨⟨k, hk⟩, hcap⟩ := h
  have := lex_loop_of_steps _ StarInterpreter.interpreter_lex_step_progress
    StarInterpreter.interpreter_lex_step_tokens k _ s hk hcap
  unfold StarInterpreter.tokenize_source_code at ht
  simp only [] at this
  rw [this] at ht
  exact lex_loop_tokens_kept _ StarInterpreter.interpreter_lex_step_tokens _ s ts w ht

theorem LexicalAnalyzer.analyzer_reached_tokens_kept (source_code : List Char) (s : LexState)
    (h : scan_reaches LexicalAnalyzer.lex_step source_code s) (ts : List Token) (w : Nat)
    (ht : LexicalAnalyzer.tokenize_source_code source_code = .tokens ts w) :
    s.tokens <+: ts := by
  obtain ⟨⟨k, hk⟩, hcap⟩ := h
  have := lex_loop_of_steps _ LexicalAnalyzer.analyzer_lex_step_progress
    LexicalAnalyzer.analyzer_lex_step_tokens k _ s hk hcap
  unfold LexicalAnalyzer.tokenize_source_code at ht
  simp only [] at this
  rw [this] at ht
  exact lex_loop_tokens_kept _ LexicalAnalyzer.analyzer_lex_step_tokens _ s ts w ht

/-- A lexical error in the iteration after a state that the scan reaches is the outcome of
`tokenize_source_code`. -/
theorem StarInterpreter.interpreter_reached_error (source_code : List Char) (s : LexState) (e : LexErr)
    (h : scan_reaches StarInterpreter.lex_step source_code s)
    (he : StarInterpreter.lex_step s = .error e)
    (hroom : e.after_write = true → s.tokens.length < MAX_STRING_LENGTH) :
    StarInterpreter.tokenize_source_code source_code = .error e := by
  obtain ⟨⟨k, hk⟩, hcap⟩ := h
  exact lex_loop_error_of_steps _ StarInterpreter.interpreter_lex_step_progress
    StarInterpreter.interpreter_lex_step_tokens k _ s e hk hcap he hroom

theorem LexicalAnalyzer.analyzer_reached_error (source_code : List Char) (s : LexState) (e : LexErr)
    (h : scan_reaches LexicalAnalyzer.lex_step source_code s)
    (he : LexicalAnalyzer.lex_step s = .error e)
    (hroom : e.after_write = true → s.tokens.length < MAX_STRING_LENGTH) :
    LexicalAnalyzer.tokenize_source_code source_code = .error e := by
  obtain ⟨⟨k, hk⟩, hcap⟩ := h
  exact lex_loop_error_of_steps _ LexicalAnalyzer.analyzer_lex_step_progress
    LexicalAnalyzer.analyzer_lex_step_tokens k _ s e hk hcap he hroom

/-! ## Length limits of identifiers and integer constants (C8, C9, C10) -/

set_option maxRecDepth 100000 in
/-- C8, counterexample: (1) in the source text `a_b` neither of the runs `a` and `b` of one
letter, which are not keywords, is emitted as an Identifier token of its own by the
tokenizer of `starInterpreter.c`: the underscore continues the identifier and the only
token before the Terminator is the Identifier `a_b`; (2) the source text
`123456789 abcdefghijk` contains a run of 11 letters, but both tokenizers stop before it,
with the integer-exceeds error; (3) after 256 full stops the token array is full, and the
run `ab` is written past its end: no token sequence is returned. -/
theorem identifier_run_counterexample :
    (StarInterpreter.tokenize_source_code "a_b".toList =
        .tokens [⟨.Identifier, "a_b".toList⟩, ⟨.Terminator, []⟩] 0 ∧
      (⟨.Identifier, "a".toList⟩ : Token) ∉
        [(⟨.Identifier, "a_b".toList⟩ : Token), ⟨.Terminator, []⟩] ∧
      (⟨.Identifier, "b".toList⟩ : Token) ∉
        [(⟨.Identifier, "a_b".toList⟩ : Token), ⟨.Terminator, []⟩]) ∧
    (StarInterpreter.tokenize_source_code "123456789 abcdefghijk".toList =
        .error .integerTooLong ∧
      LexicalAnalyzer.tokenize_source_code "123456789 abcdefghijk".toList =
        .error .integerTooLong) ∧
    (StarInterpreter.tokenize_source_code (List.replicate 256 '.' ++ "ab".toList) =
        .undefined ∧
      LexicalAnalyzer.tokenize_source_code (List.replicate 256 '.' ++ "ab".toList) =
        .undefined) := by
  refine ⟨⟨rfl, by decide, by decide⟩, ⟨rfl, rfl⟩, ⟨rfl, rfl⟩⟩

/-- A character that `is_valid_identifier_char` rejects is neither a letter nor an
underscore. -/
theorem StarInterpreter.not_identifier_char (d : Char)
    (h : StarInterpreter.is_valid_identifier_char d = false) : isalpha d = false ∧ d ≠ '_' := by
  simp only [StarInterpreter.is_valid_identifier_char, isalnum, Bool.or_eq_false_iff,
    decide_eq_false_iff_not] at h
  exact ⟨h.1.1, h.2⟩

/-- C8, amended: whenever the scan of `tokenize_source_code` (either program) arrives,
outside a comment, at a run of letters at `s.ptr`, then (1) if the run has more than 10
letters, the tokenizer fails with the identifier-exceeds-maximum-length error (and so
returns no token sequence); (2) if the run has 1 to 10 letters, is not a keyword, stands
alone in the source text `before ++ run ++ rest` (it is neither preceded nor followed by an
identifier character: a letter, a digit or an underscore), and the token array has room
for one more token, the scan goes on after the run with one Identifier token of exactly
that text appended, and that token is in every token sequence returned. -/
theorem identifier_length_limit (source_code : List Char) (s : LexState)
    (before run rest : List Char) (hrun : ∀ c ∈ run, isalpha c = true)
    (hptr : s.ptr = run ++ rest) (hcomment : s.in_comment = false) :
    (10 < run.length →
      (scan_reaches StarInterpreter.lex_step source_code s →
        StarInterpreter.tokenize_source_code source_code = .error .identifierTooLong) ∧
      (scan_reaches LexicalAnalyzer.lex_step source_code s →
        LexicalAnalyzer.tokenize_source_code source_code = .error .identifierTooLong)) ∧
    (1 ≤ run.length → run.length ≤ 10 → is_keyword run = false →
      source_code = before ++ (run ++ rest) →
      (∀ d, before.getLast? = some d → StarInterpreter.is_valid_identifier_char d = false) →
      (∀ d r, rest = d :: r → StarInterpreter.is_valid_identifier_char d = false) →
      s.tokens.length < MAX_STRING_LENGTH →
      (scan_reaches StarInterpreter.lex_step source_code s →
        scan_reaches StarInterpreter.lex_step source_code
          { s with ptr := rest, tokens := s.tokens ++ [⟨.Identifier, run⟩] } ∧
        ∀ ts w, StarInterpreter.tokenize_source_code source_code = .tokens ts w →
          s.tokens ++ [⟨.Identifier, run⟩] <+: ts) ∧
      (scan_reaches LexicalAnalyzer.lex_step source_code s →
        scan_reaches LexicalAnalyzer.lex_step source_code
          { s with ptr := rest, tokens := s.tokens ++ [⟨.Identifier, run⟩] } ∧
        ∀ ts w, LexicalAnalyzer.tokenize_source_code source_code = .tokens ts w →
          s.tokens ++ [⟨.Identifier, run⟩] <+: ts)) := by
  cases run with
  | nil =>
    constructor
    · intro h; simp at h
    · intro h; simp at h
  | cons c cs =>
    have hword : ∀ x ∈ cs, (isalpha x || decide (x = '_')) = true := by
      intro x hx
      simp [hrun x (by simp [hx])]
    refine ⟨fun hlong => ⟨fun hr => ?_, fun hr => ?_⟩, fun _ hle hkw _ _ hrest hroom =>
      ⟨fun hr => ?_, fun hr => ?_⟩⟩
    · exact StarInterpreter.interpreter_reached_error source_code s _ hr
        (StarInterpreter.interpreter_lex_step_long_word s c cs rest hptr hcomment (hrun c (by simp))
          hword hlong) (fun h => by cases h)
    · exact LexicalAnalyzer.analyzer_reached_error source_code s _ hr
        (LexicalAnalyzer.analyzer_lex_step_long_word s c cs rest hptr hcomment hrun hlong)
        (fun h => by cases h)
    · have hstep := StarInterpreter.interpreter_lex_step_word s c cs rest hptr hcomment (hrun c (by simp))
        hword hle hkw (by
          intro d r h
          have := StarInterpreter.not_identifier_char d (hrest d r h)
          simp [this.1, this.2])
      have hr1 := scan_reaches_step _ source_code s _ hr hstep (by
        simp only [List.length_append, List.length_singleton]
        omega)
      exact ⟨hr1, fun ts w ht => StarInterpreter.interpreter_reached_tokens_kept source_code _ hr1 ts w ht⟩
    · have hstep := LexicalAnalyzer.analyzer_lex_step_word s c cs rest hptr hcomment hrun hle hkw
        (fun d r h => (StarInterpreter.not_identifier_char d (hrest d r h)).1)
      have hr1 := scan_reaches_step _ source_code s _ hr hstep (by
        simp only [List.length_append, List.length_singleton]
        omega)
      exact ⟨hr1, fun ts w ht => LexicalAnalyzer.analyzer_reached_tokens_kept source_code _ hr1 ts w ht⟩

/-- C8, witness: in `int abcdefghijk.` the scan reaches the 11 letters after two iterations
and both tokenizers fail; in `int abc.` it reaches the 3 letters, which stand alone between
a space and the full stop, and goes on with the Identifier `abc`. -/
theorem identifier_length_limit_witness :
    (StarInterpreter.tokenize_source_code "int abcdefghijk.".toList = .error .identifierTooLong ∧
      LexicalAnalyzer.tokenize_source_code "int abcdefghijk.".toList =
        .error .identifierTooLong) ∧
    scan_reaches StarInterpreter.lex_step "int abc.".toList
      ⟨".".toList, false, [⟨.Keyword, "int".toList⟩, ⟨.Identifier, "abc".toList⟩], 0⟩ ∧
    scan_reaches LexicalAnalyzer.lex_step "int abc.".toList
      ⟨".".toList, false, [⟨.Keyword, "int".toList⟩, ⟨.Identifier, "abc".toList⟩], 0⟩ :=
  ⟨⟨((identifier_length_limit "int abcdefghijk.".toList
        ⟨"abcdefghijk.".toList, false, [⟨.Keyword, "int".toList⟩], 0⟩
        "int ".toList "abcdefghijk".toList ".".toList (by decide) rfl rfl).1 (by decide)).1
        ⟨⟨2, rfl⟩, by decide⟩,
     ((identifier_length_limit "int abcdefghijk.".toList
        ⟨"abcdefghijk.".toList, false, [⟨.Keyword, "int".toList⟩], 0⟩
        "int ".toList "abcdefghijk".toList ".".toList (by decide) rfl rfl).1 (by decide)).2
        ⟨⟨2, rfl⟩, by decide⟩⟩,
   (((identifier_length_limit "int abc.".toList
        ⟨"abc.".toList, false, [⟨.Keyword, "int".toList⟩], 0⟩
        "int ".toList "abc".toList ".".toList (by decide) rfl rfl).2 (by decide) (by decide)
        (by decide) rfl (by intro d h; cases h; decide)
        (by intro d r h; cases h; decide) (by decide)).1 ⟨⟨2, rfl⟩, by decide⟩).1,
   (((identifier_length_limit "int abc.".toList
        ⟨"abc.".toList, false, [⟨.Keyword, "int".toList⟩], 0⟩
        "int ".toList "abc".toList ".".toList (by decide) rfl rfl).2 (by decide) (by decide)
        (by decide) rfl (by intro d h; cases h; decide)
        (by intro d r h; cases h; decide) (by decide)).2 ⟨⟨2, rfl⟩, by decide⟩).1⟩

set_option maxRecDepth 100000 in
/-- C9, counterexample: (1) the source text `abcdefghijklmnop 123456789` contains, outside
comments and string literals, an integer literal of 9 digits, but both tokenizers fail with
the identifier-exceeds-maximum-length error of the word before it, not with the
integer-exceeds-maximum-length error; (2) after 256 full stops the token array is full,
and the digits of `123456789` are written past its end before their number is tested: the
outcome is undefined behaviour, not the integer-exceeds-maximum-length error. -/
theorem integer_literal_preempted_counterexample :
    (StarInterpreter.tokenize_source_code "abcdefghijklmnop 123456789".toList =
        .error .identifierTooLong ∧
      LexicalAnalyzer.tokenize_source_code "abcdefghijklmnop 123456789".toList =
        .error .identifierTooLong) ∧
    (StarInterpreter.tokenize_source_code (List.replicate 256 '.' ++ "123456789".toList) =
        .undefined ∧
      LexicalAnalyzer.tokenize_source_code (List.replicate 256 '.' ++ "123456789".toList) =
        .undefined) := by
  refine ⟨⟨rfl, rfl⟩, ⟨rfl, rfl⟩⟩

/-- C9, amended: whenever the scan of `tokenize_source_code` (either program) arrives,
outside a comment and with room for one more token in the token array, at an integer
literal of more than 8 consecutive digits, with or without a leading `-`, the tokenizer
fails with the integer-exceeds-maximum-length error. -/
theorem integer_literal_too_long (source_code : List Char) (s : LexState)
    (sign digits rest : List Char) (hsign : sign = [] ∨ sign = ['-'])
    (hdigits : ∀ c ∈ digits, isdigit c = true) (hlen : 8 < digits.length)
    (hptr : s.ptr = sign ++ digits ++ rest) (hcomment : s.in_comment = false)
    (hroom : s.tokens.length < MAX_STRING_LENGTH) :
    (scan_reaches StarInterpreter.lex_step source_code s →
      StarInterpreter.tokenize_source_code source_code = .error .integerTooLong) ∧
    (scan_reaches LexicalAnalyzer.lex_step source_code s →
      LexicalAnalyzer.tokenize_source_code source_code = .error .integerTooLong) := by
  obtain ⟨d, ds, hd⟩ : ∃ d ds, digits = d :: ds := by
    cases digits with
    | nil => simp at hlen
    | cons d ds => exact ⟨d, ds, rfl⟩
  have hdd : isdigit d = true := hdigits d (by simp [hd])
  obtain ⟨c, tail, hct, hbranch, hshape⟩ : ∃ c tail, s.ptr = c :: tail ∧
      (isdigit c = true ∨ (c = '-' ∧ next_is_digit tail = true)) ∧
      ((c = '-' ∧ tail = digits ++ rest) ∨ (c :: tail = digits ++ rest)) := by
    rcases hsign with h | h
    · refine ⟨d, ds ++ rest, ?_, Or.inl hdd, Or.inr ?_⟩
      · simp [hptr, h, hd]
      · simp [hd]
    · refine ⟨'-', digits ++ rest, ?_, Or.inr ⟨rfl, ?_⟩, Or.inl ⟨rfl, rfl⟩⟩
      · simp [hptr, h]
      · simp [hd, next_is_digit, hdd]
  have herr := lex_integer_too_long s c tail digits rest hdigits hlen hshape
  constructor
  · intro hr
    apply StarInterpreter.interpreter_reached_error source_code s _ hr _ (fun _ => hroom)
    rw [StarInterpreter.interpreter_lex_step_integer s c tail hct hcomment hbranch, herr]
  · intro hr
    apply LexicalAnalyzer.analyzer_reached_error source_code s _ hr _ (fun _ => hroom)
    rw [LexicalAnalyzer.analyzer_lex_step_integer s c tail hct hcomment hbranch, herr]

/-- C9, witness: `x is -123456789.` (the scan reaches the literal after four iterations). -/
theorem integer_literal_too_long_witness :
    StarInterpreter.tokenize_source_code "x is -123456789.".toList = .error .integerTooLong ∧
    LexicalAnalyzer.tokenize_source_code "x is -123456789.".toList = .error .integerTooLong :=
  ⟨(integer_literal_too_long "x is -123456789.".toList
      ⟨"-123456789.".toList, false, [⟨.Identifier, "x".toList⟩, ⟨.Keyword, "is".toList⟩], 0⟩
      ['-'] "123456789".toList ".".toList (Or.inr rfl) (by decide) (by decide) rfl rfl
      (by decide)).1 ⟨⟨4, rfl⟩, by decide⟩,
   (integer_literal_too_long "x is -123456789.".toList
      ⟨"-123456789.".toList, false, [⟨.Identifier, "x".toList⟩, ⟨.Keyword, "is".toList⟩], 0⟩
      ['-'] "123456789".toList ".".toList (Or.inr rfl) (by decide) (by decide) rfl rfl
      (by decide)).2 ⟨⟨4, rfl⟩, by decide⟩⟩

/-- C10, the code at the failing input: a `-` followed by exactly 8 digits is rejected by
both tokenizers with the integer-exceeds-maximum-length error (the sign is counted), while
the same 8 digits without a sign are accepted. -/
theorem signed_eight_digit_literal_rejected :
    StarInterpreter.tokenize_source_code "-12345678.".toList = .error .integerTooLong ∧
    LexicalAnalyzer.tokenize_source_code "-12345678.".toList = .error .integerTooLong ∧
    StarInterpreter.tokenize_source_code "12345678.".toList =
      .tokens [⟨.IntConst, "12345678".toList⟩, ⟨.EndOfLine, []⟩, ⟨.Terminator, []⟩] 0 ∧
    LexicalAnalyzer.tokenize_source_code "12345678.".toList =
      .tokens [⟨.IntConst, "12345678".toList⟩, ⟨.EndOfLine, []⟩, ⟨.Terminator, []⟩] 0 :=
  ⟨rfl, rfl, rfl, rfl⟩

/-! ## C library: `atoi`, `strtok` and 32-bit arithmetic -/

theorem toInt32_of_fits (z : Int) (h : in_int32 z) : toInt32 z = z := by
  unfold in_int32 at h
  unfold toInt32
  omega

theorem digits_value_eq_foldl (l : List Char) (h : ∀ c ∈ l, isdigit c = true) (acc : Nat) :
    digits_value l acc = l.foldl (fun a c => a * 10 + (c.toNat - 48)) acc := by
  induction l generalizing acc with
  | nil => rfl
  | cons c r ih =>
    have hc := h c (by simp)
    simp only [digits_value, hc, if_true, List.foldl_cons]
    exact ih (fun x hx => h x (by simp [hx])) _

theorem strtol_range_of_fits (z : Int) (h1 : -9223372036854775808 ≤ z)
    (h2 : z ≤ 9223372036854775807) : strtol_range z = z := by
  unfold strtol_range
  rw [if_neg (by omega), if_neg (by omega)]

theorem atoi_literal (lit : List Char) (h : is_literal lit)
    (hb : literal_value lit ≤ 9223372036854775807) :
    atoi lit = toInt32 (literal_value lit) := by
  obtain ⟨hne, hd⟩ := h
  cases lit with
  | nil => exact absurd rfl hne
  | cons c r =>
    have hc := hd c (by simp)
    have hsp := isdigit_not_isspace c hc
    have h1 : c ≠ '-' := isdigit_ne c '-' hc (by decide)
    have h2 : c ≠ '+' := isdigit_ne c '+' hc (by decide)
    have hv : ((digits_value (c :: r) 0 : Nat) : Int) = literal_value (c :: r) := by
      rw [digits_value_eq_foldl (c :: r) hd 0]
      rfl
    unfold atoi
    simp only [List.dropWhile_cons, hsp, Bool.false_eq_true, if_false, h1, h2]
    rw [hv, strtol_range_of_fits _ (by
      have : (0 : Int) ≤ literal_value (c :: r) := by rw [← hv]; exact Int.natCast_nonneg _
      omega) hb]

theorem is_integer_token_literal (lit : List Char) (h : is_literal lit) :
    StarInterpreter.is_integer_token lit = true := by
  obtain ⟨hne, hd⟩ := h
  cases lit with
  | nil => exact absurd rfl hne
  | cons c r => simp [StarInterpreter.is_integer_token, hd c (by simp)]

theorem strtok_tokens_word (w rest cur : List Char) (hw : ∀ c ∈ w, c ≠ ' ') :
    strtok_tokens (w ++ rest) cur = strtok_tokens rest (cur ++ w) := by
  induction w generalizing cur with
  | nil => simp
  | cons c r ih =>
    have hc : c ≠ ' ' := hw c (by simp)
    have := ih (cur ++ [c]) (fun x hx => hw x (by simp [hx]))
    simp only [List.cons_append, strtok_tokens, hc, if_false]
    simpa using this

theorem strtok_tokens_space (rest cur : List Char) (hcur : cur ≠ []) :
    strtok_tokens (' ' :: rest) cur = cur :: strtok_tokens rest [] := by
  cases cur with
  | nil => exact absurd rfl hcur
  | cons c r => simp [strtok_tokens]

/-- Splitting at spaces gives back the words of a text written with single spaces. -/
theorem strtok_tokens_spaced_words (ws : List (List Char))
    (hws : ∀ w ∈ ws, w ≠ [] ∧ ∀ c ∈ w, c ≠ ' ') (cur : List Char) (hcur : cur ≠ []) :
    strtok_tokens (spaced_words ws) cur = cur :: ws := by
  induction ws generalizing cur with
  | nil => cases cur with
    | nil => exact absurd rfl hcur
    | cons c r => simp [spaced_words, strtok_tokens]
  | cons w more ih =>
    have hw := hws w (by simp)
    rw [spaced_words, strtok_tokens_space _ _ hcur, strtok_tokens_word w _ [] hw.2]
    rw [List.nil_append, ih (fun x hx => hws x (by simp [hx])) w hw.1]

theorem strtok_tokens_text (first : List Char) (ws : List (List Char))
    (hfirst : first ≠ [] ∧ ∀ c ∈ first, c ≠ ' ')
    (hws : ∀ w ∈ ws, w ≠ [] ∧ ∀ c ∈ w, c ≠ ' ') :
    strtok_tokens (first ++ spaced_words ws) [] = first :: ws := by
  rw [strtok_tokens_word first _ [] hfirst.2, List.nil_append,
    strtok_tokens_spaced_words ws hws first hfirst.1]

theorem is_literal_word (lit : List Char) (h : is_literal lit) :
    lit ≠ [] ∧ ∀ c ∈ lit, c ≠ ' ' :=
  ⟨h.1, fun c hc => isdigit_ne c ' ' (h.2 c hc) (by decide)⟩

theorem StarInterpreter.operand_value_literal (vars : List StarInterpreter.Variable)
    (lit : List Char) (h : is_literal lit) (hfit : in_int32 (literal_value lit)) :
    StarInterpreter.operand_value vars lit = .ok (literal_value lit) := by
  simp [StarInterpreter.operand_value, is_integer_token_literal lit h,
    atoi_literal lit h (by unfold in_int32 at hfit; omega), toInt32_of_fits _ hfit]

theorem StarInterpreter.apply_operator_written (op : Char) (a b : Int)
    (hop : op = '+' ∨ op = '-' ∨ op = '*') (hfit : in_int32 (apply_written op a b)) :
    StarInterpreter.apply_operator op a b = .ok (apply_written op a b) := by
  have h := toInt32_of_fits _ hfit
  rcases hop with e | e | e <;> subst e <;>
    simp only [apply_written] at h ⊢ <;> simp at h <;>
    simp [StarInterpreter.apply_operator, h]

/-- The loop of `evaluate_expression` on the words of a literal expression, entered with
operator `op` pending on `result`. -/
theorem StarInterpreter.evaluate_loop_literals (vars : List StarInterpreter.Variable)
    (tail : List (Char × List Char)) :
    ∀ (x : List Char) (result : Int) (op : Char), is_literal x →
      (op = '+' ∨ op = '-' ∨ op = '*') →
      (∀ p ∈ tail, (p.1 = '+' ∨ p.1 = '-' ∨ p.1 = '*') ∧ is_literal p.2) →
      in_int32 (literal_value x) →
      values_fit (apply_written op result (literal_value x))
        (tail.map fun p => (p.1, literal_value p.2)) →
      StarInterpreter.evaluate_loop vars (x :: tail_words tail) result op =
        .ok (fold_left_to_right (apply_written op result (literal_value x))
          (tail.map fun p => (p.1, literal_value p.2))) := by
  induction tail with
  | nil =>
    intro x result op hx hop _ hxfit hfit
    simp only [List.map_nil, values_fit] at hfit
    simp [StarInterpreter.evaluate_loop, tail_words,
      StarInterpreter.operand_value_literal vars x hx hxfit,
      StarInterpreter.apply_operator_written op _ _ hop hfit, fold_left_to_right]
  | cons p more ih =>
    intro x result op hx hop htail hxfit hfit
    obtain ⟨o, y⟩ := p
    have hp : (o = '+' ∨ o = '-' ∨ o = '*') ∧ is_literal y := htail (o, y) (by simp)
    simp only [List.map_cons, values_fit] at hfit
    have := ih y (apply_written op result (literal_value x)) o hp.2 hp.1
      (fun q hq => htail q (by simp [hq])) hfit.2.1 hfit.2.2
    rw [tail_words, StarInterpreter.evaluate_loop]
    simp only [StarInterpreter.operand_value_literal vars x hx hxfit,
      StarInterpreter.apply_operator_written op _ _ hop hfit.1, List.headD_cons]
    rw [this]
    simp [fold_left_to_right]

/-! ## Expression evaluation is a left-to-right fold (C1) -/

/-- C1: for every expression text `operand (operator operand)*` made of non-negative
integer literals and the operators `+ - *`, separated by single spaces and shorter than 256
characters, whose intermediate values (operands and partial results) all fit in a 32-bit
int, `evaluate_expression` returns the fold of the operators over the operands in written
order starting from the first operand, whatever the symbol table. -/
theorem evaluate_expression_left_to_right (vars : List StarInterpreter.Variable)
    (first : List Char) (tail : List (Char × List Char))
    (hfirst : is_literal first)
    (htail : ∀ p ∈ tail, (p.1 = '+' ∨ p.1 = '-' ∨ p.1 = '*') ∧ is_literal p.2)
    (hlen : (expression_text first tail).length < 256)
    (hfit : values_fit (literal_value first) (tail.map fun p => (p.1, literal_value p.2))) :
    StarInterpreter.evaluate_expression vars (expression_text first tail) =
      .ok (fold_left_to_right (literal_value first)
        (tail.map fun p => (p.1, literal_value p.2))) := by
  have hwords : ∀ w ∈ tail_words tail, w ≠ [] ∧ ∀ c ∈ w, c ≠ ' ' := by
    clear hlen hfit
    induction tail with
    | nil => intro w hw; simp [tail_words] at hw
    | cons p more ih =>
      obtain ⟨o, y⟩ := p
      have hp : (o = '+' ∨ o = '-' ∨ o = '*') ∧ is_literal y := htail (o, y) (by simp)
      intro w hw
      simp only [tail_words, List.mem_cons] at hw
      rcases hw with h | h | h
      · subst h
        refine ⟨by simp, ?_⟩
        intro c hc
        simp only [List.mem_singleton] at hc
        subst hc
        rcases hp.1 with h | h | h <;> (rw [h]; decide)
      · subst h
        exact is_literal_word _ hp.2
      · exact ih (fun q hq => htail q (by simp [hq])) w h
  have hfirstfit : in_int32 (literal_value first) := by
    cases tail with
    | nil => simpa [values_fit] using hfit
    | cons p more => exact hfit.1
  have hzero : apply_written '+' 0 (literal_value first) = literal_value first := by
    simp [apply_written]
  unfold StarInterpreter.evaluate_expression
  rw [List.take_of_length_le (by simp only [MAX_STRING_LENGTH]; omega)]
  unfold expression_text
  rw [strtok_tokens_text first _ (is_literal_word first hfirst) hwords]
  have := StarInterpreter.evaluate_loop_literals vars tail first 0 '+' hfirst (Or.inl rfl)
    htail hfirstfit (by rw [hzero]; exact hfit)
  rw [this, hzero]

/-- C1, witness: `2 + 3 * 4` evaluates to 20 and `10 - 2 - 3` to 5. -/
theorem evaluate_expression_left_to_right_witness :
    StarInterpreter.evaluate_expression [] "2 + 3 * 4".toList = .ok 20 ∧
    StarInterpreter.evaluate_expression [] "10 - 2 - 3".toList = .ok 5 :=
  ⟨evaluate_expression_left_to_right [] "2".toList [('+', "3".toList), ('*', "4".toList)]
      (by decide) (by decide) (by decide) (by decide),
   evaluate_expression_left_to_right [] "10".toList [('-', "2".toList), ('-', "3".toList)]
      (by decide) (by decide) (by decide) (by decide)⟩

open StarInterpreter

/-! ## Loops with count 0 (C3) and division (C4): the code at the failing inputs -/

/-- C3, the code at the failing input: on `loop 0 times { b ... }`, whatever the tokens of
the body, `handle_loop` runs no statement and raises no error, but returns the cursor just
past the first token `b` of the body, not past the closing bracket; so `execute_statement`
on `loop 0 times { newLine. ... }` returns with the cursor at the second statement of the
body, which the caller executes next. -/
theorem handle_loop_zero_cursor (exec : State → List Token → Res (List Token)) (fuel : Nat)
    (st : State) (b : Token) (body after : List Token) :
    handle_loop exec fuel st
        (⟨.Keyword, "loop".toList⟩ :: ⟨.IntConst, "0".toList⟩ :: ⟨.Keyword, "times".toList⟩ ::
          ⟨.LeftCurlyBracket, []⟩ :: b :: (body ++ ⟨.RightCurlyBracket, []⟩ :: after)) =
      .ok st (body ++ ⟨.RightCurlyBracket, []⟩ :: after) ∧
    execute_statement (fuel + 1) st
        (⟨.Keyword, "loop".toList⟩ :: ⟨.IntConst, "0".toList⟩ :: ⟨.Keyword, "times".toList⟩ ::
          ⟨.LeftCurlyBracket, []⟩ :: ⟨.Keyword, "newLine".toList⟩ :: ⟨.EndOfLine, []⟩ ::
          (body ++ ⟨.RightCurlyBracket, []⟩ :: after)) =
      .ok st (body ++ ⟨.RightCurlyBracket, []⟩ :: after) := by
  constructor <;> rfl

/-- C4, the code at the failing input: the tokenizer of `starInterpreter.c` drops the `/`
of `int x. x is 6 / 0.`, the expression evaluated is `6 0`, and the run ends normally with
`x = 6`: no division-by-zero error. -/
theorem division_by_zero_not_detected (fuel : Nat) (input : List Char) :
    tokenize_source_code "int x. x is 6 / 0.".toList =
        .tokens [⟨.Keyword, "int".toList⟩, ⟨.Identifier, "x".toList⟩, ⟨.EndOfLine, []⟩,
          ⟨.Identifier, "x".toList⟩, ⟨.Keyword, "is".toList⟩, ⟨.IntConst, "6".toList⟩,
          ⟨.IntConst, "0".toList⟩, ⟨.EndOfLine, []⟩, ⟨.Terminator, []⟩] 0 ∧
      run (fuel + 3) "int x. x is 6 / 0.".toList input =
        .finished (.ok ⟨[⟨"x".toList, .intValue 6⟩], [], [], input⟩ ()) := by
  constructor <;> rfl

/-! ## Declaring a name twice (C6) -/

theorem declare_variable_duplicate (st : State) (n : List Char) (kind : VarType)
    (h : (find_variable st.vars n).isSome = true) :
    declare_variable st n kind = .fatal (.alreadyDeclared n) st := by
  simp [declare_variable, h]

set_option maxHeartbeats 4000000 in
/-- One iteration of the declaration loop. -/
theorem StarInterpreter.declaration_loop_cons (ty : VarType) (st : State) (t : Token)
    (rest : List Token) :
    declaration_loop ty st (t :: rest) =
      if t.type ≠ .Identifier then .ok st (t :: rest)
      else
        match rest with
        | [] => .undefined
        | t1 :: rest1 =>
          if t1.type = .Keyword ∧ t1.value = "is".toList then
            match rest1 with
            | [] => .undefined
            | t2 :: rest2 =>
              (declare_variable st t.value ty).bind fun st1 _ =>
                (assign_variable st1 t.value t2.value).bind fun st2 _ =>
                  match rest2 with
                  | [] => .undefined
                  | t3 :: rest3 =>
                    if t3.type = .Comma then declaration_loop ty st2 rest3
                    else declaration_loop ty st2 rest2
          else
            (declare_variable st t.value ty).bind fun st1 _ =>
              if t1.type = .Comma then declaration_loop ty st1 rest1
              else declaration_loop ty st1 rest := by
  rw [declaration_loop]

theorem StarInterpreter.declaration_loop_plain (ty : VarType) (st : State) (n : List Char)
    (t1 : Token) (rest1 : List Token) (h : ¬ (t1.type = .Keyword ∧ t1.value = "is".toList)) :
    declaration_loop ty st (⟨.Identifier, n⟩ :: t1 :: rest1) =
      (declare_variable st n ty).bind fun st1 _ =>
        if t1.type = .Comma then declaration_loop ty st1 rest1
        else declaration_loop ty st1 (t1 :: rest1) := by
  rw [declaration_loop_cons]
  simp only [ne_eq, not_true_eq_false, if_false, if_neg h]

theorem StarInterpreter.declaration_loop_initialized (ty : VarType) (st : State)
    (n : List Char) (t2 t3 : Token) (rest3 : List Token) :
    declaration_loop ty st
        (⟨.Identifier, n⟩ :: ⟨.Keyword, "is".toList⟩ :: t2 :: t3 :: rest3) =
      (declare_variable st n ty).bind fun st1 _ =>
        (assign_variable st1 n t2.value).bind fun st2 _ =>
          if t3.type = .Comma then declaration_loop ty st2 rest3
          else declaration_loop ty st2 (t3 :: rest3) := by
  rw [declaration_loop_cons]
  simp only [ne_eq, not_true_eq_false, if_false, and_self, if_true]

theorem StarInterpreter.declaration_loop_stop (ty : VarType) (st : State)
    (t : Token) (rest : List Token) (h : t.type ≠ .Identifier) :
    declaration_loop ty st (t :: rest) = .ok st (t :: rest) := by
  rw [declaration_loop_cons, if_pos h]

theorem StarInterpreter.find_variable_cons (a : Variable) (l : List Variable)
    (m : List Char) :
    find_variable (a :: l) m = if a.name = m then some a else find_variable l m := by
  by_cases h : a.name = m
  · rw [if_pos h, find_variable, List.find?_cons_of_pos]
    simpa using h
  · rw [if_neg h, find_variable, List.find?_cons_of_neg]
    · rfl
    · simpa using h

theorem StarInterpreter.find_variable_append (vars : List Variable) (v : Variable)
    (m : List Char) :
    find_variable (vars ++ [v]) m =
      match find_variable vars m with
      | some x => some x
      | none => if v.name = m then some v else none := by
  induction vars with
  | nil =>
    rw [List.nil_append, find_variable_cons]
    rfl
  | cons a l ih =>
    rw [List.cons_append, find_variable_cons, find_variable_cons]
    by_cases h : a.name = m
    · simp [h]
    · simp [h, ih]

theorem StarInterpreter.find_variable_store_value (vars : List Variable) (n m : List Char)
    (val : VarValue) :
    (find_variable (store_value n val vars) m).isSome = (find_variable vars m).isSome := by
  induction vars with
  | nil => rfl
  | cons a l ih =>
    by_cases h : a.name = n
    · have : store_value n val (a :: l) = { a with value := val } :: l := by
        simp [store_value, h]
      rw [this, find_variable_cons, find_variable_cons]
      by_cases hm : a.name = m <;> simp [hm]
    · have : store_value n val (a :: l) = a :: store_value n val l := by
        simp [store_value, h]
      rw [this, find_variable_cons, find_variable_cons]
      by_cases hm : a.name = m <;> simp [hm, ih]

/-- Outcome of `declare_variable`: an exit that leaves the state as it was, or a return in
a state that knows every name known before and, when it fits the name buffer, the new
name. -/
theorem StarInterpreter.declare_variable_outcome (st : State) (n : List Char) (ty : VarType) :
    (∃ e, declare_variable st n ty = .fatal e st) ∨
    (∃ st1, declare_variable st n ty = .ok st1 () ∧
      (find_variable st.vars n).isSome = false ∧
      (∀ m, (find_variable st.vars m).isSome = true → (find_variable st1.vars m).isSome = true) ∧
      (n.length ≤ 10 → (find_variable st1.vars n).isSome = true)) := by
  unfold declare_variable
  split_ifs with h1 h2
  · exact Or.inl ⟨_, rfl⟩
  · exact Or.inl ⟨_, rfl⟩
  · refine Or.inr ⟨_, rfl, by simpa using h1, ?_, ?_⟩
    · intro m hm
      simp only [find_variable_append]
      cases hf : find_variable st.vars m with
      | none => simp [hf] at hm
      | some x => simp
    · intro hlen
      simp only [find_variable_append, MAX_IDENTIFIER_LENGTH]
      cases hf : find_variable st.vars n with
      | none => simp [List.take_of_length_le hlen]
      | some x => simp

/-- Outcome of `assign_variable`: an exit that leaves the state as it was, a return in a
state that knows exactly the names known before, or the undefined division of
`evaluate_expression`. -/
theorem StarInterpreter.assign_variable_outcome (st : State) (n v : List Char) :
    (∃ e, assign_variable st n v = .fatal e st) ∨
    (∃ st1, assign_variable st n v = .ok st1 () ∧
      ∀ m, (find_variable st1.vars m).isSome = (find_variable st.vars m).isSome) ∨
    assign_variable st n v = .undefined := by
  unfold assign_variable
  cases hf : find_variable st.vars n with
  | none => exact Or.inl ⟨_, rfl⟩
  | some var =>
    simp only []
    by_cases hc : (v.contains '+' || v.contains '-') = true
    · rw [if_pos hc]
      cases he : evaluate_expression st.vars v with
      | error e => exact Or.inl ⟨_, rfl⟩
      | undefined => exact Or.inr (Or.inr rfl)
      | ok r =>
        cases hv : var.value <;>
          exact Or.inr (Or.inl ⟨_, rfl, fun m => find_variable_store_value _ _ _ _⟩)
    · rw [if_neg hc]
      cases hv : var.value with
      | intValue k =>
        simp only []
        split_ifs <;>
          exact Or.inr (Or.inl ⟨_, rfl, fun m => find_variable_store_value _ _ _ _⟩)
      | strValue t =>
        exact Or.inr (Or.inl ⟨_, rfl, fun m => find_variable_store_value _ _ _ _⟩)

/-- After the first declarator of a list that names a declared variable has been declared
(it was new), the rest of the list names a declared variable. -/
theorem StarInterpreter.names_declared_variable_tail (st st2 : State)
    (d : List Char × Option Token) (ds : List (List Char × Option Token))
    (h : names_declared_variable st (d :: ds))
    (hnew : (find_variable st.vars d.1).isSome = false)
    (hmono : ∀ m, (find_variable st.vars m).isSome = true →
      (find_variable st2.vars m).isSome = true)
    (hd : (find_variable st2.vars d.1).isSome = true) :
    names_declared_variable st2 ds := by
  rcases h with ⟨x, hx, hfx⟩ | hdup
  · rcases List.mem_cons.mp hx with rfl | hx
    · rw [hnew] at hfx; cases hfx
    · exact Or.inl ⟨x, hx, hmono _ hfx⟩
  · simp only [List.map_cons, List.nodup_cons, not_and_or, not_not] at hdup
    rcases hdup with hmem | hdup
    · obtain ⟨x, hx, hxe⟩ := List.mem_map.mp hmem
      exact Or.inl ⟨x, hx, by rw [hxe]; exact hd⟩
    · exact Or.inr hdup

theorem StarInterpreter.declaration_loop_duplicate (ty : VarType) (after : List Token)
    (more : List (List Char × Option Token)) :
    ∀ (d : List Char × Option Token) (st : State),
      (∀ x ∈ d :: more, x.1.length ≤ 10) → names_declared_variable st (d :: more) →
      (∃ e st1, declaration_loop ty st
        (declarator_tokens d ++ (more_declarators_tokens more ++ after)) = .fatal e st1) ∨
      declaration_loop ty st
        (declarator_tokens d ++ (more_declarators_tokens more ++ after)) = .undefined := by
  induction more with
  | nil =>
    intro d st _ hdup
    have hfound : (find_variable st.vars d.1).isSome = true := by
      rcases hdup with ⟨x, hx, hfx⟩ | hdup
      · simp only [List.mem_singleton] at hx
        subst hx
        exact hfx
      · simp at hdup
    obtain ⟨n, init⟩ := d
    cases init with
    | none =>
      refine Or.inl ⟨.alreadyDeclared n, st, ?_⟩
      simp only [declarator_tokens, more_declarators_tokens, List.cons_append, List.nil_append]
      rw [declaration_loop_plain _ _ _ _ _ (by simp),
        declare_variable_duplicate st n ty hfound]
      rfl
    | some v =>
      refine Or.inl ⟨.alreadyDeclared n, st, ?_⟩
      simp only [declarator_tokens, more_declarators_tokens, List.cons_append, List.nil_append]
      rw [declaration_loop_initialized, declare_variable_duplicate st n ty hfound]
      rfl
  | cons d1 more1 ih =>
    intro d st hlen hdup
    obtain ⟨n, init⟩ := d
    have hn : n.length ≤ 10 := hlen (n, init) (by simp)
    have hlen1 : ∀ x ∈ d1 :: more1, x.1.length ≤ 10 := fun x hx => hlen x (by simp [hx])
    rcases declare_variable_outcome st n ty with ⟨e, he⟩ | ⟨st1, hok, hnew, hmono, hd⟩
    · refine Or.inl ⟨e, st, ?_⟩
      cases init with
      | none =>
        simp only [declarator_tokens, more_declarators_tokens, List.cons_append,
          List.nil_append]
        rw [declaration_loop_plain _ _ _ _ _ (by simp), he]
        rfl
      | some v =>
        simp only [declarator_tokens, more_declarators_tokens, List.cons_append,
          List.nil_append]
        rw [declaration_loop_initialized, he]
        rfl
    · cases init with
      | none =>
        have hdup1 := names_declared_variable_tail st st1 (n, none) (d1 :: more1) hdup hnew
          hmono (hd hn)
        have hstep : declaration_loop ty st (declarator_tokens (n, none) ++
            (more_declarators_tokens (d1 :: more1) ++ after)) =
            declaration_loop ty st1
              (declarator_tokens d1 ++ (more_declarators_tokens more1 ++ after)) := by
          simp only [declarator_tokens, more_declarators_tokens, List.cons_append,
            List.nil_append]
          rw [declaration_loop_plain _ _ _ _ _ (by simp), hok]
          simp [Res.bind]
        rw [hstep]
        exact ih d1 st1 hlen1 hdup1
      | some v =>
        rcases assign_variable_outcome st1 n v.value with ⟨e, he⟩ | ⟨st2, hok2, hsame⟩ | hu
        · refine Or.inl ⟨e, st1, ?_⟩
          simp only [declarator_tokens, more_declarators_tokens, List.cons_append,
            List.nil_append]
          rw [declaration_loop_initialized, hok]
          simp only [Res.bind, he]
        · have hdup1 := names_declared_variable_tail st st2 (n, some v) (d1 :: more1) hdup hnew
            (fun m hm => by rw [hsame]; exact hmono m hm) (by rw [hsame]; exact hd hn)
          have hstep : declaration_loop ty st (declarator_tokens (n, some v) ++
              (more_declarators_tokens (d1 :: more1) ++ after)) =
              declaration_loop ty st2
                (declarator_tokens d1 ++ (more_declarators_tokens more1 ++ after)) := by
            simp only [declarator_tokens, more_declarators_tokens, List.cons_append,
              List.nil_append]
            rw [declaration_loop_initialized, hok]
            simp [Res.bind, hok2]
          rw [hstep]
          exact ih d1 st2 hlen1 hdup1
        · refine Or.inr ?_
          simp only [declarator_tokens, more_declarators_tokens, List.cons_append,
            List.nil_append]
          rw [declaration_loop_initialized, hok]
          simp only [Res.bind, hu]

/-- C6, counterexample: the statement `int a is "0 - 2147483647 - 1 / -1", a.` names `a`
twice, but the initializer of the first declarator makes `evaluate_expression` divide
`INT_MIN` by `-1` before the second declarator is reached: the statement, and the run of
the program, end in undefined behaviour and not in the duplicate-declaration error. -/
theorem duplicate_after_division_counterexample :
    names_declared_variable ⟨[], [], [], []⟩
        [("a".toList, some ⟨.String, "0 - 2147483647 - 1 / -1".toList⟩), ("a".toList, none)] ∧
      execute_statement 1 ⟨[], [], [], []⟩
        (declaration_tokens "int".toList
          ("a".toList, some ⟨.String, "0 - 2147483647 - 1 / -1".toList⟩) [("a".toList, none)] ++
          [⟨.Terminator, []⟩]) = .undefined ∧
      run 2 "int a is \x220 - 2147483647 - 1 / -1\x22, a.".toList [] = .finished .undefined := by
  refine ⟨Or.inr (by decide), rfl, rfl⟩

/-- C6, amended: (1) for every symbol table and every name already present in it,
`declare_variable` fails with the duplicate-declaration error, for either kind, leaving the
table as it was; (2) consequently every declaration statement `int ...` or `text ...` whose
declarator list (names of at most 10 characters) names an already declared variable (a name
of the table, or a name that occurs twice in the list) ends in a fatal error, unless an
initializer of the statement makes `evaluate_expression` divide `INT_MIN` by `-1`, which
is undefined behaviour; (3) the programs `int x. text x.` and `int x, x.` end with the
duplicate-declaration error for `x`. -/
theorem duplicate_declaration_fatal :
    (∀ (st : State) (n : List Char) (kind : VarType),
      (find_variable st.vars n).isSome = true →
        declare_variable st n kind = .fatal (.alreadyDeclared n) st) ∧
    (∀ (st : State) (fuel : Nat) (keyword : List Char) (first : List Char × Option Token)
        (more : List (List Char × Option Token)) (after : List Token),
      (keyword = "int".toList ∨ keyword = "text".toList) →
      (∀ d ∈ first :: more, d.1.length ≤ 10) →
      names_declared_variable st (first :: more) →
      execute_statement (fuel + 1) st
          (declaration_tokens keyword first more ++ after) ≠ .undefined →
        ∃ e st1, execute_statement (fuel + 1) st
          (declaration_tokens keyword first more ++ after) = .fatal e st1) ∧
    (∀ (fuel : Nat) (input : List Char),
      run (fuel + 3) "int x. text x.".toList input =
          .finished (.fatal (.alreadyDeclared "x".toList)
            ⟨[⟨"x".toList, .intValue 0⟩], [], [], input⟩) ∧
        run (fuel + 2) "int x, x.".toList input =
          .finished (.fatal (.alreadyDeclared "x".toList)
            ⟨[⟨"x".toList, .intValue 0⟩], [], [], input⟩)) := by
  refine ⟨declare_variable_duplicate, ?_, fun fuel input => ⟨rfl, rfl⟩⟩
  intro st fuel keyword first more after hkw hlen hdup hdef
  have hexec : execute_statement (fuel + 1) st (declaration_tokens keyword first more ++ after) =
      (declaration_loop (if keyword = "int".toList then .Integer else .Text) st
        (declarator_tokens first ++ (more_declarators_tokens more ++ after))).bind
          skip_end_of_line := by
    rw [declaration_tokens, List.cons_append, execute_statement]
    simp only [true_and, hkw, if_true, List.append_assoc]
  rcases declaration_loop_duplicate
    (if keyword = "int".toList then .Integer else .Text) after more first st hlen hdup with
    ⟨e, st1, h⟩ | hu
  · exact ⟨e, st1, by rw [hexec, h]; rfl⟩
  · exact absurd (by rw [hexec, hu]; rfl) hdef

/-- C6, witness: declaring `x` again in a table that holds `x`, and the statement `text x.`
executed in that table. -/
theorem duplicate_declaration_fatal_witness :
    declare_variable ⟨[⟨"x".toList, .intValue 0⟩], [], [], []⟩ "x".toList .Text =
        .fatal (.alreadyDeclared "x".toList) ⟨[⟨"x".toList, .intValue 0⟩], [], [], []⟩ ∧
      ∃ e st1, execute_statement 1 ⟨[⟨"x".toList, .intValue 0⟩], [], [], []⟩
        (declaration_tokens "text".toList ("x".toList, none) [] ++ [⟨.Terminator, []⟩]) =
          .fatal e st1 :=
  ⟨duplicate_declaration_fatal.1 ⟨[⟨"x".toList, .intValue 0⟩], [], [], []⟩ "x".toList .Text rfl,
   duplicate_declaration_fatal.2.1 ⟨[⟨"x".toList, .intValue 0⟩], [], [], []⟩ 0 "text".toList
     ("x".toList, none) [] [⟨.Terminator, []⟩] (Or.inr rfl) (by decide)
     (Or.inl ⟨("x".toList, none), by simp, rfl⟩) (by decide)⟩

/-! ## Undeclared identifiers (C5) -/

theorem StarInterpreter.collect_expression_tail (after : List Token)
    (tail : List (Char × Token)) (htail : ∀ p ∈ tail, is_operand_token p.2) :
    ∀ x : List Char,
      collect_expression x (expression_tail_tokens tail ++ ⟨.EndOfLine, []⟩ :: after) =
        some (x ++ spaced_words (tail_words (tail.map fun p => (p.1, p.2.value))),
          ⟨.EndOfLine, []⟩ :: after) := by
  induction tail with
  | nil => intro x; simp [expression_tail_tokens, collect_expression, tail_words, spaced_words]
  | cons p more ih =>
    intro x
    obtain ⟨o, y⟩ := p
    have hy : y.type = .Identifier ∨ y.type = .IntConst := (htail (o, y) (by simp)).1
    have hy1 : y.type = .Operator ∨ y.type = .Identifier ∨ y.type = .IntConst := Or.inr hy
    rw [expression_tail_tokens, List.cons_append, List.cons_append, collect_expression,
      if_pos (Or.inl rfl), collect_expression, if_pos hy1, ih (fun q hq => htail q (by simp [hq]))]
    simp [tail_words, spaced_words]

theorem StarInterpreter.execute_statement_identifier (fuel : Nat) (st : State)
    (v : List Char) (rest : List Token) :
    execute_statement (fuel + 1) st (⟨.Identifier, v⟩ :: rest) =
      (assignment st v rest).bind skip_end_of_line := by
  rw [execute_statement]
  simp

/-- The assignment branch once the expression has been collected. -/
theorem StarInterpreter.assignment_collected (st : State) (v : List Char) (t2 : Token)
    (rest2 : List Token) (expression : List Char) (cur : List Token)
    (h : collect_expression t2.value rest2 = some (expression, cur)) :
    assignment st v (⟨.Keyword, "is".toList⟩ :: t2 :: rest2) =
      match evaluate_expression st.vars expression with
      | .error e => .fatal e st
      | .undefined => .undefined
      | .ok result =>
        (assign_variable st v (sprintf_d result)).bind fun st1 _ => .ok st1 cur := by
  simp only [assignment, true_and, if_true, h]

theorem StarInterpreter.tail_words_wf (tail : List (Char × Token))
    (htail : ∀ p ∈ tail, p.1 ≠ ' ' ∧ is_operand_token p.2) :
    ∀ w ∈ tail_words (tail.map fun p => (p.1, p.2.value)), w ≠ [] ∧ ∀ c ∈ w, c ≠ ' ' := by
  induction tail with
  | nil => intro w hw; simp [tail_words] at hw
  | cons p more ih =>
    obtain ⟨o, y⟩ := p
    have hp : o ≠ ' ' ∧ is_operand_token y := htail (o, y) (by simp)
    intro w hw
    simp only [List.map_cons, tail_words, List.mem_cons] at hw
    rcases hw with h | h | h
    · subst h
      refine ⟨by simp, ?_⟩
      intro c hc
      simp only [List.mem_singleton] at hc
      subst hc
      exact hp.1
    · subst h
      exact hp.2.2
    · exact ih (fun q hq => htail q (by simp [hq])) w h

set_option maxRecDepth 100000 in
/-- The bound of 127 items is the capacity of the token array: the statement
`write x, x, ..., x.` with 127 items has 256 tokens with the Terminator and is tokenized,
with 128 items the Terminator is written past the end of the array. -/
theorem write_statement_capacity :
    (∃ ts, tokenize_source_code
        (write_source (.var "x".toList) (List.replicate 126 (.var "x".toList))) =
          .tokens ts 0 ∧ ts.length = 256) ∧
      tokenize_source_code
        (write_source (.var "x".toList) (List.replicate 127 (.var "x".toList))) = .undefined := by
  refine ⟨⟨_, rfl, rfl⟩, rfl⟩

/-! ## Decimal rendering: `sprintf` and `atoi` -/

theorem digit_char_toNat (n : Nat) : (digit_char n).toNat = 48 + n % 10 := by
  unfold digit_char
  have h : n % 10 < 10 := Nat.mod_lt _ (by decide)
  generalize n % 10 = k at h
  interval_cases k <;> rfl

theorem digit_char_isdigit (n : Nat) : isdigit (digit_char n) = true := by
  have h := digit_char_toNat n
  have h2 : n % 10 < 10 := Nat.mod_lt _ (by decide)
  simp only [isdigit, h, Bool.and_eq_true, decide_eq_true_eq]
  omega

theorem nat_digits_fuel (fuel : Nat) : ∀ (n : Nat) (acc : List Char), n < fuel →
    nat_digits fuel n acc = nat_digits (n + 1) n acc := by
  induction fuel using Nat.strong_induction_on with
  | _ fuel ih =>
    intro n acc hn
    cases fuel with
    | zero => omega
    | succ f =>
      by_cases h : n / 10 = 0
      · simp [nat_digits, h]
      · have h1 : n / 10 < n := Nat.div_lt_self (by omega) (by decide)
        simp only [nat_digits, h, if_false]
        by_cases hf : n = f
        · subst hf; rfl
        · rw [ih f (by omega) (n / 10) _ (by omega), ih n (by omega) (n / 10) _ h1]

theorem nat_digits_acc (fuel : Nat) : ∀ (n : Nat) (acc : List Char),
    nat_digits (fuel + 1) n acc = nat_digits (fuel + 1) n [] ++ acc := by
  induction fuel with
  | zero =>
    intro n acc
    by_cases h : n / 10 = 0 <;> simp [nat_digits, h]
  | succ f ih =>
    intro n acc
    by_cases h : n / 10 = 0
    · simp [nat_digits, h]
    · have e1 : ∀ a, nat_digits (f + 1 + 1) n a = nat_digits (f + 1) (n / 10) (digit_char n :: a) := by
        intro a
        rw [nat_digits, if_neg h]
      rw [e1 acc, e1 [], ih _ (digit_char n :: acc), ih _ [digit_char n]]
      simp

/-- The decimal rendering, digit by digit. -/
theorem render_nat_step (n : Nat) :
    render_nat n = if n / 10 = 0 then [digit_char n] else render_nat (n / 10) ++ [digit_char n] := by
  by_cases h : n / 10 = 0
  · simp [render_nat, nat_digits, h]
  · have h1 : n / 10 < n := Nat.div_lt_self (by omega) (by decide)
    rw [if_neg h]
    unfold render_nat
    rw [nat_digits, if_neg h]
    obtain ⟨m, hm⟩ : ∃ m, n = m + 1 := ⟨n - 1, by omega⟩
    subst hm
    rw [nat_digits_acc, nat_digits_fuel (m + 1) _ _ h1]

theorem render_nat_digits (n : Nat) : ∀ c ∈ render_nat n, isdigit c = true := by
  induction n using Nat.strong_induction_on with
  | _ n ih =>
    rw [render_nat_step]
    by_cases h : n / 10 = 0
    · simp [h, digit_char_isdigit]
    · have h1 : n / 10 < n := Nat.div_lt_self (by omega) (by decide)
      intro c hc
      simp only [h, if_false, List.mem_append, List.mem_singleton] at hc
      rcases hc with hc | hc
      · exact ih _ h1 c hc
      · rw [hc]; exact digit_char_isdigit n

theorem render_nat_ne_nil (n : Nat) : render_nat n ≠ [] := by
  rw [render_nat_step]
  by_cases h : n / 10 = 0 <;> simp [h]

theorem render_nat_length (k : Nat) : ∀ n, n < 10 ^ (k + 1) → (render_nat n).length ≤ k + 1 := by
  induction k with
  | zero =>
    intro n hn
    rw [render_nat_step, if_pos (by omega)]
    simp
  | succ k ih =>
    intro n hn
    rw [render_nat_step]
    by_cases h : n / 10 = 0
    · simp [h]
    · have : n / 10 < 10 ^ (k + 1) := by
        rw [Nat.div_lt_iff_lt_mul (by decide)]
        rw [pow_succ] at hn
        exact hn
      have := ih _ this
      simp [h]
      omega

theorem digits_value_append (l m : List Char) (hl : ∀ c ∈ l, isdigit c = true) (acc : Nat) :
    digits_value (l ++ m) acc = digits_value m (digits_value l acc) := by
  induction l generalizing acc with
  | nil => rfl
  | cons c r ih =>
    have hc := hl c (by simp)
    simp only [List.cons_append, digits_value, hc, if_true]
    exact ih (fun x hx => hl x (by simp [hx])) _

theorem digits_value_render_nat (n : Nat) : digits_value (render_nat n) 0 = n := by
  induction n using Nat.strong_induction_on with
  | _ n ih =>
    rw [render_nat_step]
    by_cases h : n / 10 = 0
    · simp only [h, if_true, digits_value, digit_char_isdigit, digit_char_toNat]
      omega
    · have h1 : n / 10 < n := Nat.div_lt_self (by omega) (by decide)
      simp only [h, if_false]
      rw [digits_value_append _ _ (render_nat_digits _), ih _ h1]
      simp only [digits_value, digit_char_isdigit, digit_char_toNat, if_true]
      omega

theorem render_nat_is_literal (n : Nat) : is_literal (render_nat n) :=
  ⟨render_nat_ne_nil n, render_nat_digits n⟩

/-- Reading back the decimal rendering of a number in the range of `int`. -/
theorem atoi_render_nat (n : Nat) (h : n ≤ 2147483647) : atoi (render_nat n) = n := by
  have : literal_value (render_nat n) = n := by
    unfold literal_value
    rw [← digits_value_eq_foldl _ (render_nat_digits n), digits_value_render_nat]
  rw [atoi_literal _ (render_nat_is_literal n) (by omega)]
  rw [this]
  exact toInt32_of_fits _ ⟨by omega, by omega⟩

/-! ## Counted loops (C2) -/

theorem sprintf_d_nat (n : Nat) : sprintf_d (n : Int) = render_nat n := by
  simp [sprintf_d]

theorem render_nat_no_sign (n : Nat) :
    ((render_nat n).contains '+' || (render_nat n).contains '-') = false := by
  have h := render_nat_digits n
  simp only [Bool.or_eq_false_iff]
  constructor
  · cases hc : (render_nat n).contains '+' with
    | false => rfl
    | true =>
      have := h '+' (by simpa using hc)
      exact absurd this (by decide)
  · cases hc : (render_nat n).contains '-' with
    | false => rfl
    | true =>
      have := h '-' (by simpa using hc)
      exact absurd this (by decide)

/-- The integer branch on an unsigned literal of at most 8 digits with a non-negative
value. -/
theorem lex_integer_unsigned (s : LexState) (c : Char) (tail ds rest : List Char)
    (h : c :: tail = ds ++ rest) (hne : ds ≠ []) (hds : ∀ x ∈ ds, isdigit x = true)
    (hlen : ds.length ≤ 8) (hrest : ∀ d r, rest = d :: r → isdigit d = false)
    (hval : 0 ≤ atoi ds) :
    lex_integer s c tail =
      .ok { s with ptr := rest, tokens := s.tokens ++ [⟨.IntConst, sprintf_d (atoi ds)⟩] } := by
  have hcd : isdigit c = true := by
    cases ds with
    | nil => exact absurd rfl hne
    | cons d r =>
      simp only [List.cons_append, List.cons.injEq] at h
      rw [h.1]
      exact hds d (by simp)
  have hc : c ≠ '-' := isdigit_ne c '-' hcd (by decide)
  have hrun := scan_while_run isdigit 9 ds rest hds (by omega) hrest
  have hlt : ¬ atoi ds < 0 := by omega
  simp [lex_integer, hc, h, MAX_INTEGER_LENGTH, hrun, hlen, hlt]

theorem lex_steps_add (step : LexState → Except LexErr LexState) (k j : Nat) :
    ∀ (s s1 s2 : LexState), lex_steps step k s = .ok s1 → lex_steps step j s1 = .ok s2 →
      lex_steps step (k + j) s = .ok s2 := by
  induction k with
  | zero =>
    intro s s1 s2 h1 h2
    simp only [lex_steps, Except.ok.injEq] at h1
    subst h1
    simpa using h2
  | succ k ih =>
    intro s s1 s2 h1 h2
    cases hstep : step s with
    | error e => simp [lex_steps, hstep] at h1
    | ok s3 =>
      simp only [lex_steps, hstep] at h1
      rw [show k + 1 + j = (k + j) + 1 by omega, lex_steps, hstep]
      exact ih s3 s1 s2 h1 h2

/-- The iteration of the scan loop of `starInterpreter.c` at an unsigned literal of at most
8 digits, with the value and the text of the token given. -/
theorem StarInterpreter.lex_step_literal (toks : List Token) (w : Nat) (ds rest : List Char)
    (value : Nat) (hne : ds ≠ []) (hds : ∀ x ∈ ds, isdigit x = true) (hlen : ds.length ≤ 8)
    (hrest : ∀ d r, rest = d :: r → isdigit d = false) (hval : atoi ds = value) :
    StarInterpreter.lex_step ⟨ds ++ rest, false, toks, w⟩ =
      .ok ⟨rest, false, toks ++ [⟨.IntConst, render_nat value⟩], w⟩ := by
  obtain ⟨c, tail, hct⟩ : ∃ c tail, ds = c :: tail := by
    cases ds with
    | nil => exact absurd rfl hne
    | cons c tail => exact ⟨c, tail, rfl⟩
  rw [interpreter_lex_step_integer _ c (tail ++ rest) (by simp [hct]) rfl
    (Or.inl (hds c (by simp [hct])))]
  rw [lex_integer_unsigned _ c _ ds rest (by simp [hct]) hne hds hlen hrest
    (by rw [hval]; omega), hval, sprintf_d_nat]

/-- The tokens of the counted-loop program. -/
theorem StarInterpreter.tokenize_loop_program (N : Nat) (hN : N ≤ 99999999) :
    tokenize_source_code (loop_program N) =
      .tokens [⟨.Keyword, "int".toList⟩, ⟨.Identifier, "x".toList⟩, ⟨.Keyword, "is".toList⟩,
        ⟨.IntConst, "0".toList⟩, ⟨.EndOfLine, []⟩, ⟨.Keyword, "loop".toList⟩,
        ⟨.IntConst, render_nat N⟩, ⟨.Keyword, "times".toList⟩, ⟨.LeftCurlyBracket, []⟩,
        ⟨.Identifier, "x".toList⟩, ⟨.Keyword, "is".toList⟩, ⟨.Identifier, "x".toList⟩,
        ⟨.Operator, "+".toList⟩, ⟨.IntConst, "1".toList⟩, ⟨.EndOfLine, []⟩,
        ⟨.RightCurlyBracket, []⟩, ⟨.Terminator, []⟩] 0 := by
  have seg1 : lex_steps StarInterpreter.lex_step 6 ⟨loop_program N, false, [], 0⟩ =
      .ok ⟨"0".toList ++ (". loop ".toList ++
          (render_nat N ++ " times \x7b x is x + 1. \x7d".toList)), false,
        [⟨.Keyword, "int".toList⟩, ⟨.Identifier, "x".toList⟩, ⟨.Keyword, "is".toList⟩], 0⟩ :=
    rfl
  have int0 := lex_step_literal
    [⟨.Keyword, "int".toList⟩, ⟨.Identifier, "x".toList⟩, ⟨.Keyword, "is".toList⟩] 0
    "0".toList (". loop ".toList ++ (render_nat N ++ " times \x7b x is x + 1. \x7d".toList))
    0 (by decide) (by decide) (by decide) (by intro d r h; cases h; decide) (by decide)
  have seg2 : lex_steps StarInterpreter.lex_step 4
      ⟨". loop ".toList ++ (render_nat N ++ " times \x7b x is x + 1. \x7d".toList), false,
        [⟨.Keyword, "int".toList⟩, ⟨.Identifier, "x".toList⟩, ⟨.Keyword, "is".toList⟩] ++
          [⟨.IntConst, render_nat 0⟩], 0⟩ =
      .ok ⟨render_nat N ++ " times \x7b x is x + 1. \x7d".toList, false,
        [⟨.Keyword, "int".toList⟩, ⟨.Identifier, "x".toList⟩, ⟨.Keyword, "is".toList⟩,
          ⟨.IntConst, "0".toList⟩, ⟨.EndOfLine, []⟩, ⟨.Keyword, "loop".toList⟩], 0⟩ := rfl
  have intN := lex_step_literal
    [⟨.Keyword, "int".toList⟩, ⟨.Identifier, "x".toList⟩, ⟨.Keyword, "is".toList⟩,
      ⟨.IntConst, "0".toList⟩, ⟨.EndOfLine, []⟩, ⟨.Keyword, "loop".toList⟩] 0
    (render_nat N) " times \x7b x is x + 1. \x7d".toList N (render_nat_ne_nil N)
    (render_nat_digits N) (render_nat_length 7 N (by omega))
    (by intro d r h; cases h; decide) (atoi_render_nat N (by omega))
  have seg3 : lex_steps StarInterpreter.lex_step 13
      ⟨" times \x7b x is x + 1. \x7d".toList, false,
        [⟨.Keyword, "int".toList⟩, ⟨.Identifier, "x".toList⟩, ⟨.Keyword, "is".toList⟩,
          ⟨.IntConst, "0".toList⟩, ⟨.EndOfLine, []⟩, ⟨.Keyword, "loop".toList⟩] ++
          [⟨.IntConst, render_nat N⟩], 0⟩ =
      .ok ⟨"1".toList ++ ". \x7d".toList, false,
        [⟨.Keyword, "int".toList⟩, ⟨.Identifier, "x".toList⟩, ⟨.Keyword, "is".toList⟩,
          ⟨.IntConst, "0".toList⟩, ⟨.EndOfLine, []⟩, ⟨.Keyword, "loop".toList⟩,
          ⟨.IntConst, render_nat N⟩, ⟨.Keyword, "times".toList⟩, ⟨.LeftCurlyBracket, []⟩,
          ⟨.Identifier, "x".toList⟩, ⟨.Keyword, "is".toList⟩, ⟨.Identifier, "x".toList⟩,
          ⟨.Operator, "+".toList⟩], 0⟩ := rfl
  have int1 := lex_step_literal
    [⟨.Keyword, "int".toList⟩, ⟨.Identifier, "x".toList⟩, ⟨.Keyword, "is".toList⟩,
      ⟨.IntConst, "0".toList⟩, ⟨.EndOfLine, []⟩, ⟨.Keyword, "loop".toList⟩,
      ⟨.IntConst, render_nat N⟩, ⟨.Keyword, "times".toList⟩, ⟨.LeftCurlyBracket, []⟩,
      ⟨.Identifier, "x".toList⟩, ⟨.Keyword, "is".toList⟩, ⟨.Identifier, "x".toList⟩,
      ⟨.Operator, "+".toList⟩] 0
    "1".toList ". \x7d".toList 1 (by decide) (by decide) (by decide)
    (by intro d r h; cases h; decide) (by decide)
  have hall := lex_steps_succ_last _ _ _ _ _
    (lex_steps_add _ _ _ _ _ _
      (lex_steps_succ_last _ _ _ _ _
        (lex_steps_add _ _ _ _ _ _ (lex_steps_succ_last _ _ _ _ _ seg1 int0) seg2) intN)
      seg3) int1
  have := lex_loop_of_steps _ StarInterpreter.interpreter_lex_step_progress
    StarInterpreter.interpreter_lex_step_tokens _ _ _ hall
    (by simp [MAX_STRING_LENGTH])
  simp only [] at this
  unfold tokenize_source_code
  rw [this]
  rfl

/-- One execution of the statement `x is x + 1.` when `x` is the only variable. -/
theorem StarInterpreter.execute_increment (g j : Nat) (hj : j + 1 ≤ 2147483647)
    (o : List Char) (w : List (List Char)) (i : List Char) (after : List Token) :
    execute_statement (g + 1) ⟨[⟨"x".toList, .intValue j⟩], o, w, i⟩
        (⟨.Identifier, "x".toList⟩ :: ⟨.Keyword, "is".toList⟩ :: ⟨.Identifier, "x".toList⟩ ::
          ⟨.Operator, "+".toList⟩ :: ⟨.IntConst, "1".toList⟩ :: ⟨.EndOfLine, []⟩ :: after) =
      .ok ⟨[⟨"x".toList, .intValue ((j + 1 : Nat) : Int)⟩], o, w, i⟩ after := by
  have hx : operand_value [⟨"x".toList, .intValue j⟩] "x".toList = .ok (j : Int) := rfl
  have h1 : operand_value [⟨"x".toList, .intValue j⟩] "1".toList = .ok 1 := rfl
  have ha : apply_operator '+' 0 (j : Int) = .ok (j : Int) := by
    simp [apply_operator, toInt32_of_fits (j : Int) ⟨by omega, by omega⟩]
  have hb : apply_operator '+' (j : Int) 1 = .ok ((j + 1 : Nat) : Int) := by
    have := toInt32_of_fits ((j : Int) + 1) ⟨by omega, by omega⟩
    simp [apply_operator, this]
  have hev : evaluate_expression [⟨"x".toList, .intValue j⟩] "x + 1".toList =
      .ok ((j + 1 : Nat) : Int) := by
    have hs : strtok_tokens ("x + 1".toList.take (MAX_STRING_LENGTH - 1)) [] =
        ["x".toList, "+".toList, "1".toList] := by decide
    unfold evaluate_expression
    rw [hs, evaluate_loop, hx]
    simp only []
    rw [ha]
    simp only []
    rw [show ("+".toList).headD ' ' = '+' from rfl, evaluate_loop, h1]
    simp only []
    rw [hb]
  have hassign : assign_variable ⟨[⟨"x".toList, .intValue j⟩], o, w, i⟩ "x".toList
      (sprintf_d ((j + 1 : Nat) : Int)) =
      .ok ⟨[⟨"x".toList, .intValue ((j + 1 : Nat) : Int)⟩], o, w, i⟩ () := by
    have hf : find_variable [⟨"x".toList, .intValue j⟩] "x".toList =
        some ⟨"x".toList, .intValue j⟩ := rfl
    have hat := atoi_render_nat (j + 1) hj
    have hlt : ¬ atoi (render_nat (j + 1)) < 0 := by rw [hat]; omega
    rw [sprintf_d_nat]
    simp only [assign_variable, hf, render_nat_no_sign, Bool.false_eq_true, if_false, hlt, hat]
    rfl
  rw [execute_statement_identifier,
    assignment_collected ⟨[⟨"x".toList, .intValue j⟩], o, w, i⟩ "x".toList
      ⟨.Identifier, "x".toList⟩
      (⟨.Operator, "+".toList⟩ :: ⟨.IntConst, "1".toList⟩ :: ⟨.EndOfLine, []⟩ :: after)
      "x + 1".toList (⟨.EndOfLine, []⟩ :: after) rfl, hev]
  simp only [hassign, Res.bind, skip_end_of_line, if_true]

/-- One pass of `handle_loop` over the body `x is x + 1. }`. -/
theorem StarInterpreter.loop_body_increment (g f j : Nat) (hj : j + 1 ≤ 2147483647)
    (o : List Char) (w : List (List Char)) (i : List Char) :
    loop_body (execute_statement (g + 1)) (f + 2) ⟨[⟨"x".toList, .intValue j⟩], o, w, i⟩
        [⟨.Identifier, "x".toList⟩, ⟨.Keyword, "is".toList⟩, ⟨.Identifier, "x".toList⟩,
          ⟨.Operator, "+".toList⟩, ⟨.IntConst, "1".toList⟩, ⟨.EndOfLine, []⟩,
          ⟨.RightCurlyBracket, []⟩, ⟨.Terminator, []⟩] =
      .ok ⟨[⟨"x".toList, .intValue ((j + 1 : Nat) : Int)⟩], o, w, i⟩
        [⟨.RightCurlyBracket, []⟩, ⟨.Terminator, []⟩] := by
  rw [loop_body, if_neg (by decide), execute_increment g j hj]
  rfl

/-- The iterations of `handle_loop` over the body `x is x + 1. }`: `k` iterations add `k`
to `x`. -/
theorem StarInterpreter.loop_iterations_increment (g f : Nat) (o : List Char)
    (w : List (List Char)) (i : List Char) (k : Nat) :
    ∀ (j : Nat) (cur : List Token), j + k ≤ 2147483647 →
      loop_iterations (execute_statement (g + 1)) (f + 2)
          [⟨.Identifier, "x".toList⟩, ⟨.Keyword, "is".toList⟩, ⟨.Identifier, "x".toList⟩,
            ⟨.Operator, "+".toList⟩, ⟨.IntConst, "1".toList⟩, ⟨.EndOfLine, []⟩,
            ⟨.RightCurlyBracket, []⟩, ⟨.Terminator, []⟩]
          k ⟨[⟨"x".toList, .intValue j⟩], o, w, i⟩ cur =
        .ok ⟨[⟨"x".toList, .intValue ((j + k : Nat) : Int)⟩], o, w, i⟩
          (if k = 0 then cur else [⟨.RightCurlyBracket, []⟩, ⟨.Terminator, []⟩]) := by
  induction k with
  | zero => intro j cur _; rfl
  | succ k ih =>
    intro j cur hj
    rw [loop_iterations, loop_body_increment g f j (by omega)]
    simp only [Res.bind]
    rw [ih (j + 1) _ (by omega)]
    have : j + 1 + k = j + (k + 1) := by omega
    rw [this]
    by_cases hk : k = 0 <;> simp [hk]

/-- The declaration `int x is 0.` at the start of a run. -/
theorem StarInterpreter.execute_declaration_x (g : Nat) (input : List Char)
    (after : List Token) :
    execute_statement (g + 1) (initial_state input)
        (⟨.Keyword, "int".toList⟩ :: ⟨.Identifier, "x".toList⟩ :: ⟨.Keyword, "is".toList⟩ ::
          ⟨.IntConst, "0".toList⟩ :: ⟨.EndOfLine, []⟩ :: after) =
      .ok ⟨[⟨"x".toList, .intValue (0 : Nat)⟩], [], [], input⟩ after := by
  have hd : declare_variable (initial_state input) "x".toList .Integer =
      .ok ⟨[⟨"x".toList, .intValue 0⟩], [], [], input⟩ () := rfl
  have ha : assign_variable ⟨[⟨"x".toList, .intValue 0⟩], [], [], input⟩ "x".toList
      "0".toList = .ok ⟨[⟨"x".toList, .intValue 0⟩], [], [], input⟩ () := rfl
  have hne : ¬ (TokenType.EndOfLine = TokenType.Comma) := by decide
  rw [execute_statement]
  simp only [true_and, true_or, if_true, declaration_loop_initialized,
    declaration_loop_stop _ _ ⟨.EndOfLine, []⟩ _ (by decide), hd, ha, Res.bind, if_neg hne,
    skip_end_of_line]
  rfl

/-- The statement `loop N times { x is x + 1. }` when `x` is the only variable and holds
0. -/
theorem StarInterpreter.execute_loop_x (g N : Nat) (h1 : 1 ≤ N) (h2 : N ≤ 99999999)
    (input : List Char) :
    execute_statement (g + 3) ⟨[⟨"x".toList, .intValue (0 : Nat)⟩], [], [], input⟩
      [⟨.Keyword, "loop".toList⟩,
        ⟨.IntConst, render_nat N⟩, ⟨.Keyword, "times".toList⟩, ⟨.LeftCurlyBracket, []⟩,
        ⟨.Identifier, "x".toList⟩, ⟨.Keyword, "is".toList⟩, ⟨.Identifier, "x".toList⟩,
        ⟨.Operator, "+".toList⟩, ⟨.IntConst, "1".toList⟩, ⟨.EndOfLine, []⟩,
        ⟨.RightCurlyBracket, []⟩, ⟨.Terminator, []⟩] =
      .ok ⟨[⟨"x".toList, .intValue N⟩], [], [], input⟩ [⟨.Terminator, []⟩] := by
  have hN : (atoi (render_nat N)).toNat = N := by
    rw [atoi_render_nat N (by omega)]
    simp
  have hiter := loop_iterations_increment (g + 1) g [] [] input N 0
    [⟨.Identifier, "x".toList⟩, ⟨.Keyword, "is".toList⟩, ⟨.Identifier, "x".toList⟩,
      ⟨.Operator, "+".toList⟩, ⟨.IntConst, "1".toList⟩, ⟨.EndOfLine, []⟩,
      ⟨.RightCurlyBracket, []⟩, ⟨.Terminator, []⟩] (by omega)
  have hne : ¬ N = 0 := by omega
  simp only [Nat.zero_add, if_neg hne] at hiter
  have hk : ¬ ((⟨.Keyword, "loop".toList⟩ : Token).type = .Keyword ∧
      ((⟨.Keyword, "loop".toList⟩ : Token).value = "int".toList ∨
        (⟨.Keyword, "loop".toList⟩ : Token).value = "text".toList)) := by decide
  have hT : ¬ (TokenType.Terminator = TokenType.EndOfLine) := by decide
  rw [execute_statement, if_neg hk, if_neg (by decide), if_pos rfl, if_neg (by decide),
    if_neg (by decide), if_pos rfl]
  simp only [handle_loop, List.tail_cons, if_true, hN, hiter, Res.bind, skip_end_of_line,
    if_neg hT]

/-- A run on a source text that the tokenizer accepts is the interpretation of its
tokens. -/
theorem StarInterpreter.run_of_tokens (fuel : Nat) (source_code input : List Char)
    (ts : List Token) (w : Nat) (h : tokenize_source_code source_code = .tokens ts w) :
    run fuel source_code input = .finished (interpret fuel (initial_state input) ts) := by
  unfold run
  rw [h]

/-- C2: for every count `N` with `1 ≤ N ≤ 99999999`, tokenizing the program
`int x is 0. loop N times { x is x + 1. }` and interpreting the tokens (with at least 5
units of fuel, whatever the console input) terminates without error, with `x` the only
variable and holding `N`; nothing is printed and no warning is issued. -/
theorem counted_loop_runs_body_N_times (N : Nat) (h1 : 1 ≤ N) (h2 : N ≤ 99999999)
    (fuel : Nat) (input : List Char) :
    run (fuel + 5) (loop_program N) input =
      .finished (.ok ⟨[⟨"x".toList, .intValue N⟩], [], [], input⟩ ()) := by
  rw [run_of_tokens _ _ _ _ _ (tokenize_loop_program N h2)]
  rw [interpret, if_neg (by decide), execute_declaration_x (fuel + 3) input]
  simp only [Res.bind]
  rw [interpret, if_neg (by decide), execute_loop_x fuel N h1 h2 input]
  simp only [Res.bind]
  rw [interpret, if_pos rfl]

/-- C2, witness: for `N = 3` the program leaves `x = 3`. -/
theorem counted_loop_runs_body_N_times_witness :
    run 5 "int x is 0. loop 3 times \x7b x is x + 1. \x7d".toList [] =
      .finished (.ok ⟨[⟨"x".toList, .intValue 3⟩], [], [], []⟩ ()) :=
  counted_loop_runs_body_N_times 3 (by decide) (by decide) 0 []

/-! ## Integer tokens are clamped and re-rendered (C11) -/

theorem digits_value_lt (l : List Char) (h : ∀ c ∈ l, isdigit c = true) :
    ∀ acc : Nat, digits_value l acc < (acc + 1) * 10 ^ l.length := by
  induction l with
  | nil => intro acc; simp [digits_value]
  | cons c r ih =>
    intro acc
    have hc := h c (by simp)
    have hr := ih (fun x hx => h x (by simp [hx])) (acc * 10 + (c.toNat - 48))
    simp only [digits_value, hc, if_true, List.length_cons]
    have hd : c.toNat - 48 ≤ 9 := by
      simp only [isdigit, Bool.and_eq_true, decide_eq_true_eq] at hc
      omega
    calc digits_value r (acc * 10 + (c.toNat - 48))
        < (acc * 10 + (c.toNat - 48) + 1) * 10 ^ r.length := hr
      _ ≤ ((acc + 1) * 10) * 10 ^ r.length := Nat.mul_le_mul_right _ (by omega)
      _ = (acc + 1) * 10 ^ (r.length + 1) := by rw [Nat.pow_succ]; ring

theorem literal_value_eq (l : List Char) (h : ∀ c ∈ l, isdigit c = true) :
    literal_value l = (digits_value l 0 : Nat) := by
  unfold literal_value
  rw [digits_value_eq_foldl l h 0]

theorem literal_value_lt (l : List Char) (h : ∀ c ∈ l, isdigit c = true) (hlen : l.length ≤ 8) :
    literal_value l < 100000000 := by
  rw [literal_value_eq l h]
  have h1 := digits_value_lt l h 0
  have h2 : 10 ^ l.length ≤ 10 ^ 8 := Nat.pow_le_pow_right (by decide) hlen
  have : digits_value l 0 < 100000000 := by
    calc digits_value l 0 < (0 + 1) * 10 ^ l.length := h1
      _ = 10 ^ l.length := by ring
      _ ≤ 10 ^ 8 := h2
      _ = 100000000 := by norm_num
  exact_mod_cast this

theorem literal_value_nonneg (l : List Char) : 0 ≤ literal_value l := by
  unfold literal_value
  exact Int.ofNat_nonneg _

/-- The rendering of a positive number does not start with the digit `0`. -/
theorem render_nat_head (n : Nat) (hn : 0 < n) : (render_nat n).head? ≠ some '0' := by
  induction n using Nat.strong_induction_on with
  | _ n ih =>
    rw [render_nat_step]
    by_cases h : n / 10 = 0
    · rw [if_pos h]
      have hlt : n < 10 := by omega
      simp only [List.head?_cons, ne_eq, Option.some.injEq]
      intro e
      have := congrArg Char.toNat e
      rw [digit_char_toNat] at this
      have : n % 10 = 0 := by
        have h0 : ('0' : Char).toNat = 48 := rfl
        omega
      omega
    · rw [if_neg h]
      have h1 : n / 10 < n := Nat.div_lt_self (by omega) (by decide)
      have := ih (n / 10) h1 (by omega)
      have hne := render_nat_ne_nil (n / 10)
      cases hr : render_nat (n / 10) with
      | nil => exact absurd hr hne
      | cons a b =>
        rw [hr] at this
        simpa using this

theorem atoi_signed (digits : List Char)
    (hb : digits_value digits 0 ≤ 9223372036854775808) :
    atoi ('-' :: digits) = toInt32 (-(digits_value digits 0 : Int)) := by
  unfold atoi
  have : isspace '-' = false := by decide
  simp only [List.dropWhile_cons, this, Bool.false_eq_true, if_false, if_true]
  rw [strtol_range_of_fits _ (by omega) (by omega)]

/-- The integer branch on a literal that it accepts: an optional `-`, a maximal run of
digits. -/
theorem lex_integer_accepted (s s1 : LexState) (c : Char) (tail sign digits rest : List Char)
    (hsign : sign = [] ∨ sign = ['-']) (hd : is_literal digits)
    (hrest : ∀ d r, rest = d :: r → isdigit d = false)
    (hsplit : c :: tail = sign ++ digits ++ rest)
    (hok : lex_integer s c tail = .ok s1) :
    s1.ptr = rest ∧ s1.in_comment = s.in_comment ∧
      s1.tokens = s.tokens ++ [⟨.IntConst, render_nat (max (written_value sign digits) 0).toNat⟩] ∧
      sign.length + digits.length ≤ 8 := by
  obtain ⟨hne, hds⟩ := hd
  rcases hsign with hs | hs
  · subst hs
    simp only [List.nil_append] at hsplit
    by_cases hlen : digits.length ≤ 8
    · have h0 : 0 ≤ literal_value digits := literal_value_nonneg digits
      have h1 := literal_value_lt digits hds hlen
      have hat : atoi digits = literal_value digits := by
        rw [atoi_literal digits ⟨hne, hds⟩ (by omega)]
        exact toInt32_of_fits _ ⟨by omega, by omega⟩
      rw [lex_integer_unsigned s c tail digits rest hsplit hne hds hlen hrest (by omega)] at hok
      injection hok with hok
      subst hok
      have hw : written_value [] digits = literal_value digits := by simp [written_value]
      have hm : max (literal_value digits) 0 = literal_value digits := max_eq_left h0
      rw [hw, hm, hat, literal_value_eq digits hds]
      simp [sprintf_d_nat]
      omega
    · rw [lex_integer_too_long s c tail digits rest hds (by omega) (Or.inr hsplit)] at hok
      cases hok
  · subst hs
    have hsplit1 : c = '-' ∧ tail = digits ++ rest := by simpa using hsplit
    obtain ⟨hc, ht⟩ := hsplit1
    by_cases hlen : digits.length ≤ 7
    · have hrun := scan_while_run isdigit 8 digits rest hds (by omega) hrest
      have h0 : 0 ≤ literal_value digits := literal_value_nonneg digits
      have hw : max (written_value ['-'] digits) 0 = 0 := by
        simp only [written_value, if_true]
        exact max_eq_right (by omega)
      rw [hw]
      have hz : sprintf_d 0 = render_nat (0 : Int).toNat := by decide
      simp only [lex_integer, hc, ht, if_true, MAX_INTEGER_LENGTH, List.length_singleton,
        Nat.add_sub_cancel, hrun] at hok
      rw [if_neg (by omega)] at hok
      have hval : ¬ 0 < atoi ('-' :: digits) := by
        have hb := literal_value_lt digits hds (by omega)
        rw [literal_value_eq digits hds] at hb
        rw [atoi_signed digits (by omega)]
        have hfit : toInt32 (-(digits_value digits 0 : Int)) = -(digits_value digits 0 : Int) :=
          toInt32_of_fits _ ⟨by omega, by omega⟩
        rw [hfit]
        omega
      by_cases hneg : atoi ('-' :: digits) < 0
      · simp only [List.singleton_append, hneg, if_true] at hok
        injection hok with hok
        subst hok
        simp [hz]
        omega
      · have hzero : atoi ('-' :: digits) = 0 := by omega
        simp only [List.singleton_append, hneg, if_false, hzero] at hok
        injection hok with hok
        subst hok
        simp [hz]
        omega
    · by_cases h8 : 8 < digits.length
      · rw [lex_integer_too_long s c tail digits rest hds h8 (Or.inl ⟨hc, ht⟩)] at hok
        cases hok
      · have hrun := scan_while_run isdigit 8 digits rest hds (by omega) hrest
        simp only [lex_integer, hc, ht, if_true, MAX_INTEGER_LENGTH, List.length_singleton,
          Nat.add_sub_cancel, hrun] at hok
        rw [if_pos (by omega)] at hok
        cases hok

theorem sprintf_d_of_nonneg (z : Int) (h : ¬ z < 0) : sprintf_d z = render_nat z.toNat := by
  simp only [sprintf_d, if_neg h]

theorem lex_integer_canonical (s s1 : LexState) (c : Char) (rest : List Char)
    (h : lex_integer s c rest = .ok s1) :
    ∃ n : Nat, s1.tokens = s.tokens ++ [⟨.IntConst, render_nat n⟩] := by
  simp only [lex_integer] at h
  split_ifs at h with h1 h2 h3 h4 h5 <;> injection h with h <;> subst h
  · exact ⟨0, rfl⟩
  · exact ⟨_, by rw [sprintf_d_of_nonneg _ h3]⟩
  · exact ⟨0, rfl⟩
  · exact ⟨_, by rw [sprintf_d_of_nonneg _ h5]⟩

theorem canonical_append (ts : List Token) (t : Token) (h : ∀ x ∈ ts, canonical_integer_token x)
    (ht : canonical_integer_token t) : ∀ x ∈ ts ++ [t], canonical_integer_token x := by
  intro x hx
  rcases List.mem_append.mp hx with hx | hx
  · exact h x hx
  · rw [List.mem_singleton.mp hx]; exact ht

theorem canonical_other (ty : TokenType) (v : List Char) (h : ty ≠ .IntConst) :
    canonical_integer_token ⟨ty, v⟩ := fun e => absurd e h

theorem StarInterpreter.interpreter_lex_step_canonical (s s1 : LexState)
    (h : StarInterpreter.lex_step s = .ok s1)
    (hinv : ∀ t ∈ s.tokens, canonical_integer_token t) :
    ∀ t ∈ s1.tokens, canonical_integer_token t := by
  unfold StarInterpreter.lex_step at h
  split at h
  · injection h with h; subst h; exact hinv
  · rename_i c rest hp
    by_cases h1 : isspace c = true
    · rw [if_pos h1] at h; injection h with h; subst h; exact hinv
    rw [if_neg h1] at h
    by_cases h2 : c = '/' ∧ rest.head? = some '*'
    · rw [if_pos h2] at h; injection h with h; subst h; exact hinv
    rw [if_neg h2] at h
    by_cases h3 : s.in_comment = true
    · rw [if_pos h3] at h
      split at h
      · cases h
      · injection h with h; subst h; exact hinv
    rw [if_neg h3] at h
    by_cases h4 : isalpha c = true
    · rw [if_pos h4] at h
      simp only [] at h
      split_ifs at h
      · injection h with h; subst h
        exact canonical_append _ _ hinv (canonical_other _ _ (by decide))
      · split at h
        · injection h with h; subst h
          exact canonical_append _ _ hinv (canonical_other _ _ (by decide))
        · split_ifs at h
          injection h with h; subst h
          exact canonical_append _ _ hinv (canonical_other _ _ (by decide))
    rw [if_neg h4] at h
    by_cases h5 : (isdigit c || (decide (c = '-') && next_is_digit rest)) = true
    · rw [if_pos h5] at h
      obtain ⟨n, hn⟩ := lex_integer_canonical s s1 c rest h
      rw [hn]
      exact canonical_append _ _ hinv (fun _ => ⟨n, rfl⟩)
    rw [if_neg h5] at h
    by_cases h6 : c = '\x22'
    · rw [if_pos h6] at h
      simp only [] at h
      split_ifs at h
      injection h with h; subst h
      exact canonical_append _ _ hinv (canonical_other _ _ (by decide))
    rw [if_neg h6] at h
    split_ifs at h <;> (injection h with h; subst h) <;>
      first
      | exact hinv
      | exact canonical_append _ _ hinv (canonical_other _ _ (by decide))

/-- A property of tokens that every iteration keeps holds of all the tokens returned. -/
theorem lex_loop_tokens_all (step : LexState → Except LexErr LexState) (P : Token → Prop)
    (hstep : ∀ s s1, step s = .ok s1 → (∀ t ∈ s.tokens, P t) → ∀ t ∈ s1.tokens, P t)
    (hterm : P ⟨.Terminator, []⟩) (fuel : Nat) :
    ∀ (s : LexState) (ts : List Token) (w : Nat), lex_loop step fuel s = .tokens ts w →
      (∀ t ∈ s.tokens, P t) → ∀ t ∈ ts, P t := by
  induction fuel with
  | zero => intro s ts w h; simp [lex_loop] at h
  | succ fuel ih =>
    intro s ts w h hs0
    cases hs : s.ptr with
    | nil =>
      simp only [lex_loop, hs] at h
      split_ifs at h
      injection h with h1 h2
      subst h1
      intro t ht
      rcases List.mem_append.mp ht with ht | ht
      · exact hs0 t ht
      · rw [List.mem_singleton.mp ht]; exact hterm
    | cons c r =>
      cases hst : step s with
      | error e =>
        simp only [lex_loop, hs, hst] at h
        split_ifs at h
      | ok s1 =>
        simp only [lex_loop, hs, hst] at h
        split_ifs at h
        exact ih s1 ts w h (hstep s s1 hst hs0)

/-- The literal at the cursor: an optional `-` and the maximal run of digits after it. -/
theorem literal_at_cursor (c : Char) (tail sign digits rest : List Char)
    (hsign : sign = [] ∨ sign = ['-']) (hd : is_literal digits)
    (h : c :: tail = sign ++ digits ++ rest) :
    isdigit c = true ∨ (c = '-' ∧ next_is_digit tail = true) := by
  obtain ⟨hne, hds⟩ := hd
  cases digits with
  | nil => exact absurd rfl hne
  | cons d ds =>
    have hdd := hds d (by simp)
    rcases hsign with hs | hs
    · subst hs
      have h1 : c = d := by simpa using (List.cons.inj h).1
      exact Or.inl (h1 ▸ hdd)
    · subst hs
      have h1 : c = '-' ∧ tail = d :: (ds ++ rest) := by simpa using h
      exact Or.inr ⟨h1.1, by rw [h1.2]; exact hdd⟩

/-- C11: integer literal tokens are clamped and re-rendered. Every IntConst token that
`tokenize_source_code` of `starInterpreter.c` returns carries the decimal rendering of a
natural number; that rendering is canonical (digits only, it reads back as the number, and
it is `0` or does not start with `0`); and whenever the scan loop, outside a comment, is at a
literal (an optional `-`, then a maximal run of digits) and accepts it, the token it appends
is the IntConst whose text renders `max(v, 0)`, `v` being the value of the literal as
written, so that a literal with a leading `-` gives the text `0`. The literal `007` gives
the text `7`. -/
theorem integer_tokens_clamped_and_rendered :
    (∀ (source_code : List Char) (ts : List Token) (w : Nat),
      tokenize_source_code source_code = .tokens ts w →
        ∀ t ∈ ts, t.type = .IntConst → ∃ n : Nat, t.value = render_nat n) ∧
    (∀ n : Nat, (∀ c ∈ render_nat n, isdigit c = true) ∧ literal_value (render_nat n) = n ∧
      (render_nat n = ['0'] ∨ (render_nat n).head? ≠ some '0')) ∧
    (∀ (s s1 : LexState) (sign digits rest : List Char),
      (sign = [] ∨ sign = ['-']) → is_literal digits →
      (∀ d r, rest = d :: r → isdigit d = false) →
      s.ptr = sign ++ digits ++ rest → s.in_comment = false →
      StarInterpreter.lex_step s = .ok s1 →
        s1.ptr = rest ∧
        s1.tokens = s.tokens ++
          [⟨.IntConst, render_nat (max (written_value sign digits) 0).toNat⟩] ∧
        (sign = ['-'] → s1.tokens = s.tokens ++ [⟨.IntConst, "0".toList⟩])) ∧
    tokenize_source_code "007".toList =
      .tokens [⟨.IntConst, "7".toList⟩, ⟨.Terminator, []⟩] 0 := by
  refine ⟨?_, ?_, ?_, rfl⟩
  · intro source_code ts w h t ht
    unfold tokenize_source_code at h
    exact lex_loop_tokens_all StarInterpreter.lex_step canonical_integer_token
      interpreter_lex_step_canonical (fun e => by cases e) _ _ ts w h
      (fun x hx => by simp at hx) t ht
  · intro n
    refine ⟨render_nat_digits n, ?_, ?_⟩
    · rw [literal_value_eq _ (render_nat_digits n), digits_value_render_nat]
    · rcases Nat.eq_zero_or_pos n with h0 | h0
      · exact Or.inl (by rw [h0]; rfl)
      · exact Or.inr (render_nat_head n h0)
  · intro s s1 sign digits rest hsign hd hrest hptr hc hok
    cases hp : s.ptr with
    | nil =>
      rw [hp] at hptr
      have := congrArg List.length hptr
      have hne : 0 < digits.length := List.length_pos.mpr hd.1
      simp at this
      omega
    | cons c tail =>
      rw [hp] at hptr
      rw [interpreter_lex_step_integer s c tail hp hc
        (literal_at_cursor c tail sign digits rest hsign hd hptr)] at hok
      obtain ⟨h1, _, h3, h4⟩ := lex_integer_accepted s s1 c tail sign digits rest hsign hd hrest hptr hok
      refine ⟨h1, h3, ?_⟩
      intro hs
      rw [h3]
      subst hs
      have h0 : 0 ≤ literal_value digits := by unfold literal_value; exact Int.ofNat_nonneg _
      have hw : max (written_value ['-'] digits) 0 = 0 := by
        simp only [written_value, if_true]
        exact max_eq_right (by omega)
      rw [hw]
      rfl

/-- Witness of C11 at the literal `-12`, which is accepted and gives the token text `0`. -/
theorem integer_tokens_clamped_and_rendered_witness :
    StarInterpreter.lex_step ⟨"-12.".toList, false, [], 0⟩ =
        .ok ⟨".".toList, false, [⟨.IntConst, "0".toList⟩], 1⟩ ∧
      (⟨".".toList, false, [⟨.IntConst, "0".toList⟩], 1⟩ : LexState).tokens =
        [] ++ [⟨.IntConst, "0".toList⟩] :=
  ⟨rfl, (integer_tokens_clamped_and_rendered.2.2.1 ⟨"-12.".toList, false, [], 0⟩
    ⟨".".toList, false, [⟨.IntConst, "0".toList⟩], 1⟩ ['-'] "12".toList ".".toList
    (Or.inr rfl) (by decide) (by intro d r h; cases h; rfl) rfl rfl rfl).2.2 rfl⟩

/-! ## Assignments clamp negative results (C12) -/

theorem StarInterpreter.Operand.token_is_operand (vars : List Variable) (x : Operand)
    (h : x.well_formed vars) : is_operand_token x.token := by
  cases x with
  | lit digits =>
    have := is_literal_word digits h
    exact ⟨Or.inr rfl, this.1, this.2⟩
  | var name =>
    obtain ⟨⟨c, cs, rfl, hc, hcs⟩, _⟩ := h
    refine ⟨Or.inl rfl, by simp [Operand.token], ?_⟩
    intro x hx
    simp only [Operand.token, List.mem_cons] at hx
    rcases hx with hx | hx
    · rw [hx]; exact isalpha_ne c ' ' hc (by decide)
    · exact hcs x hx

theorem StarInterpreter.operand_value_operand (vars : List Variable) (x : Operand)
    (h : x.well_formed vars) (hfit : in_int32 (x.value vars)) :
    operand_value vars x.token.value = .ok (x.value vars) := by
  cases x with
  | lit digits => exact operand_value_literal vars digits h hfit
  | var name =>
    obtain ⟨⟨c, cs, rfl, hc, hcs⟩, v, hv, hty⟩ := h
    have hd : isdigit c = false := isalpha_not_isdigit c hc
    have hm : c ≠ '-' := isalpha_ne c '-' hc (by decide)
    cases hval : v.value with
    | intValue k =>
      simp [operand_value, is_integer_token, hd, hm, Operand.token, hv, hval, Operand.value]
    | strValue t =>
      simp [Variable.type, hval] at hty

theorem StarInterpreter.apply_operator_arith (op : Char) (a b : Int)
    (hop : is_operator op) (hdiv : op = '/' → b ≠ 0)
    (hfit : in_int32 (apply_arith op a b)) :
    apply_operator op a b = .ok (apply_arith op a b) := by
  have h := toInt32_of_fits _ hfit
  rcases hop with e | e | e | e
  · subst e
    simp only [apply_arith, apply_written] at h ⊢
    simp at h
    simp [apply_operator, h]
  · subst e
    simp only [apply_arith, apply_written] at h ⊢
    simp at h
    simp [apply_operator, h]
  · subst e
    simp only [apply_arith, apply_written] at h ⊢
    simp at h
    simp [apply_operator, h]
  · have hb := hdiv e
    subst e
    have hnt : ¬ (a = -2147483648 ∧ b = -1) := by
      rintro ⟨ha, hb1⟩
      subst ha hb1
      revert hfit
      decide
    simp only [apply_arith] at h ⊢
    simp at h
    simp [apply_operator, h, hb, hnt]

theorem arith_fit_head (acc : Int) (l : List (Char × Int)) (h : arith_fit acc l) :
    in_int32 acc := by
  cases l with
  | nil => exact h
  | cons p more => obtain ⟨o, y⟩ := p; exact h.1

/-- The loop of `evaluate_expression` on the words of an expression over literals and
Integer variables, entered with operator `op` pending on `result`. -/
theorem StarInterpreter.evaluate_loop_operands (vars : List Variable)
    (tail : List (Char × Operand)) :
    ∀ (x : Operand) (result : Int) (op : Char), x.well_formed vars →
      is_operator op → (op = '/' → x.value vars ≠ 0) →
      (∀ p ∈ tail, is_operator p.1 ∧ p.2.well_formed vars) →
      in_int32 (x.value vars) →
      arith_fit (apply_arith op result (x.value vars))
        (tail.map fun p => (p.1, p.2.value vars)) →
      evaluate_loop vars
          (x.token.value :: tail_words (tail.map fun p => (p.1, p.2.token.value))) result op =
        .ok (fold_arith (apply_arith op result (x.value vars))
          (tail.map fun p => (p.1, p.2.value vars))) := by
  induction tail with
  | nil =>
    intro x result op hx hop hdiv _ hxfit hfit
    simp only [List.map_nil, arith_fit] at hfit
    simp [evaluate_loop, tail_words, operand_value_operand vars x hx hxfit,
      apply_operator_arith op _ _ hop hdiv hfit, fold_arith]
  | cons p more ih =>
    intro x result op hx hop hdiv htail hxfit hfit
    obtain ⟨o, y⟩ := p
    have hp : is_operator o ∧ y.well_formed vars := htail (o, y) (by simp)
    simp only [List.map_cons, arith_fit] at hfit
    have := ih y (apply_arith op result (x.value vars)) o hp.2 hp.1 hfit.2.2.1
      (fun q hq => htail q (by simp [hq])) hfit.2.1 hfit.2.2.2
    rw [List.map_cons, tail_words, evaluate_loop]
    simp only [operand_value_operand vars x hx hxfit,
      apply_operator_arith op _ _ hop hdiv hfit.1, List.headD_cons]
    rw [this]
    simp [fold_arith]

theorem StarInterpreter.is_operator_ne_space (op : Char) (h : is_operator op) : op ≠ ' ' := by
  rcases h with e | e | e | e <;> (rw [e]; decide)

/-- Function `evaluate_expression` on the text that the assignment branch builds for an
expression over literals and Integer variables: the left-to-right fold. -/
theorem StarInterpreter.evaluate_expression_operands (vars : List Variable)
    (first : Operand) (tail : List (Char × Operand))
    (hfirst : first.well_formed vars)
    (htail : ∀ p ∈ tail, is_operator p.1 ∧ p.2.well_formed vars)
    (hlen : (tokens_text first.token (tail.map fun p => (p.1, p.2.token))).length < 256)
    (hfit : arith_fit (first.value vars) (tail.map fun p => (p.1, p.2.value vars))) :
    evaluate_expression vars (tokens_text first.token (tail.map fun p => (p.1, p.2.token))) =
      .ok (fold_arith (first.value vars) (tail.map fun p => (p.1, p.2.value vars))) := by
  have hwords := tail_words_wf (tail.map fun p => (p.1, p.2.token)) (by
    intro q hq
    obtain ⟨p, hp, rfl⟩ := List.mem_map.mp hq
    exact ⟨is_operator_ne_space _ (htail p hp).1, Operand.token_is_operand vars _ (htail p hp).2⟩)
  have hf := Operand.token_is_operand vars first hfirst
  have hzero : apply_arith '+' 0 (first.value vars) = first.value vars := by
    simp [apply_arith, apply_written]
  have hmm : (List.map (fun p => (p.1, p.2.value)) (List.map (fun p => (p.1, p.2.token)) tail)) =
      tail.map fun p => (p.1, p.2.token.value) := by
    rw [List.map_map]; rfl
  unfold evaluate_expression
  rw [List.take_of_length_le (by simp only [MAX_STRING_LENGTH]; omega)]
  unfold tokens_text at hlen ⊢
  rw [strtok_tokens_text first.token.value _ ⟨hf.2.1, hf.2.2⟩ hwords, hmm]
  have := evaluate_loop_operands vars tail first 0 '+' hfirst (Or.inl rfl)
    (fun e => by cases e) htail (arith_fit_head _ _ hfit) (by rw [hzero]; exact hfit)
  rw [this, hzero]

theorem StarInterpreter.store_value_cons (n : List Char) (val : VarValue) (a : Variable)
    (l : List Variable) :
    store_value n val (a :: l) =
      if a.name = n then { a with value := val } :: l else a :: store_value n val l := by
  by_cases h : a.name = n
  · simp [store_value, h]
  · simp [store_value, h]

theorem StarInterpreter.find_variable_store_value_same (vars : List Variable) (n : List Char)
    (val : VarValue) (var : Variable) (h : find_variable vars n = some var) :
    find_variable (store_value n val vars) n = some { var with value := val } := by
  induction vars with
  | nil => simp [find_variable] at h
  | cons a l ih =>
    rw [find_variable_cons] at h
    rw [store_value_cons]
    by_cases ha : a.name = n
    · rw [if_pos ha] at h
      injection h with h
      subst h
      rw [if_pos ha, find_variable_cons, if_pos ha]
    · rw [if_neg ha] at h
      rw [if_neg ha, find_variable_cons, if_neg ha]
      exact ih h

theorem StarInterpreter.find_variable_store_value_other (vars : List Variable)
    (n m : List Char) (val : VarValue) (h : m ≠ n) :
    find_variable (store_value n val vars) m = find_variable vars m := by
  induction vars with
  | nil => rfl
  | cons a l ih =>
    rw [store_value_cons]
    by_cases ha : a.name = n
    · rw [if_pos ha, find_variable_cons, find_variable_cons]
      have h1 : ¬ a.name = m := fun e => h (e.symm.trans ha)
      simp only [h1, if_false]
    · rw [if_neg ha, find_variable_cons, find_variable_cons, ih]

theorem StarInterpreter.find_variable_name (vars : List Variable) (n : List Char)
    (var : Variable) (h : find_variable vars n = some var) : var.name = n := by
  have := List.find?_some h
  simpa using this

/-- Function `evaluate_expression` on the rendering of a negative number. -/
theorem StarInterpreter.evaluate_expression_negative (vars : List Variable) (r : Int)
    (hr : in_int32 r) (hneg : r < 0) :
    evaluate_expression vars (sprintf_d r) = .ok r := by
  have hk : r.natAbs < 10 ^ (9 + 1) := by
    unfold in_int32 at hr
    omega
  have hlen := render_nat_length 9 r.natAbs hk
  have hdig := render_nat_digits r.natAbs
  have hne := render_nat_ne_nil r.natAbs
  have hs : sprintf_d r = '-' :: render_nat r.natAbs := by simp [sprintf_d, hneg]
  have hword : ('-' :: render_nat r.natAbs) ≠ [] ∧ ∀ c ∈ '-' :: render_nat r.natAbs, c ≠ ' ' := by
    refine ⟨by simp, ?_⟩
    intro c hc
    rcases List.mem_cons.mp hc with h | h
    · rw [h]; decide
    · exact isdigit_ne c ' ' (hdig c h) (by decide)
  have htok : strtok_tokens ('-' :: render_nat r.natAbs) [] = ['-' :: render_nat r.natAbs] := by
    have := strtok_tokens_text ('-' :: render_nat r.natAbs) [] hword (by simp)
    simpa [spaced_words] using this
  have hint : is_integer_token ('-' :: render_nat r.natAbs) = true := by
    cases hrn : render_nat r.natAbs with
    | nil => exact absurd hrn hne
    | cons d ds =>
      have hd : isdigit d = true := hdig d (by rw [hrn]; simp)
      simp [is_integer_token, next_is_digit, hd]
  have hat : atoi ('-' :: render_nat r.natAbs) = r := by
    rw [atoi_signed _ (by
      rw [digits_value_render_nat]
      unfold in_int32 at hr
      omega), digits_value_render_nat]
    have : -(r.natAbs : Int) = r := by omega
    rw [this]
    exact toInt32_of_fits _ hr
  have hop : operand_value vars ('-' :: render_nat r.natAbs) = .ok r := by
    simp [operand_value, hint, hat]
  have hap : apply_operator '+' 0 r = .ok r := by
    simp [apply_operator, toInt32_of_fits _ hr]
  unfold evaluate_expression
  rw [hs, List.take_of_length_le (by simp only [MAX_STRING_LENGTH, List.length_cons]; omega), htok,
    evaluate_loop, hop]
  simp only []
  rw [hap]

/-- Function `assign_variable` on an Integer variable and the rendering of an `int`: the
variable receives the number, or 0 when the number is negative. -/
theorem StarInterpreter.assign_variable_rendered (st : State) (v : List Char) (var : Variable)
    (r : Int) (hv : find_variable st.vars v = some var) (hint : var.type = .Integer)
    (hr : in_int32 r) :
    assign_variable st v (sprintf_d r) =
      .ok { st with vars := store_value v (.intValue (max r 0)) st.vars } () := by
  obtain ⟨k, hk⟩ : ∃ k, var.value = .intValue k := by
    cases hval : var.value with
    | intValue k => exact ⟨k, rfl⟩
    | strValue t => simp [Variable.type, hval] at hint
  by_cases hneg : r < 0
  · have hs : sprintf_d r = '-' :: render_nat r.natAbs := by simp [sprintf_d, hneg]
    have hc : ((sprintf_d r).contains '+' || (sprintf_d r).contains '-') = true := by
      rw [hs]; simp
    have hm : max r 0 = 0 := max_eq_right (by omega)
    unfold assign_variable
    simp only [hv, hc, if_true, evaluate_expression_negative st.vars r hr hneg, hneg, hk, hm]
  · have hs : sprintf_d r = render_nat r.toNat := sprintf_d_of_nonneg r hneg
    have hle : r.toNat ≤ 2147483647 := by
      unfold in_int32 at hr
      omega
    have hat : atoi (render_nat r.toNat) = r := by
      rw [atoi_render_nat _ hle]
      omega
    have hm : max r 0 = r := max_eq_left (by omega)
    unfold assign_variable
    simp only [hv, hs, render_nat_no_sign, Bool.false_eq_true, if_false, hk, hat, hneg, hm]

theorem arith_fit_fold (l : List (Char × Int)) :
    ∀ acc, arith_fit acc l → in_int32 (fold_arith acc l) := by
  induction l with
  | nil => intro acc h; exact h
  | cons p more ih =>
    intro acc h
    obtain ⟨o, y⟩ := p
    exact ih _ h.2.2.2

/-- C12: a negative arithmetic result is stored as 0. For every declared Integer variable
`v` and every expression `operand (operator operand)*` (operators `+ - * /`) over decimal
literals and declared Integer variables, whose text has fewer than 256 characters and whose
left-to-right evaluation stays within the 32-bit range without dividing by 0, one call of
`execute_statement` on `v is e.` returns normally just past the EndOfLine token, leaves `v`
holding `max(r, 0)` where `r` is the left-to-right value of `e`, and leaves every other
variable, the output and the input as they were. -/
theorem negative_result_stored_as_zero (st : State) (fuel : Nat) (v : List Char)
    (var : Variable) (first : Operand) (tail : List (Char × Operand)) (after : List Token)
    (hv : find_variable st.vars v = some var) (hint : var.type = .Integer)
    (hfirst : first.well_formed st.vars)
    (htail : ∀ p ∈ tail, is_operator p.1 ∧ p.2.well_formed st.vars)
    (hlen : (tokens_text first.token (tail.map fun p => (p.1, p.2.token))).length < 256)
    (hfit : arith_fit (first.value st.vars) (tail.map fun p => (p.1, p.2.value st.vars))) :
    ∃ st1,
      execute_statement (fuel + 1) st
          (⟨.Identifier, v⟩ :: ⟨.Keyword, "is".toList⟩ :: first.token ::
            (expression_tail_tokens (tail.map fun p => (p.1, p.2.token)) ++
              ⟨.EndOfLine, []⟩ :: after)) = .ok st1 after ∧
      find_variable st1.vars v = some ⟨v, .intValue
        (max (fold_arith (first.value st.vars) (tail.map fun p => (p.1, p.2.value st.vars))) 0)⟩ ∧
      (∀ m, m ≠ v → find_variable st1.vars m = find_variable st.vars m) ∧
      st1.stdout = st.stdout ∧ st1.stdin = st.stdin := by
  have hops : ∀ p ∈ tail.map (fun p : Char × Operand => (p.1, p.2.token)),
      is_operand_token p.2 := by
    intro q hq
    obtain ⟨p, hp, rfl⟩ := List.mem_map.mp hq
    exact Operand.token_is_operand st.vars _ (htail p hp).2
  have hcol := collect_expression_tail after (tail.map fun p => (p.1, p.2.token)) hops
    first.token.value
  have hev := evaluate_expression_operands st.vars first tail hfirst htail hlen hfit
  have hr := arith_fit_fold _ _ hfit
  have hname := find_variable_name st.vars v var hv
  generalize fold_arith (first.value st.vars) (tail.map fun p => (p.1, p.2.value st.vars)) = r
    at hev hr ⊢
  refine ⟨{ st with vars := store_value v (.intValue (max r 0)) st.vars }, ?_, ?_, ?_, rfl, rfl⟩
  · rw [execute_statement_identifier, assignment_collected st v first.token _ _ _ hcol]
    unfold tokens_text at hev
    rw [hev]
    simp only [assign_variable_rendered st v var _ hv hint hr, Res.bind, skip_end_of_line,
      if_true]
  · simp only []
    rw [find_variable_store_value_same st.vars v _ var hv, ← hname]
  · intro m hm
    exact find_variable_store_value_other st.vars v m _ hm

/-- Witness of C12: the program `int x. x is 3 - 5.` ends with `x = 0`, and the statement
`x is 3 - 5.` executed with `x = 7` leaves `x = 0`. -/
theorem negative_result_stored_as_zero_witness :
    run 3 "int x. x is 3 - 5.".toList [] =
        .finished (.ok ⟨[⟨"x".toList, .intValue 0⟩], [], [], []⟩ ()) ∧
    ∃ st1,
      execute_statement 1 ⟨[⟨"x".toList, .intValue 7⟩], [], [], []⟩
          [⟨.Identifier, "x".toList⟩, ⟨.Keyword, "is".toList⟩, ⟨.IntConst, "3".toList⟩,
            ⟨.Operator, "-".toList⟩, ⟨.IntConst, "5".toList⟩, ⟨.EndOfLine, []⟩,
            ⟨.Terminator, []⟩] = .ok st1 [⟨.Terminator, []⟩] ∧
      find_variable st1.vars "x".toList = some ⟨"x".toList, .intValue 0⟩ ∧
      (∀ m, m ≠ "x".toList →
        find_variable st1.vars m = find_variable [⟨"x".toList, .intValue 7⟩] m) ∧
      st1.stdout = [] ∧ st1.stdin = [] :=
  ⟨rfl, negative_result_stored_as_zero ⟨[⟨"x".toList, .intValue 7⟩], [], [], []⟩ 0 "x".toList
    ⟨"x".toList, .intValue 7⟩ (.lit "3".toList) [('-', .lit "5".toList)] [⟨.Terminator, []⟩]
    rfl rfl (show is_literal "3".toList by decide)
    (by
      intro p hp
      simp only [List.mem_singleton] at hp
      subst hp
      exact ⟨by decide, show is_literal "5".toList by decide⟩)
    (by decide) (by decide)⟩

/-! ## The symbol table after a declaration -/

/-- Function `declare_variable` on a name that is not in the table, fits the name buffer,
and a table that is not full: the variable is appended with the zero value of its kind. -/
theorem StarInterpreter.declare_variable_fresh (st : State) (n : List Char) (kind : VarType)
    (hn : find_variable st.vars n = none) (hlen : n.length ≤ 10)
    (hcap : st.vars.length < 100) :
    declare_variable st n kind =
      .ok { st with vars := st.vars ++ [⟨n, zero_value kind⟩] } () := by
  have hcap1 : ¬ st.vars.length ≥ MAX_VARIABLES := by
    simp only [MAX_VARIABLES]; omega
  unfold declare_variable
  rw [hn]
  simp only [Option.isSome_none, Bool.false_eq_true, if_false, if_neg hcap1,
    MAX_IDENTIFIER_LENGTH, List.take_of_length_le hlen]
  cases kind <;> rfl

theorem StarInterpreter.find_variable_declared (vars : List Variable) (n : List Char)
    (val : VarValue) (hn : find_variable vars n = none) :
    find_variable (vars ++ [⟨n, val⟩]) n = some ⟨n, val⟩ := by
  rw [find_variable_append, hn]
  simp

theorem StarInterpreter.find_variable_declared_other (vars : List Variable) (n m : List Char)
    (val : VarValue) (hm : m ≠ n) :
    find_variable (vars ++ [⟨n, val⟩]) m = find_variable vars m := by
  rw [find_variable_append]
  cases hf : find_variable vars m with
  | none =>
    have : ¬ n = m := fun e => hm e.symm
    simp [this]
  | some x => rfl

/-! ## Text variables (C13) -/

/-- Function `assign_variable` on a Text variable and a value with neither `+` nor `-`. -/
theorem StarInterpreter.assign_variable_text (st : State) (t s : List Char) (var : Variable)
    (hv : find_variable st.vars t = some var) (hty : var.type = .Text)
    (hlen : s.length < 256) (hplus : s.contains '+' = false) (hminus : s.contains '-' = false) :
    assign_variable st t s = .ok { st with vars := store_value t (.strValue s) st.vars } () := by
  obtain ⟨old, hk⟩ : ∃ old, var.value = .strValue old := by
    cases hval : var.value with
    | intValue k => simp [Variable.type, hval] at hty
    | strValue old => exact ⟨old, rfl⟩
  unfold assign_variable
  simp only [hv, hplus, hminus, Bool.or_self, Bool.false_eq_true, if_false, hk,
    List.take_of_length_le (show s.length ≤ MAX_STRING_LENGTH - 1 by
      simp only [MAX_STRING_LENGTH]; omega)]

/-- C13: a text value that contains `+` or `-` is not stored unchanged. `assign_variable`
tests `strchr(value, '+') || strchr(value, '-')` before it looks at the kind of the
variable and hands such a value to `evaluate_expression`, also for a Text variable: on the
declared Text variable `t` and the text `a-b` (3 characters) it exits with the
undefined-variable error for `a-b`; the program `text t is "a-b".` ends with that error,
`t` still empty, and `text t is "1+2".` leaves `t` holding `1`. -/
theorem text_with_operator_not_stored :
    assign_variable ⟨[⟨"t".toList, .strValue []⟩], [], [], []⟩ "t".toList "a-b".toList =
        .fatal (.undefinedVariable "a-b".toList) ⟨[⟨"t".toList, .strValue []⟩], [], [], []⟩ ∧
      run 2 "text t is \x22a-b\x22.".toList [] =
        .finished (.fatal (.undefinedVariable "a-b".toList)
          ⟨[⟨"t".toList, .strValue []⟩], [], [], []⟩) ∧
      run 2 "text t is \x221+2\x22.".toList [] =
        .finished (.ok ⟨[⟨"t".toList, .strValue "1".toList⟩], [], [], []⟩ ()) := by
  refine ⟨rfl, rfl, rfl⟩

/-- Text values without `+` and `-` are stored unchanged: for every text value `s` shorter
than 256 characters that contains neither `+` nor `-`, (1) `assign_variable` on a declared
Text variable `t` and `s` succeeds and leaves `t` holding exactly `s`, every other variable
as it was; (2) the declaration `text t is "s".` (`t` a new name of at most 10 characters,
the table not full) is executed by one call of `execute_statement`, which returns just past
the EndOfLine token and leaves `t` holding `s`, every other variable as it was. -/
theorem text_without_operator_stored (st : State) (t s : List Char)
    (hlen : s.length < 256) (hplus : s.contains '+' = false) (hminus : s.contains '-' = false) :
    (∀ var, find_variable st.vars t = some var → var.type = .Text →
      ∃ st1, assign_variable st t s = .ok st1 () ∧
        find_variable st1.vars t = some ⟨t, .strValue s⟩ ∧
        (∀ m, m ≠ t → find_variable st1.vars m = find_variable st.vars m)) ∧
    (find_variable st.vars t = none → t.length ≤ 10 → st.vars.length < 100 →
      ∀ (fuel : Nat) (after : List Token),
        ∃ st1, execute_statement (fuel + 1) st
            (⟨.Keyword, "text".toList⟩ :: ⟨.Identifier, t⟩ :: ⟨.Keyword, "is".toList⟩ ::
              ⟨.String, s⟩ :: ⟨.EndOfLine, []⟩ :: after) = .ok st1 after ∧
          find_variable st1.vars t = some ⟨t, .strValue s⟩ ∧
          (∀ m, m ≠ t → find_variable st1.vars m = find_variable st.vars m)) := by
  constructor
  · intro var hv hty
    refine ⟨_, assign_variable_text st t s var hv hty hlen hplus hminus, ?_, ?_⟩
    · simp only []
      rw [find_variable_store_value_same st.vars t _ var hv,
        ← find_variable_name st.vars t var hv]
    · intro m hm
      exact find_variable_store_value_other st.vars t m _ hm
  · intro hn htl hcap fuel after
    have hd := declare_variable_fresh st t .Text hn htl hcap
    have hf := find_variable_declared st.vars t (zero_value .Text) hn
    have ha := assign_variable_text { st with vars := st.vars ++ [⟨t, zero_value .Text⟩] } t s
      ⟨t, zero_value .Text⟩ hf rfl hlen hplus hminus
    have hne : ¬ (TokenType.EndOfLine = TokenType.Comma) := by decide
    have hkw : ¬ ("text".toList = "int".toList) := by decide
    refine ⟨{ st with vars := store_value t (.strValue s) (st.vars ++ [⟨t, zero_value .Text⟩]) },
      ?_, ?_, ?_⟩
    · rw [execute_statement]
      simp only [true_and, or_true, if_true, if_neg hkw, declaration_loop_initialized,
        declaration_loop_stop _ _ ⟨.EndOfLine, []⟩ _ (by decide), hd, ha, Res.bind, if_neg hne,
        skip_end_of_line]
    · simp only []
      rw [find_variable_store_value_same _ t _ _ hf]
    · intro m hm
      simp only []
      rw [find_variable_store_value_other _ t m _ hm, find_variable_declared_other _ t m _ hm]

/-- The program `text t is "hello".` ends with `t = hello`, and `assign_variable` stores
`hello` in the declared Text variable `t`. -/
theorem text_variable_stores_hello :
    run 2 "text t is \x22hello\x22.".toList [] =
        .finished (.ok ⟨[⟨"t".toList, .strValue "hello".toList⟩], [], [], []⟩ ()) ∧
    ∃ st1, assign_variable ⟨[⟨"t".toList, .strValue []⟩], [], [], []⟩ "t".toList
        "hello".toList = .ok st1 () ∧
      find_variable st1.vars "t".toList = some ⟨"t".toList, .strValue "hello".toList⟩ ∧
      (∀ m, m ≠ "t".toList →
        find_variable st1.vars m = find_variable [⟨"t".toList, .strValue []⟩] m) :=
  ⟨rfl, (text_without_operator_stored ⟨[⟨"t".toList, .strValue []⟩], [], [], []⟩ "t".toList
    "hello".toList (by decide) rfl rfl).1 ⟨"t".toList, .strValue []⟩ rfl rfl⟩

/-! ## Operators, comments and strings at the failing inputs (C14, C15, C16) -/

/-- C14, the code at the failing input: the tokenizer of `starInterpreter.c` has no case for
`/` and skips it, so `x is 6 / 2.` gives no Operator token (the two operands follow each
other), while `+`, `-` and `*` each give an Operator token; the tokenizer of
`lexical_analyzer.c` gives the Operator token `/`. -/
theorem slash_gives_no_operator_token :
    StarInterpreter.tokenize_source_code "x is 6 / 2.".toList =
        .tokens [⟨.Identifier, "x".toList⟩, ⟨.Keyword, "is".toList⟩, ⟨.IntConst, "6".toList⟩,
          ⟨.IntConst, "2".toList⟩, ⟨.EndOfLine, []⟩, ⟨.Terminator, []⟩] 0 ∧
      LexicalAnalyzer.tokenize_source_code "x is 6 / 2.".toList =
        .tokens [⟨.Identifier, "x".toList⟩, ⟨.Keyword, "is".toList⟩, ⟨.IntConst, "6".toList⟩,
          ⟨.Operator, "/".toList⟩, ⟨.IntConst, "2".toList⟩, ⟨.EndOfLine, []⟩,
          ⟨.Terminator, []⟩] 0 ∧
      StarInterpreter.tokenize_source_code "a + b - c * d".toList =
        .tokens [⟨.Identifier, "a".toList⟩, ⟨.Operator, "+".toList⟩, ⟨.Identifier, "b".toList⟩,
          ⟨.Operator, "-".toList⟩, ⟨.Identifier, "c".toList⟩, ⟨.Operator, "*".toList⟩,
          ⟨.Identifier, "d".toList⟩, ⟨.Terminator, []⟩] 0 := by
  refine ⟨rfl, rfl, rfl⟩

/-- C15, the code at the failing inputs: when the text ends right after `/*`, or with only
white space after it, the scan loop ends before the comment-skipping loop is entered, and
both tokenizers return the tokens read so far with no error; the unterminated-comment error
is raised only when some other character follows the `/*`. -/
theorem unterminated_comment_not_detected :
    StarInterpreter.tokenize_source_code "int x. /*".toList =
        .tokens [⟨.Keyword, "int".toList⟩, ⟨.Identifier, "x".toList⟩, ⟨.EndOfLine, []⟩,
          ⟨.Terminator, []⟩] 0 ∧
      LexicalAnalyzer.tokenize_source_code "int x. /*".toList =
        .tokens [⟨.Keyword, "int".toList⟩, ⟨.Identifier, "x".toList⟩, ⟨.EndOfLine, []⟩,
          ⟨.Terminator, []⟩] 0 ∧
      StarInterpreter.tokenize_source_code "int x. /* \n".toList =
        .tokens [⟨.Keyword, "int".toList⟩, ⟨.Identifier, "x".toList⟩, ⟨.EndOfLine, []⟩,
          ⟨.Terminator, []⟩] 0 ∧
      LexicalAnalyzer.tokenize_source_code "int x. /* \n".toList =
        .tokens [⟨.Keyword, "int".toList⟩, ⟨.Identifier, "x".toList⟩, ⟨.EndOfLine, []⟩,
          ⟨.Terminator, []⟩] 0 ∧
      StarInterpreter.tokenize_source_code "int x. /* a".toList = .error .unterminatedComment ∧
      LexicalAnalyzer.tokenize_source_code "int x. /* a".toList = .error .unterminatedComment := by
  refine ⟨rfl, rfl, rfl, rfl, rfl, rfl⟩

/-- C16, the code at the failing input: in the text `write "hi"`, whose last character is
the closing quote, the string branch has consumed the closing quote when it tests
`*ptr == '\0'`, and both tokenizers fail with the unterminated-string error; with one more
character after the closing quote the literal is accepted (by `lexical_analyzer.c` with both
quotes in the token text). -/
theorem closing_quote_at_end_rejected :
    LexicalAnalyzer.tokenize_source_code "write \x22hi\x22".toList =
        .error .unterminatedString ∧
      StarInterpreter.tokenize_source_code "write \x22hi\x22".toList =
        .error .unterminatedString ∧
      LexicalAnalyzer.tokenize_source_code "write \x22hi\x22.".toList =
        .tokens [⟨.Keyword, "write".toList⟩, ⟨.String, "\x22hi\x22".toList⟩, ⟨.EndOfLine, []⟩,
          ⟨.Terminator, []⟩] 0 ∧
      LexicalAnalyzer.tokenize_source_code "write \x22hi".toList =
        .error .unterminatedString := by
  refine ⟨rfl, rfl, rfl, rfl⟩

/-! ## Malformed loop headers (C17) -/

/-- C17, counterexample: on `loop 3 { newLine. }` (no `times`) and on `loop 3 times newLine.`
(no opening bracket) `handle_loop` returns normally, with the cursor at the token after the
count and at the token after `times`: no fatal error. -/
theorem malformed_loop_header_counterexample :
    handle_loop (execute_statement 1) 1 ⟨[], [], [], []⟩
        [⟨.Keyword, "loop".toList⟩, ⟨.IntConst, "3".toList⟩, ⟨.LeftCurlyBracket, []⟩,
          ⟨.Keyword, "newLine".toList⟩, ⟨.EndOfLine, []⟩, ⟨.RightCurlyBracket, []⟩,
          ⟨.Terminator, []⟩] =
      .ok ⟨[], [], [], []⟩
        [⟨.LeftCurlyBracket, []⟩, ⟨.Keyword, "newLine".toList⟩, ⟨.EndOfLine, []⟩,
          ⟨.RightCurlyBracket, []⟩, ⟨.Terminator, []⟩] ∧
    handle_loop (execute_statement 1) 1 ⟨[], [], [], []⟩
        [⟨.Keyword, "loop".toList⟩, ⟨.IntConst, "3".toList⟩, ⟨.Keyword, "times".toList⟩,
          ⟨.Keyword, "newLine".toList⟩, ⟨.EndOfLine, []⟩, ⟨.Terminator, []⟩] =
      .ok ⟨[], [], [], []⟩
        [⟨.Keyword, "newLine".toList⟩, ⟨.EndOfLine, []⟩, ⟨.Terminator, []⟩] := by
  constructor <;> rfl

/-- C17, amended: `handle_loop` has no error exit for a malformed header. When the token
after the count is not the text `times`, it returns normally with the cursor at that token;
when the token after `loop <IntegerLiteral> times` is not a LeftCurlyBracket, it returns
normally with the cursor at that token; in both cases the state is as it was. -/
theorem malformed_loop_header_returns (exec : State → List Token → Res (List Token))
    (fuel : Nat) (st : State) (first count t : Token) (rest : List Token)
    (hcount : count.type = .IntConst) :
    (t.value ≠ "times".toList →
      handle_loop exec fuel st (first :: count :: t :: rest) = .ok st (t :: rest)) ∧
    (t.type ≠ .LeftCurlyBracket →
      handle_loop exec fuel st (first :: count :: ⟨.Keyword, "times".toList⟩ :: t :: rest) =
        .ok st (t :: rest)) := by
  constructor
  · intro h
    simp only [handle_loop, List.tail_cons, hcount, if_true, if_neg h]
  · intro h
    simp only [handle_loop, List.tail_cons, hcount, if_true, if_neg h]

/-- Witness of C17, amended: `loop 3 { newLine. }` and `loop 3 times newLine.`. -/
theorem malformed_loop_header_returns_witness :
    handle_loop (execute_statement 1) 1 ⟨[], [], [], []⟩
        [⟨.Keyword, "loop".toList⟩, ⟨.IntConst, "3".toList⟩, ⟨.LeftCurlyBracket, []⟩,
          ⟨.Keyword, "newLine".toList⟩, ⟨.EndOfLine, []⟩, ⟨.RightCurlyBracket, []⟩,
          ⟨.Terminator, []⟩] =
      .ok ⟨[], [], [], []⟩
        [⟨.LeftCurlyBracket, []⟩, ⟨.Keyword, "newLine".toList⟩, ⟨.EndOfLine, []⟩,
          ⟨.RightCurlyBracket, []⟩, ⟨.Terminator, []⟩] ∧
    handle_loop (execute_statement 1) 1 ⟨[], [], [], []⟩
        [⟨.Keyword, "loop".toList⟩, ⟨.IntConst, "3".toList⟩, ⟨.Keyword, "times".toList⟩,
          ⟨.Keyword, "newLine".toList⟩, ⟨.EndOfLine, []⟩, ⟨.Terminator, []⟩] =
      .ok ⟨[], [], [], []⟩
        [⟨.Keyword, "newLine".toList⟩, ⟨.EndOfLine, []⟩, ⟨.Terminator, []⟩] :=
  ⟨(malformed_loop_header_returns (execute_statement 1) 1 ⟨[], [], [], []⟩
      ⟨.Keyword, "loop".toList⟩ ⟨.IntConst, "3".toList⟩ ⟨.LeftCurlyBracket, []⟩ _ rfl).1
      (by decide),
   (malformed_loop_header_returns (execute_statement 1) 1 ⟨[], [], [], []⟩
      ⟨.Keyword, "loop".toList⟩ ⟨.IntConst, "3".toList⟩ ⟨.Keyword, "newLine".toList⟩ _ rfl).2
      (by decide)⟩

/-! ## The symbol table stays name-unique and bounded (C18) -/

theorem StarInterpreter.find_variable_none_not_mem (vars : List Variable) (n : List Char)
    (h : (find_variable vars n).isSome = false) : n ∉ vars.map Variable.name := by
  induction vars with
  | nil => simp
  | cons a l ih =>
    rw [find_variable_cons] at h
    by_cases ha : a.name = n
    · rw [if_pos ha] at h; cases h
    · rw [if_neg ha] at h
      simp only [List.map_cons, List.mem_cons, not_or]
      exact ⟨fun e => ha e.symm, ih h⟩

theorem StarInterpreter.store_value_names (n : List Char) (val : VarValue)
    (vars : List Variable) :
    (store_value n val vars).map Variable.name = vars.map Variable.name := by
  induction vars with
  | nil => rfl
  | cons a l ih =>
    rw [store_value_cons]
    by_cases ha : a.name = n
    · rw [if_pos ha]; rfl
    · rw [if_neg ha, List.map_cons, List.map_cons, ih]

/-- A call of `assign_variable` that returns has written one value through the pointer that
`find_variable` gave. -/
theorem StarInterpreter.assign_variable_vars (st st1 : State) (n v : List Char)
    (h : assign_variable st n v = .ok st1 ()) :
    ∃ val, st1.vars = store_value n val st.vars := by
  unfold assign_variable at h
  cases hf : find_variable st.vars n with
  | none => rw [hf] at h; cases h
  | some var =>
    rw [hf] at h
    simp only [] at h
    by_cases hc : (v.contains '+' || v.contains '-') = true
    · rw [if_pos hc] at h
      cases he : evaluate_expression st.vars v with
      | error e => rw [he] at h; cases h
      | undefined => rw [he] at h; cases h
      | ok r =>
        rw [he] at h
        cases hv : var.value <;> rw [hv] at h <;> simp only [] at h <;>
          (injection h with h; subst h; exact ⟨_, rfl⟩)
    · rw [if_neg hc] at h
      cases hv : var.value with
      | intValue k =>
        rw [hv] at h
        simp only [] at h
        split_ifs at h <;> (injection h with h; subst h; exact ⟨_, rfl⟩)
      | strValue t =>
        rw [hv] at h
        injection h with h; subst h; exact ⟨_, rfl⟩

/-- A call of `declare_variable` that returns was given a new name, found room in the
table, and has appended one variable under the first 10 characters of the name. -/
theorem StarInterpreter.declare_variable_vars (st st1 : State) (n : List Char) (ty : VarType)
    (h : declare_variable st n ty = .ok st1 ()) :
    (find_variable st.vars n).isSome = false ∧ st.vars.length < 100 ∧
      ∃ val, st1.vars = st.vars ++ [⟨n.take 10, val⟩] := by
  unfold declare_variable at h
  split_ifs at h with h1 h2
  injection h with h
  subst h
  refine ⟨by simpa using h1, by simp only [MAX_VARIABLES] at h2; omega, _, rfl⟩

/-- The invariant of the symbol table: no two entries share a name, and there are at most
100 entries. -/
theorem StarInterpreter.apply_calls_invariant (calls : List TableCall) :
    ∀ (st st1 : State), (∀ c ∈ calls, c.name.length ≤ 10) →
      (st.vars.map Variable.name).Nodup → st.vars.length ≤ 100 →
      apply_calls st calls = .ok st1 () →
        (st1.vars.map Variable.name).Nodup ∧ st1.vars.length ≤ 100 := by
  induction calls with
  | nil =>
    intro st st1 _ hnd hlen h
    simp only [apply_calls] at h
    injection h with h
    subst h
    exact ⟨hnd, hlen⟩
  | cons c more ih =>
    intro st st1 hnames hnd hlen h
    have hmore : ∀ x ∈ more, x.name.length ≤ 10 := fun x hx => hnames x (by simp [hx])
    have hc : c.name.length ≤ 10 := hnames c (by simp)
    rw [apply_calls] at h
    cases hstep : c.apply st with
    | fatal e s => rw [hstep] at h; cases h
    | undefined => rw [hstep] at h; cases h
    | outOfFuel => rw [hstep] at h; cases h
    | ok st2 u =>
      rw [hstep] at h
      simp only [Res.bind] at h
      cases c with
      | declare n ty =>
        simp only [TableCall.apply] at hstep
        simp only [TableCall.name] at hc
        obtain ⟨hnew, hroom, val, hvars⟩ := declare_variable_vars st st2 n ty hstep
        rw [List.take_of_length_le hc] at hvars
        refine ih st2 st1 hmore ?_ ?_ h
        · rw [hvars, List.map_append, List.map_singleton]
          exact List.Nodup.append hnd (List.nodup_singleton _)
            (by
              intro x hx hx2
              rw [List.mem_singleton.mp hx2] at hx
              exact find_variable_none_not_mem st.vars n hnew hx)
        · rw [hvars, List.length_append, List.length_singleton]
          omega
      | assign n v =>
        simp only [TableCall.apply] at hstep
        obtain ⟨val, hvars⟩ := assign_variable_vars st st2 n v hstep
        refine ih st2 st1 hmore ?_ ?_ h
        · rw [hvars, store_value_names]; exact hnd
        · have := congrArg List.length (store_value_names n val st.vars)
          rw [List.length_map, List.length_map] at this
          rw [hvars, this]; exact hlen

set_option maxRecDepth 100000 in
/-- C18, counterexample: the one hundred declarations of `aa`, `ab`, ..., `jj` from the empty
table all succeed and give a table of 100 entries; the call `declare_variable("aa", Integer)`
on that table fails with the duplicate-declaration error, not with the too-many-variables
error. -/
theorem full_table_duplicate_counterexample :
    ∃ st, apply_calls (initial_state []) hundred_declarations = .ok st () ∧
      st.vars.length = 100 ∧
      declare_variable st "aa".toList .Integer = .fatal (.alreadyDeclared "aa".toList) st ∧
      declare_variable st "aa".toList .Integer ≠ .fatal .tooManyVariables st := by
  refine ⟨⟨(List.range 100).map fun i => ⟨two_letter_name i, .intValue 0⟩, [], [], []⟩,
    rfl, rfl, rfl, ?_⟩
  intro h
  have h2 : declare_variable
      ⟨(List.range 100).map fun i => ⟨two_letter_name i, .intValue 0⟩, [], [], []⟩
      "aa".toList .Integer = .fatal (.alreadyDeclared "aa".toList)
        ⟨(List.range 100).map fun i => ⟨two_letter_name i, .intValue 0⟩, [], [], []⟩ := rfl
  rw [h2] at h
  cases h

/-- C18, amended: (1) starting from the empty table, after any sequence of
`declare_variable` and `assign_variable` calls with names of at most 10 characters in which
no call fails, no two entries of the table share a name and the table has at most 100
entries; (2) on a table that holds 100 entries, a `declare_variable` call with a name that
is not in the table fails with the too-many-variables error, and (3) a call with a name
that is in the table fails with the duplicate-declaration error; both leave the table as it
was. -/
theorem symbol_table_unique_and_bounded :
    (∀ (input : List Char) (calls : List TableCall) (st : State),
      (∀ c ∈ calls, c.name.length ≤ 10) →
      apply_calls (initial_state input) calls = .ok st () →
        (st.vars.map Variable.name).Nodup ∧ st.vars.length ≤ 100) ∧
    (∀ (st : State) (n : List Char) (kind : VarType),
      st.vars.length = 100 → find_variable st.vars n = none →
        declare_variable st n kind = .fatal .tooManyVariables st) ∧
    (∀ (st : State) (n : List Char) (kind : VarType),
      st.vars.length = 100 → (find_variable st.vars n).isSome = true →
        declare_variable st n kind = .fatal (.alreadyDeclared n) st) := by
  refine ⟨?_, ?_, ?_⟩
  · intro input calls st hnames h
    exact apply_calls_invariant calls (initial_state input) st hnames
      (by simp [initial_state]) (by simp [initial_state]) h
  · intro st n kind hlen hn
    simp [declare_variable, hn, hlen, MAX_VARIABLES]
  · intro st n kind _ hn
    exact declare_variable_duplicate st n kind hn

set_option maxRecDepth 100000 in
/-- Witness of C18, amended: the calls `declare x`, `declare t`, `assign x 5` from the
empty table, and the declaration of the new name `zz` in the table of the hundred names
`aa`, ..., `jj`. -/
theorem symbol_table_unique_and_bounded_witness :
    (apply_calls (initial_state [])
        [.declare "x".toList .Integer, .declare "t".toList .Text,
          .assign "x".toList "5".toList] =
      .ok ⟨[⟨"x".toList, .intValue 5⟩, ⟨"t".toList, .strValue []⟩], [], [], []⟩ () ∧
      ((["x".toList, "t".toList] : List (List Char)).Nodup ∧ 2 ≤ 100)) ∧
    declare_variable ⟨(List.range 100).map fun i => ⟨two_letter_name i, .intValue 0⟩, [], [], []⟩
        "zz".toList .Text =
      .fatal .tooManyVariables
        ⟨(List.range 100).map fun i => ⟨two_letter_name i, .intValue 0⟩, [], [], []⟩ :=
  ⟨⟨rfl, symbol_table_unique_and_bounded.1 []
      [.declare "x".toList .Integer, .declare "t".toList .Text, .assign "x".toList "5".toList]
      ⟨[⟨"x".toList, .intValue 5⟩, ⟨"t".toList, .strValue []⟩], [], [], []⟩
      (by decide) rfl⟩,
    symbol_table_unique_and_bounded.2.1
      ⟨(List.range 100).map fun i => ⟨two_letter_name i, .intValue 0⟩, [], [], []⟩
      "zz".toList .Text rfl rfl⟩

/-! ## A declaration inserts the zero value (C19) -/

/-- C19: a successful declaration inserts the zero value and touches nothing else. For
every table with fewer than 100 entries and every name `n` of at most 10 characters that is
not in it, `declare_variable` returns normally; afterwards `find_variable` returns for `n`
a variable of the declared kind whose value is 0 for Integer and the empty text for Text,
and for every other name `m` exactly what it returned before (the same variable, kind and
value, or nothing); the table has one entry more and the rest of the state is as it was. -/
theorem declaration_inserts_zero_value (st : State) (n : List Char) (kind : VarType)
    (hcap : st.vars.length < 100) (hlen : n.length ≤ 10)
    (hn : find_variable st.vars n = none) :
    ∃ st1, declare_variable st n kind = .ok st1 () ∧
      (∃ var, find_variable st1.vars n = some var ∧ var.type = kind ∧
        var.value = (match kind with
          | .Integer => .intValue 0
          | .Text => .strValue [])) ∧
      (∀ m, m ≠ n → find_variable st1.vars m = find_variable st.vars m) ∧
      st1.vars.length = st.vars.length + 1 ∧
      st1.stdout = st.stdout ∧ st1.warnings = st.warnings ∧ st1.stdin = st.stdin := by
  refine ⟨_, declare_variable_fresh st n kind hn hlen hcap, ⟨⟨n, zero_value kind⟩, ?_, ?_, ?_⟩,
    ?_, by simp, rfl, rfl, rfl⟩
  · exact find_variable_declared st.vars n _ hn
  · cases kind <;> rfl
  · cases kind <;> rfl
  · intro m hm
    exact find_variable_declared_other st.vars n m _ hm

/-- Witness of C19: declaring the Text variable `t` in a table that holds `x = 5`. -/
theorem declaration_inserts_zero_value_witness :
    ∃ st1, declare_variable ⟨[⟨"x".toList, .intValue 5⟩], [], [], []⟩ "t".toList .Text =
        .ok st1 () ∧
      (∃ var, find_variable st1.vars "t".toList = some var ∧ var.type = .Text ∧
        var.value = .strValue []) ∧
      (∀ m, m ≠ "t".toList →
        find_variable st1.vars m = find_variable [⟨"x".toList, .intValue 5⟩] m) ∧
      st1.vars.length = 1 + 1 ∧ st1.stdout = [] ∧ st1.warnings = [] ∧ st1.stdin = [] :=
  declaration_inserts_zero_value ⟨[⟨"x".toList, .intValue 5⟩], [], [], []⟩ "t".toList .Text
    (by decide) (by decide) rfl

/-! ## Initializers with an expression tail (C20) -/

/-- The interpreter loop makes no progress at an Operator token. -/
theorem StarInterpreter.interpret_stalls (fuel : Nat) :
    ∀ (st : State) (text : List Char) (rest : List Token),
      interpret fuel st (⟨.Operator, text⟩ :: rest) = .outOfFuel := by
  induction fuel with
  | zero => intro st text rest; rfl
  | succ f ih =>
    intro st text rest
    cases f with
    | zero => rfl
    | succ g =>
      have h : execute_statement (g + 1) st (⟨.Operator, text⟩ :: rest) =
          .ok st (⟨.Operator, text⟩ :: rest) := by
        rw [execute_statement]
        simp [Res.bind, skip_end_of_line]
      rw [interpret, if_neg (fun e => by cases e), h]
      exact ih st text rest

/-- C20, the code at the failing input: on `int x is 2 + 3.` the declaration branch of
`execute_statement` copies the single token `2` as the initializer, so `x` is 2 and the call
returns with the cursor at the Operator token `+`, not past the EndOfLine token; no branch
of `execute_statement` moves the cursor from an Operator token, so `interpret` never reaches
the Terminator: whatever the fuel, the run does not finish. -/
theorem declaration_initializer_tail_not_consumed (fuel : Nat) (input : List Char) :
    tokenize_source_code "int x is 2 + 3.".toList =
        .tokens [⟨.Keyword, "int".toList⟩, ⟨.Identifier, "x".toList⟩, ⟨.Keyword, "is".toList⟩,
          ⟨.IntConst, "2".toList⟩, ⟨.Operator, "+".toList⟩, ⟨.IntConst, "3".toList⟩,
          ⟨.EndOfLine, []⟩, ⟨.Terminator, []⟩] 0 ∧
      execute_statement (fuel + 1) (initial_state input)
          [⟨.Keyword, "int".toList⟩, ⟨.Identifier, "x".toList⟩, ⟨.Keyword, "is".toList⟩,
            ⟨.IntConst, "2".toList⟩, ⟨.Operator, "+".toList⟩, ⟨.IntConst, "3".toList⟩,
            ⟨.EndOfLine, []⟩, ⟨.Terminator, []⟩] =
        .ok ⟨[⟨"x".toList, .intValue 2⟩], [], [], input⟩
          [⟨.Operator, "+".toList⟩, ⟨.IntConst, "3".toList⟩, ⟨.EndOfLine, []⟩,
            ⟨.Terminator, []⟩] ∧
      run fuel "int x is 2 + 3.".toList input = .finished .outOfFuel := by
  have hexec : ∀ g, execute_statement (g + 1) (initial_state input)
      [⟨.Keyword, "int".toList⟩, ⟨.Identifier, "x".toList⟩, ⟨.Keyword, "is".toList⟩,
        ⟨.IntConst, "2".toList⟩, ⟨.Operator, "+".toList⟩, ⟨.IntConst, "3".toList⟩,
        ⟨.EndOfLine, []⟩, ⟨.Terminator, []⟩] =
      .ok ⟨[⟨"x".toList, .intValue 2⟩], [], [], input⟩
        [⟨.Operator, "+".toList⟩, ⟨.IntConst, "3".toList⟩, ⟨.EndOfLine, []⟩,
          ⟨.Terminator, []⟩] := fun g => rfl
  have htok : tokenize_source_code "int x is 2 + 3.".toList =
      .tokens [⟨.Keyword, "int".toList⟩, ⟨.Identifier, "x".toList⟩, ⟨.Keyword, "is".toList⟩,
        ⟨.IntConst, "2".toList⟩, ⟨.Operator, "+".toList⟩, ⟨.IntConst, "3".toList⟩,
        ⟨.EndOfLine, []⟩, ⟨.Terminator, []⟩] 0 := rfl
  refine ⟨htok, hexec fuel, ?_⟩
  rw [run_of_tokens fuel _ input _ 0 htok]
  cases fuel with
  | zero => rfl
  | succ f =>
    cases f with
    | zero => rfl
    | succ g =>
      rw [interpret, if_neg (by decide), hexec g]
      simp only [Res.bind]
      rw [interpret_stalls]

/-! ## Digits and underscores in identifiers (C21) -/

/-- C21, the code at the failing inputs: the identifier loops of both tokenizers accept
letters only (and, in `starInterpreter.c`, the underscore), never a digit, although the
function `is_valid_identifier_char` of both programs accepts letters, digits and the
underscore. So `x1` is cut into the Identifier `x` and the IntConst `1` by both tokenizers,
and `a_b` is cut by `lexical_analyzer.c` into the Identifiers `a` and `b` (its underscore is
skipped), while `starInterpreter.c` gives the single Identifier `a_b`. -/
theorem identifier_with_digit_is_split :
    StarInterpreter.tokenize_source_code "x1".toList =
        .tokens [⟨.Identifier, "x".toList⟩, ⟨.IntConst, "1".toList⟩, ⟨.Terminator, []⟩] 0 ∧
      LexicalAnalyzer.tokenize_source_code "x1".toList =
        .tokens [⟨.Identifier, "x".toList⟩, ⟨.IntConst, "1".toList⟩, ⟨.Terminator, []⟩] 0 ∧
      LexicalAnalyzer.tokenize_source_code "a_b".toList =
        .tokens [⟨.Identifier, "a".toList⟩, ⟨.Identifier, "b".toList⟩, ⟨.Terminator, []⟩] 0 ∧
      StarInterpreter.tokenize_source_code "a_b".toList =
        .tokens [⟨.Identifier, "a_b".toList⟩, ⟨.Terminator, []⟩] 0 ∧
      is_valid_identifier_char '1' = true ∧ is_valid_identifier_char '_' = true := by
  refine ⟨rfl, rfl, rfl, rfl, rfl, rfl⟩

/-! ## The `is` clause of a comma-separated declaration (C22) -/

theorem digits_no_sign (l : List Char) (h : ∀ c ∈ l, isdigit c = true) :
    (l.contains '+' || l.contains '-') = false := by
  simp only [Bool.or_eq_false_iff]
  constructor
  · cases hc : l.contains '+' with
    | false => rfl
    | true =>
      have := h '+' (by simpa using hc)
      exact absurd this (by decide)
  · cases hc : l.contains '-' with
    | false => rfl
    | true =>
      have := h '-' (by simpa using hc)
      exact absurd this (by decide)

/-- Function `assign_variable` on an Integer variable and a decimal literal within the range
of `int`: the variable receives the number. -/
theorem StarInterpreter.assign_variable_literal (st : State) (v c : List Char) (var : Variable)
    (hv : find_variable st.vars v = some var) (hint : var.type = .Integer)
    (hc : is_literal c) (hfit : literal_value c ≤ 2147483647) :
    assign_variable st v c =
      .ok { st with vars := store_value v (.intValue (literal_value c)) st.vars } () := by
  obtain ⟨k, hk⟩ : ∃ k, var.value = .intValue k := by
    cases hval : var.value with
    | intValue k => exact ⟨k, rfl⟩
    | strValue t => simp [Variable.type, hval] at hint
  have h0 := literal_value_nonneg c
  have hat : atoi c = literal_value c := by
    rw [atoi_literal c hc (by omega)]
    exact toInt32_of_fits _ ⟨by omega, by omega⟩
  have hneg : ¬ literal_value c < 0 := by omega
  unfold assign_variable
  simp only [hv, digits_no_sign c hc.2, Bool.false_eq_true, if_false, hk, hat, hneg]

/-- C22: in a comma-separated declaration an `is` clause initializes only the name it
follows. For distinct names `a` and `b` (at most 10 characters each) that are not in the
table, a table with room for two more entries, and a decimal literal `c` within the range of
`int`, one call of `execute_statement` on `int a, b is c.` returns just past the EndOfLine
token; afterwards `a` is an Integer variable holding 0 and `b` an Integer variable holding
the value of `c`, every other name is as it was, the table has two entries more, and the
output and the input are unchanged. -/
theorem is_clause_initializes_one_name (st : State) (fuel : Nat) (a b c : List Char)
    (after : List Token) (hab : a ≠ b)
    (ha : find_variable st.vars a = none) (hb : find_variable st.vars b = none)
    (hla : a.length ≤ 10) (hlb : b.length ≤ 10) (hroom : st.vars.length + 2 ≤ 100)
    (hc : is_literal c) (hfit : literal_value c ≤ 2147483647) :
    ∃ st1,
      execute_statement (fuel + 1) st
          (⟨.Keyword, "int".toList⟩ :: ⟨.Identifier, a⟩ :: ⟨.Comma, []⟩ :: ⟨.Identifier, b⟩ ::
            ⟨.Keyword, "is".toList⟩ :: ⟨.IntConst, c⟩ :: ⟨.EndOfLine, []⟩ :: after) =
        .ok st1 after ∧
      find_variable st1.vars a = some ⟨a, .intValue 0⟩ ∧
      find_variable st1.vars b = some ⟨b, .intValue (literal_value c)⟩ ∧
      (∀ m, m ≠ a → m ≠ b → find_variable st1.vars m = find_variable st.vars m) ∧
      st1.vars.length = st.vars.length + 2 ∧
      st1.stdout = st.stdout ∧ st1.stdin = st.stdin := by
  have hda := declare_variable_fresh st a .Integer ha hla (by omega)
  have hb1 : find_variable (st.vars ++ [⟨a, zero_value .Integer⟩]) b = none := by
    rw [find_variable_declared_other st.vars a b _ (fun e => hab e.symm)]
    exact hb
  have hdb := declare_variable_fresh { st with vars := st.vars ++ [⟨a, zero_value .Integer⟩] }
    b .Integer hb1 hlb (by simp only [List.length_append, List.length_singleton]; omega)
  have hfb := find_variable_declared (st.vars ++ [⟨a, zero_value .Integer⟩]) b
    (zero_value .Integer) hb1
  have hasg := assign_variable_literal
    { st with vars := st.vars ++ [⟨a, zero_value .Integer⟩] ++ [⟨b, zero_value .Integer⟩] }
    b c ⟨b, zero_value .Integer⟩ hfb rfl hc hfit
  have hnis : ¬ ((⟨.Comma, []⟩ : Token).type = .Keyword ∧
      (⟨.Comma, []⟩ : Token).value = "is".toList) := by decide
  have hne : ¬ (TokenType.EndOfLine = TokenType.Comma) := by decide
  have hkw : "int".toList = "int".toList := rfl
  refine ⟨⟨store_value b (.intValue (literal_value c))
    (st.vars ++ [⟨a, zero_value .Integer⟩] ++ [⟨b, zero_value .Integer⟩]), st.stdout,
    st.warnings, st.stdin⟩, ?_, ?_, ?_, ?_, ?_, rfl, rfl⟩
  · rw [execute_statement]
    simp only [true_and, true_or, if_true, declaration_loop_plain _ _ a ⟨.Comma, []⟩ _ hnis,
      hda, Res.bind, declaration_loop_initialized,
      declaration_loop_stop _ _ ⟨.EndOfLine, []⟩ _ (by decide), hdb, hasg, if_neg hne,
      skip_end_of_line]
  · simp only []
    rw [find_variable_store_value_other _ b a _ hab,
      find_variable_declared_other _ b a _ hab, find_variable_declared st.vars a _ ha]
    rfl
  · simp only []
    rw [find_variable_store_value_same _ b _ _ hfb]
  · intro m hma hmb
    simp only []
    rw [find_variable_store_value_other _ b m _ hmb, find_variable_declared_other _ b m _ hmb,
      find_variable_declared_other _ a m _ hma]
  · have := congrArg List.length (store_value_names b (.intValue (literal_value c))
      (st.vars ++ [⟨a, zero_value .Integer⟩] ++ [⟨b, zero_value .Integer⟩]))
    simp only [List.length_map, List.length_append, List.length_singleton] at this
    simp only [this]

/-- Witness of C22: the program `int a, b is 5.` ends with `a = 0` and `b = 5`, and so
does the statement executed in the empty table. -/
theorem is_clause_initializes_one_name_witness :
    run 2 "int a, b is 5.".toList [] =
        .finished (.ok ⟨[⟨"a".toList, .intValue 0⟩, ⟨"b".toList, .intValue 5⟩], [], [], []⟩ ()) ∧
    ∃ st1,
      execute_statement 1 ⟨[], [], [], []⟩
          [⟨.Keyword, "int".toList⟩, ⟨.Identifier, "a".toList⟩, ⟨.Comma, []⟩,
            ⟨.Identifier, "b".toList⟩, ⟨.Keyword, "is".toList⟩, ⟨.IntConst, "5".toList⟩,
            ⟨.EndOfLine, []⟩, ⟨.Terminator, []⟩] =
        .ok st1 [⟨.Terminator, []⟩] ∧
      find_variable st1.vars "a".toList = some ⟨"a".toList, .intValue 0⟩ ∧
      find_variable st1.vars "b".toList = some ⟨"b".toList, .intValue 5⟩ ∧
      (∀ m, m ≠ "a".toList → m ≠ "b".toList → find_variable st1.vars m = find_variable [] m) ∧
      st1.vars.length = 0 + 2 ∧ st1.stdout = [] ∧ st1.stdin = [] :=
  ⟨rfl, is_clause_initializes_one_name ⟨[], [], [], []⟩ 0 "a".toList "b".toList "5".toList
    [⟨.Terminator, []⟩] (by decide) rfl rfl (by decide) (by decide) (by decide) (by decide)
    (by decide)⟩

/-! ## When expression evaluation fails (C23) -/

theorem StarInterpreter.Operand.written_word (x : Operand) (h : x.is_written) :
    x.token.value ≠ [] ∧ ∀ c ∈ x.token.value, c ≠ ' ' := by
  cases x with
  | lit digits => exact is_literal_word digits h.1
  | var name =>
    obtain ⟨c, cs, rfl, hc, hcs⟩ := h
    refine ⟨by simp [Operand.token], ?_⟩
    intro x hx
    simp only [Operand.token, List.mem_cons] at hx
    rcases hx with hx | hx
    · rw [hx]; exact isalpha_ne c ' ' hc (by decide)
    · exact hcs x hx

/-- The value of an operand in `evaluate_expression`: an error exactly for an operand
without an integer value. -/
theorem StarInterpreter.operand_value_written (vars : List Variable) (x : Operand)
    (h : x.is_written) :
    (x.unusable vars ∧ ∃ e, operand_value vars x.token.value = .error e) ∨
    (¬ x.unusable vars ∧ operand_value vars x.token.value = .ok (x.value vars)) := by
  cases x with
  | lit digits =>
    exact Or.inr ⟨fun hu => hu, operand_value_literal vars digits h.1 h.2⟩
  | var name =>
    obtain ⟨c, cs, rfl, hc, hcs⟩ := h
    have hd : isdigit c = false := isalpha_not_isdigit c hc
    have hm : c ≠ '-' := isalpha_ne c '-' hc (by decide)
    cases hf : find_variable vars (c :: cs) with
    | none =>
      refine Or.inl ⟨by simp [Operand.unusable, hf], .undefinedVariable (c :: cs), ?_⟩
      simp [operand_value, is_integer_token, hd, hm, Operand.token, hf]
    | some v =>
      cases hval : v.value with
      | intValue k =>
        refine Or.inr ⟨by simp [Operand.unusable, hf, Variable.type, hval], ?_⟩
        simp [operand_value, is_integer_token, hd, hm, Operand.token, hf, hval, Operand.value]
      | strValue t =>
        refine Or.inl ⟨by simp [Operand.unusable, hf, Variable.type, hval],
          .notAnInteger (c :: cs), ?_⟩
        simp [operand_value, is_integer_token, hd, hm, Operand.token, hf, hval]

/-- The `switch (op)` of `evaluate_expression`: an error exactly for a `/` with divisor 0 and
for a character that is not an operator; otherwise a value, or the undefined division. -/
theorem StarInterpreter.apply_operator_cases (op : Char) (a b : Int) :
    (((op = '/' ∧ b = 0) ∨ ¬ is_operator op) ∧ ∃ e, apply_operator op a b = .error e) ∨
    (¬ ((op = '/' ∧ b = 0) ∨ ¬ is_operator op) ∧ ∃ r, apply_operator op a b = .ok r) ∨
    (¬ ((op = '/' ∧ b = 0) ∨ ¬ is_operator op) ∧ apply_operator op a b = .undefined) := by
  unfold apply_operator is_operator
  by_cases h1 : op = '+'
  · subst h1; exact Or.inr (Or.inl ⟨by simp, toInt32 (a + b), by simp⟩)
  by_cases h2 : op = '-'
  · subst h2; exact Or.inr (Or.inl ⟨by simp, toInt32 (a - b), by simp⟩)
  by_cases h3 : op = '*'
  · subst h3; exact Or.inr (Or.inl ⟨by simp, toInt32 (a * b), by simp⟩)
  by_cases h4 : op = '/'
  · subst h4
    by_cases hb : b = 0
    · exact Or.inl ⟨Or.inl ⟨rfl, hb⟩, .divisionByZero, by simp [hb]⟩
    · by_cases ht : a = -2147483648 ∧ b = -1
      · exact Or.inr (Or.inr ⟨by simp [hb], by simp [hb, ht]⟩)
      · exact Or.inr (Or.inl ⟨by simp [hb], toInt32 (Int.tdiv a b), by
          simp only [if_neg hb, if_neg ht]
          simp⟩)
  · exact Or.inl ⟨Or.inr (by simp [h1, h2, h3, h4]), .unknownOperator op,
      by simp [h1, h2, h3, h4]⟩

/-- The loop of `evaluate_expression` over the words of an expression, entered with
operator `op` pending on `result`: when it ends in an error, the pending pair or a later
pair is one that must fail, and when it returns a value, none is. -/
theorem StarInterpreter.evaluate_loop_outcome (vars : List Variable)
    (tail : List (Char × Operand)) :
    ∀ (x : Operand) (result : Int) (op : Char), x.is_written →
      (∀ p ∈ tail, p.2.is_written) →
      ((∃ e, evaluate_loop vars
          (x.token.value :: tail_words (tail.map fun p => (p.1, p.2.token.value)))
          result op = .error e) →
        (fails_at vars op x ∨ ∃ p ∈ tail, fails_at vars p.1 p.2)) ∧
      ((∃ r, evaluate_loop vars
          (x.token.value :: tail_words (tail.map fun p => (p.1, p.2.token.value)))
          result op = .ok r) →
        ¬ (fails_at vars op x ∨ ∃ p ∈ tail, fails_at vars p.1 p.2)) := by
  induction tail with
  | nil =>
    intro x result op hx _
    simp only [List.map_nil, tail_words, List.not_mem_nil, false_and, exists_false, or_false]
    rw [evaluate_loop]
    rcases operand_value_written vars x hx with ⟨hu, e, he⟩ | ⟨hu, hv⟩
    · rw [he]
      exact ⟨fun _ => Or.inl hu, by rintro ⟨r, hr⟩; cases hr⟩
    · rw [hv]
      simp only []
      rcases apply_operator_cases op result (x.value vars) with
        ⟨hb, e, he⟩ | ⟨hb, r, hr⟩ | ⟨hb, hud⟩
      · rw [he]
        exact ⟨fun _ => Or.inr hb, by rintro ⟨r, hr⟩; cases hr⟩
      · rw [hr]
        refine ⟨(by rintro ⟨e, he⟩; cases he), fun _ => ?_⟩
        rintro (h | h)
        · exact hu h
        · exact hb h
      · rw [hud]
        exact ⟨(by rintro ⟨e, he⟩; cases he), by rintro ⟨r, hr⟩; cases hr⟩
  | cons p more ih =>
    intro x result op hx htail
    obtain ⟨o, y⟩ := p
    have hy : y.is_written := htail (o, y) (by simp)
    have hmore : ∀ q ∈ more, q.2.is_written := fun q hq => htail q (by simp [hq])
    rw [List.map_cons, tail_words, evaluate_loop]
    rcases operand_value_written vars x hx with ⟨hu, e, he⟩ | ⟨hu, hv⟩
    · rw [he]
      exact ⟨fun _ => Or.inl (Or.inl hu), by rintro ⟨r, hr⟩; cases hr⟩
    · rw [hv]
      simp only []
      rcases apply_operator_cases op result (x.value vars) with
        ⟨hb, e, he⟩ | ⟨hb, r, hr⟩ | ⟨hb, hud⟩
      · rw [he]
        exact ⟨fun _ => Or.inl (Or.inr hb), by rintro ⟨r, hr⟩; cases hr⟩
      · rw [hr]
        simp only [List.headD_cons]
        obtain ⟨ih1, ih2⟩ := ih y r o hy hmore
        constructor
        · intro h
          rcases ih1 h with h | ⟨q, hq, h⟩
          · exact Or.inr ⟨(o, y), by simp, h⟩
          · exact Or.inr ⟨q, by simp [hq], h⟩
        · intro h
          rintro ((h1 | h1) | ⟨q, hq, h1⟩)
          · exact hu h1
          · exact hb h1
          · rcases List.mem_cons.mp hq with rfl | hq
            · exact ih2 h (Or.inl h1)
            · exact ih2 h (Or.inr ⟨q, hq, h1⟩)
      · rw [hud]
        exact ⟨(by rintro ⟨e, he⟩; cases he), by rintro ⟨r, hr⟩; cases hr⟩

/-- Function `evaluate_expression` away from the undefined division. For every expression
text `operand (operator operand)*` with single spaces between the items and fewer than 256
characters, whose operands are identifier names or decimal literals within the range of
`int` and whose operators are single characters other than the space: when the evaluation
does not divide `INT_MIN` by `-1`, it ends in a fatal error if and only if some operand is
an identifier that is undeclared or names a non-Integer variable, or some `/` has a right
operand whose value is 0, or some operator is not one of `+ - * /`, and it returns an
integer if and only if none of these holds. -/
theorem StarInterpreter.evaluate_expression_outcome (vars : List Variable) (first : Operand)
    (tail : List (Char × Operand)) (hfirst : first.is_written)
    (htail : ∀ p ∈ tail, p.1 ≠ ' ' ∧ p.2.is_written)
    (hlen : (expression_text first.token.value
      (tail.map fun p => (p.1, p.2.token.value))).length < 256)
    (hdef : evaluate_expression vars (expression_text first.token.value
        (tail.map fun p => (p.1, p.2.token.value))) ≠ .undefined) :
    ((∃ e, evaluate_expression vars (expression_text first.token.value
        (tail.map fun p => (p.1, p.2.token.value))) = .error e) ↔
      must_fail vars first tail) ∧
    ((∃ r, evaluate_expression vars (expression_text first.token.value
        (tail.map fun p => (p.1, p.2.token.value))) = .ok r) ↔
      ¬ must_fail vars first tail) := by
  have hwords : ∀ w ∈ tail_words (tail.map fun p => (p.1, p.2.token.value)),
      w ≠ [] ∧ ∀ c ∈ w, c ≠ ' ' := by
    clear hlen hdef
    induction tail with
    | nil => intro w hw; simp [tail_words] at hw
    | cons p more ih =>
      obtain ⟨o, y⟩ := p
      have hp := htail (o, y) (by simp)
      intro w hw
      simp only [List.map_cons, tail_words, List.mem_cons] at hw
      rcases hw with h | h | h
      · subst h
        refine ⟨by simp, ?_⟩
        intro c hc
        simp only [List.mem_singleton] at hc
        subst hc
        exact hp.1
      · subst h
        exact Operand.written_word y hp.2
      · exact ih (fun q hq => htail q (by simp [hq])) w h
  have hplus : fails_at vars '+' first ↔ first.unusable vars := by
    unfold fails_at is_operator
    constructor
    · rintro (h | h | h)
      · exact h
      · exact absurd h.1 (by decide)
      · exact absurd (Or.inl rfl) h
    · exact fun h => Or.inl h
  have hout := evaluate_loop_outcome vars tail first 0 '+' hfirst (fun p hp => (htail p hp).2)
  rw [hplus] at hout
  have heval : evaluate_expression vars (expression_text first.token.value
      (tail.map fun p => (p.1, p.2.token.value))) =
      evaluate_loop vars
        (first.token.value :: tail_words (tail.map fun p => (p.1, p.2.token.value))) 0 '+' := by
    unfold evaluate_expression
    rw [List.take_of_length_le (by simp only [MAX_STRING_LENGTH]; omega)]
    unfold expression_text
    rw [strtok_tokens_text first.token.value _ (Operand.written_word first hfirst) hwords]
  rw [heval] at hdef ⊢
  obtain ⟨h1, h2⟩ := hout
  unfold must_fail
  cases hres : evaluate_loop vars
      (first.token.value :: tail_words (tail.map fun p => (p.1, p.2.token.value))) 0 '+' with
  | error e =>
    rw [hres] at h1
    have hf := h1 ⟨e, rfl⟩
    exact ⟨⟨fun _ => hf, fun _ => ⟨e, rfl⟩⟩,
      ⟨(by rintro ⟨r, hr⟩; cases hr), fun hn => absurd hf hn⟩⟩
  | undefined => exact absurd hres hdef
  | ok r =>
    rw [hres] at h2
    have hf := h2 ⟨r, rfl⟩
    exact ⟨⟨(by rintro ⟨e, he⟩; cases he), fun h => absurd h hf⟩,
      ⟨fun _ => hf, fun _ => ⟨r, rfl⟩⟩⟩

/-- C23: the division of `evaluate_expression` is guarded against the divisor 0 only. With
the Integer variables `x = -2147483648` and `z = -1`, the expression text `x / z` (two
identifier operands, the operator `/`, 5 characters) has no operand that is undeclared or
not an Integer, no `/` with a right operand of value 0 and no unknown operator, so it is
not one that must fail; yet `evaluate_expression` does not return an integer: it divides
`INT_MIN` by `-1`, which is undefined behaviour (the division traps). The program
`int x, z, y. read x, z. y is "x / z".` reaches it on the console input
`-2147483648 -1`. With `x = -2147483647` the same text returns `2147483647`. -/
theorem division_overflow_not_guarded :
    ¬ must_fail [⟨"x".toList, .intValue (-2147483648)⟩, ⟨"z".toList, .intValue (-1)⟩]
        (.var "x".toList) [('/', .var "z".toList)] ∧
      evaluate_expression
        [⟨"x".toList, .intValue (-2147483648)⟩, ⟨"z".toList, .intValue (-1)⟩]
        (expression_text (Operand.var "x".toList).token.value
          [('/', (Operand.var "z".toList).token.value)]) = .undefined ∧
      evaluate_expression
        [⟨"x".toList, .intValue (-2147483648)⟩, ⟨"z".toList, .intValue (-1)⟩]
        "x / z".toList = .undefined ∧
      run 4 "int x, z, y. read x, z. y is \x22x / z\x22.".toList "-2147483648 -1".toList =
        .finished .undefined ∧
      evaluate_expression
        [⟨"x".toList, .intValue (-2147483647)⟩, ⟨"z".toList, .intValue (-1)⟩]
        "x / z".toList = .ok 2147483647 := by
  refine ⟨?_, rfl, rfl, rfl, rfl⟩
  rintro (h | ⟨p, hp, h⟩)
  · exact absurd rfl h
  · simp only [List.mem_singleton] at hp
    subst hp
    rcases h with h | h | h
    · exact absurd rfl h
    · exact absurd h.2 (by decide)
    · exact h (Or.inr (Or.inr (Or.inr rfl)))

/-! ## The scan position stays inside the text; the scan loop ends -/

theorem scan_while_suffix (p : Char → Bool) (n : Nat) (s : List Char) :
    (scan_while p n s).2 <:+ s :=
  ⟨(scan_while p n s).1, scan_while_append p n s⟩

theorem skip_comment_suffix (s r : List Char) (h : skip_comment s = some r) : r <:+ s := by
  induction s with
  | nil => simp [skip_comment] at h
  | cons c t ih =>
    unfold skip_comment at h
    split at h
    · injection h with h
      subst h
      exact List.IsSuffix.trans (List.tail_suffix t) (List.suffix_cons c t)
    · exact List.IsSuffix.trans (ih h) (List.suffix_cons c t)

theorem lex_integer_suffix (s s1 : LexState) (c : Char) (rest : List Char)
    (h : lex_integer s c rest = .ok s1) : s1.ptr <:+ c :: rest := by
  rw [lex_integer_ok s s1 c rest h]
  by_cases hm : c = '-'
  · simp only [if_pos hm]
    exact List.IsSuffix.trans (scan_while_suffix _ _ _) (List.suffix_cons c rest)
  · simp only [if_neg hm]
    exact scan_while_suffix _ _ _

theorem string_rest_suffix (b : List Char) :
    (match b with
      | [] => []
      | q :: r => if q = '\x22' then r else q :: r) <:+ b := by
  cases b with
  | nil => exact List.suffix_refl _
  | cons q r =>
    simp only []
    split_ifs
    · exact List.suffix_cons q r
    · exact List.suffix_refl _

/-- An iteration of the scan loop of `starInterpreter.c` leaves the scan position inside the
text: the new position is a suffix of the old one. -/
theorem StarInterpreter.interpreter_lex_step_suffix (s s1 : LexState)
    (h : StarInterpreter.lex_step s = .ok s1) : s1.ptr <:+ s.ptr := by
  unfold StarInterpreter.lex_step at h
  split at h
  · injection h with h; subst h; exact List.suffix_refl _
  · rename_i c rest hp
    rw [hp]
    by_cases h1 : isspace c = true
    · rw [if_pos h1] at h; injection h with h; subst h; exact List.suffix_cons c rest
    rw [if_neg h1] at h
    by_cases h2 : c = '/' ∧ rest.head? = some '*'
    · rw [if_pos h2] at h; injection h with h; subst h
      exact List.IsSuffix.trans (List.tail_suffix rest) (List.suffix_cons c rest)
    rw [if_neg h2] at h
    by_cases h3 : s.in_comment = true
    · rw [if_pos h3] at h
      split at h
      · cases h
      · rename_i r hr
        injection h with h; subst h
        exact skip_comment_suffix _ _ hr
    rw [if_neg h3] at h
    by_cases h4 : isalpha c = true
    · rw [if_pos h4] at h
      have hsuf := scan_while_suffix (fun ch => isalpha ch || decide (ch = '_'))
        MAX_IDENTIFIER_LENGTH (c :: rest)
      simp only [] at h
      split_ifs at h
      · injection h with h; subst h; exact hsuf
      · split at h
        · injection h with h; subst h; exact hsuf
        · split_ifs at h
          injection h with h; subst h; exact hsuf
    rw [if_neg h4] at h
    by_cases h5 : (isdigit c || (decide (c = '-') && next_is_digit rest)) = true
    · rw [if_pos h5] at h
      exact lex_integer_suffix s s1 c rest h
    rw [if_neg h5] at h
    by_cases h6 : c = '\x22'
    · rw [if_pos h6] at h
      simp only [] at h
      split_ifs at h
      injection h with h; subst h
      exact List.IsSuffix.trans
        (List.IsSuffix.trans (string_rest_suffix _) (scan_while_suffix _ _ rest))
        (List.suffix_cons c rest)
    rw [if_neg h6] at h
    split_ifs at h <;> (injection h with h; subst h; exact List.suffix_cons c rest)

/-- An iteration of the scan loop of `lexical_analyzer.c` leaves the scan position inside the
text: the new position is a suffix of the old one. -/
theorem LexicalAnalyzer.analyzer_lex_step_suffix (s s1 : LexState)
    (h : LexicalAnalyzer.lex_step s = .ok s1) : s1.ptr <:+ s.ptr := by
  unfold LexicalAnalyzer.lex_step at h
  split at h
  · injection h with h; subst h; exact List.suffix_refl _
  · rename_i c rest hp
    rw [hp]
    by_cases h1 : isspace c = true
    · rw [if_pos h1] at h; injection h with h; subst h; exact List.suffix_cons c rest
    rw [if_neg h1] at h
    by_cases h2 : c = '/' ∧ rest.head? = some '*'
    · rw [if_pos h2] at h; injection h with h; subst h
      exact List.IsSuffix.trans (List.tail_suffix rest) (List.suffix_cons c rest)
    rw [if_neg h2] at h
    by_cases h3 : s.in_comment = true
    · rw [if_pos h3] at h
      split at h
      · cases h
      · rename_i r hr
        injection h with h; subst h
        exact skip_comment_suffix _ _ hr
    rw [if_neg h3] at h
    by_cases h4 : isalpha c = true
    · rw [if_pos h4] at h
      have hsuf := scan_while_suffix
        (fun ch => isalpha ch || LexicalAnalyzer.eq_string_literal_address ch)
        MAX_IDENTIFIER_LENGTH (c :: rest)
      simp only [] at h
      split_ifs at h
      · injection h with h; subst h; exact hsuf
      · split at h
        · injection h with h; subst h; exact hsuf
        · split_ifs at h
          injection h with h; subst h; exact hsuf
    rw [if_neg h4] at h
    by_cases h5 : (isdigit c || (decide (c = '-') && next_is_digit rest)) = true
    · rw [if_pos h5] at h
      exact lex_integer_suffix s s1 c rest h
    rw [if_neg h5] at h
    by_cases h6 : c = '\x22'
    · rw [if_pos h6] at h
      simp only [] at h
      split_ifs at h
      injection h with h; subst h
      exact List.IsSuffix.trans
        (List.IsSuffix.trans (string_rest_suffix _) (scan_while_suffix _ _ rest))
        (List.suffix_cons c rest)
    rw [if_neg h6] at h
    split_ifs at h <;> (injection h with h; subst h; exact List.suffix_cons c rest)

/-- With more fuel than characters left, the scan loop does not run out of fuel: it ends
with an error, with the tokens, or with a write past the end of the token array. -/
theorem lex_loop_total (step : LexState → Except LexErr LexState) (hp : Progress step)
    (n : Nat) : ∀ (s : LexState) (fuel : Nat), s.ptr.length ≤ n → s.ptr.length < fuel →
      (∃ e, lex_loop step fuel s = .error e) ∨ (∃ ts w, lex_loop step fuel s = .tokens ts w) ∨
        lex_loop step fuel s = .undefined := by
  have hend : ∀ (s : LexState) (g : Nat), s.ptr = [] →
      (∃ e, lex_loop step (g + 1) s = .error e) ∨
        (∃ ts w, lex_loop step (g + 1) s = .tokens ts w) ∨
        lex_loop step (g + 1) s = .undefined := by
    intro s g hnil
    by_cases hc : s.tokens.length < MAX_STRING_LENGTH
    · exact Or.inr (Or.inl ⟨s.tokens ++ [⟨.Terminator, []⟩], s.warnings,
        by simp [lex_loop, hnil, hc]⟩)
    · exact Or.inr (Or.inr (by simp [lex_loop, hnil, hc]))
  induction n with
  | zero =>
    intro s fuel hn hf
    have hnil : s.ptr = [] := List.length_eq_zero.mp (Nat.le_zero.mp hn)
    obtain ⟨g, rfl⟩ : ∃ g, fuel = g + 1 := ⟨fuel - 1, by omega⟩
    exact hend s g hnil
  | succ n ih =>
    intro s fuel hn hf
    obtain ⟨g, rfl⟩ : ∃ g, fuel = g + 1 := ⟨fuel - 1, by omega⟩
    cases hs : s.ptr with
    | nil => exact hend s g hs
    | cons c r =>
      cases hstep : step s with
      | error e =>
        simp only [lex_loop, hs, hstep]
        split_ifs
        · exact Or.inr (Or.inr rfl)
        · exact Or.inl ⟨e, rfl⟩
      | ok s1 =>
        have hlt := hp.1 s s1 (by simp [hs]) hstep
        simp only [lex_loop, hs, hstep]
        split_ifs
        · exact Or.inr (Or.inr rfl)
        · exact ih s1 g (by omega) (by omega)

/-- Function `tokenize_source_code` of `starInterpreter.c` returns an error or the tokens,
or writes past the end of the token array. -/
theorem StarInterpreter.interpreter_tokenize_total (source_code : List Char) :
    (∃ e, StarInterpreter.tokenize_source_code source_code = .error e) ∨
      (∃ ts w, StarInterpreter.tokenize_source_code source_code = .tokens ts w) ∨
      StarInterpreter.tokenize_source_code source_code = .undefined :=
  lex_loop_total _ interpreter_lex_step_progress source_code.length
    ⟨source_code, false, [], 0⟩ _ (Nat.le_refl _) (Nat.lt_succ_self _)

/-- Function `tokenize_source_code` of `lexical_analyzer.c` returns an error or the tokens,
or writes past the end of the token array. -/
theorem LexicalAnalyzer.analyzer_tokenize_total (source_code : List Char) :
    (∃ e, LexicalAnalyzer.tokenize_source_code source_code = .error e) ∨
      (∃ ts w, LexicalAnalyzer.tokenize_source_code source_code = .tokens ts w) ∨
      LexicalAnalyzer.tokenize_source_code source_code = .undefined :=
  lex_loop_total _ analyzer_lex_step_progress source_code.length
    ⟨source_code, false, [], 0⟩ _ (Nat.le_refl _) (Nat.lt_succ_self _)

/-! ## The two tokenizers on their common language (C24) -/

theorem scan_while_congr (p q : Char → Bool) (n : Nat) (l : List Char)
    (h : ∀ c ∈ l, p c = q c) : scan_while p n l = scan_while q n l := by
  induction n generalizing l with
  | zero => simp [scan_while]
  | succ n ih =>
    cases l with
    | nil => simp [scan_while]
    | cons c r =>
      have hc := h c (by simp)
      have hr := ih r (fun x hx => h x (by simp [hx]))
      simp only [scan_while, hc, hr]

/-- On a text without underscore, double quote and `/`, an iteration of the scan loop of
`lexical_analyzer.c` does what an iteration of the scan loop of `starInterpreter.c` does. -/
theorem lex_step_agree (s : LexState) (h : in_common_language s.ptr) :
    LexicalAnalyzer.lex_step s = StarInterpreter.lex_step s := by
  obtain ⟨ptr, ic, toks, w⟩ := s
  cases ptr with
  | nil => rfl
  | cons c rest =>
    have hc := h c (by simp)
    simp only [LexicalAnalyzer.lex_step, StarInterpreter.lex_step]
    by_cases h1 : isspace c = true
    · simp only [if_pos h1]
    simp only [if_neg h1]
    have h2 : ¬ (c = '/' ∧ rest.head? = some '*') := fun e => hc.2.2 e.1
    simp only [if_neg h2]
    by_cases h3 : ic = true
    · simp only [if_pos h3]
    simp only [if_neg h3]
    by_cases h4 : isalpha c = true
    · simp only [if_pos h4]
      have hsc : scan_while (fun ch => isalpha ch || LexicalAnalyzer.eq_string_literal_address ch)
          MAX_IDENTIFIER_LENGTH (c :: rest) =
          scan_while (fun ch => isalpha ch || decide (ch = '_')) MAX_IDENTIFIER_LENGTH
            (c :: rest) := by
        apply scan_while_congr
        intro x hx
        have := (h x hx).1
        simp [LexicalAnalyzer.eq_string_literal_address, this]
      rw [hsc]
      by_cases hk : is_keyword (scan_while (fun ch => isalpha ch || decide (ch = '_'))
          MAX_IDENTIFIER_LENGTH (c :: rest)).1 = true
      · simp only [if_pos hk]
      simp only [if_neg hk]
      have hsuf := scan_while_suffix (fun ch => isalpha ch || decide (ch = '_'))
        MAX_IDENTIFIER_LENGTH (c :: rest)
      cases hw : (scan_while (fun ch => isalpha ch || decide (ch = '_'))
          MAX_IDENTIFIER_LENGTH (c :: rest)).2 with
      | nil => rfl
      | cons d r =>
        rw [hw] at hsuf
        have hd : d ≠ '_' := (h d (hsuf.subset (by simp))).1
        simp [LexicalAnalyzer.eq_string_literal_address, hd]
    simp only [if_neg h4]
    by_cases h5 : (isdigit c || (decide (c = '-') && next_is_digit rest)) = true
    · simp only [if_pos h5]
    simp only [if_neg h5]
    simp only [if_neg hc.2.1]
    by_cases h7 : c = '.'
    · simp only [if_pos h7]
    simp only [if_neg h7]
    by_cases h8 : c = ','
    · simp only [if_pos h8]
    simp only [if_neg h8]
    by_cases h9 : c = '+' ∨ c = '-' ∨ c = '*'
    · have h9a : c = '+' ∨ c = '-' ∨ c = '*' ∨ c = '/' := by
        rcases h9 with e | e | e
        · exact Or.inl e
        · exact Or.inr (Or.inl e)
        · exact Or.inr (Or.inr (Or.inl e))
      simp only [if_pos h9, if_pos h9a]
    have h9a : ¬ (c = '+' ∨ c = '-' ∨ c = '*' ∨ c = '/') := by
      rintro (e | e | e | e)
      · exact h9 (Or.inl e)
      · exact h9 (Or.inr (Or.inl e))
      · exact h9 (Or.inr (Or.inr e))
      · exact hc.2.2 e
    simp only [if_neg h9, if_neg h9a]

/-- On a text without underscore, double quote and `/` the two scan loops return the same
result. -/
theorem lex_loop_agree (fuel : Nat) : ∀ (s : LexState), in_common_language s.ptr →
    lex_loop LexicalAnalyzer.lex_step fuel s = lex_loop StarInterpreter.lex_step fuel s := by
  induction fuel with
  | zero => intro s _; rfl
  | succ fuel ih =>
    intro s h
    cases hs : s.ptr with
    | nil => simp only [lex_loop, hs]
    | cons c r =>
      have hag := lex_step_agree s h
      cases hstep : StarInterpreter.lex_step s with
      | error e =>
        rw [hstep] at hag
        simp only [lex_loop, hs, hstep, hag]
      | ok s1 =>
        rw [hstep] at hag
        have hsuf := interpreter_lex_step_suffix s s1 hstep
        simp only [lex_loop, hs, hstep, hag]
        rw [ih s1 (fun x hx => h x (hsuf.subset hx))]

set_option maxRecDepth 100000 in
/-- C24, counterexample: the text of 256 commas has no underscore, no double quote and no
`/`, and on it neither tokenizer fails with a lexical error and neither returns a token
sequence: both write the Terminator past the end of the token array of 256 entries. -/
theorem tokenizers_overrun_counterexample :
    in_common_language (List.replicate 256 ',') ∧
      LexicalAnalyzer.tokenize_source_code (List.replicate 256 ',') = .undefined ∧
      StarInterpreter.tokenize_source_code (List.replicate 256 ',') = .undefined := by
  refine ⟨by decide, ?_, ?_⟩ <;> rfl

/-- C24, amended: the two tokenizers agree on their common language. For every source text
with no underscore, no double quote and no `/`, `tokenize_source_code` of
`lexical_analyzer.c` and `tokenize_source_code` of `starInterpreter.c` return the same
result; so, when the tokens of the text fit the token array (no write past its end),
either both fail with the same lexical error, or both succeed with token sequences of the
same length whose tokens have, position by position, the same kind and, for Identifier,
Keyword, IntConst and Operator tokens, the same text. -/
theorem tokenizers_agree_on_common_language (source_code : List Char)
    (h : in_common_language source_code) :
    LexicalAnalyzer.tokenize_source_code source_code =
        StarInterpreter.tokenize_source_code source_code ∧
    (StarInterpreter.tokenize_source_code source_code ≠ .undefined →
      ((∃ e, LexicalAnalyzer.tokenize_source_code source_code = .error e ∧
          StarInterpreter.tokenize_source_code source_code = .error e) ∨
        (∃ ts1 w1 ts2 w2, LexicalAnalyzer.tokenize_source_code source_code = .tokens ts1 w1 ∧
          StarInterpreter.tokenize_source_code source_code = .tokens ts2 w2 ∧
          ts1.length = ts2.length ∧
          ∀ (i : Nat) (t1 t2 : Token), ts1[i]? = some t1 → ts2[i]? = some t2 →
            t1.type = t2.type ∧
              (t1.type = .Identifier ∨ t1.type = .Keyword ∨ t1.type = .IntConst ∨
                t1.type = .Operator → t1.value = t2.value)))) := by
  have heq : LexicalAnalyzer.tokenize_source_code source_code =
      StarInterpreter.tokenize_source_code source_code :=
    lex_loop_agree _ ⟨source_code, false, [], 0⟩ h
  refine ⟨heq, fun hdef => ?_⟩
  rcases interpreter_tokenize_total source_code with ⟨e, he⟩ | ⟨ts, w, ht⟩ | hu
  · exact Or.inl ⟨e, heq.trans he, he⟩
  · refine Or.inr ⟨ts, w, ts, w, heq.trans ht, ht, rfl, ?_⟩
    intro i t1 t2 h1 h2
    rw [h1] at h2
    injection h2 with h2
    subst h2
    exact ⟨rfl, fun _ => rfl⟩
  · exact absurd hu hdef

/-- Witness of C24, amended, at a program with a declaration, a negative literal and a
loop: the two results are equal, and they are the same error or token sequences that agree
position by position. -/
theorem tokenizers_agree_on_common_language_witness :
    LexicalAnalyzer.tokenize_source_code "int a, b is -5. loop 2 times \x7b a is a + b. \x7d".toList =
        StarInterpreter.tokenize_source_code
          "int a, b is -5. loop 2 times \x7b a is a + b. \x7d".toList ∧
    ((∃ e, LexicalAnalyzer.tokenize_source_code
          "int a, b is -5. loop 2 times \x7b a is a + b. \x7d".toList = .error e ∧
        StarInterpreter.tokenize_source_code
          "int a, b is -5. loop 2 times \x7b a is a + b. \x7d".toList = .error e) ∨
      (∃ ts1 w1 ts2 w2, LexicalAnalyzer.tokenize_source_code
          "int a, b is -5. loop 2 times \x7b a is a + b. \x7d".toList = .tokens ts1 w1 ∧
        StarInterpreter.tokenize_source_code
          "int a, b is -5. loop 2 times \x7b a is a + b. \x7d".toList = .tokens ts2 w2 ∧
        ts1.length = ts2.length ∧
        ∀ (i : Nat) (t1 t2 : Token), ts1[i]? = some t1 → ts2[i]? = some t2 →
          t1.type = t2.type ∧
            (t1.type = .Identifier ∨ t1.type = .Keyword ∨ t1.type = .IntConst ∨
              t1.type = .Operator → t1.value = t2.value))) :=
  ⟨(tokenizers_agree_on_common_language
      "int a, b is -5. loop 2 times \x7b a is a + b. \x7d".toList (by decide)).1,
   (tokenizers_agree_on_common_language
      "int a, b is -5. loop 2 times \x7b a is a + b. \x7d".toList (by decide)).2 (by decide)⟩

/-! ## The tokenizer terminates (C25) -/

/-- The scan loop terminates. In both programs (1, 2) every iteration of the scan loop on a
text that has not ended either fails or moves the scan position to a later position of the
same text (the new position is a suffix of the old one, so it does not pass the end) that
is at least one character further; therefore (3) for every source text
`tokenize_source_code` does not run out of fuel: it returns a lexical error or a token
sequence, or writes past the end of the token array; and (4) the scan loop returns that
same result with any amount of fuel above the length of the text. -/
theorem scan_loop_terminates :
    (∀ (s s1 : LexState), s.ptr ≠ [] → StarInterpreter.lex_step s = .ok s1 →
      s1.ptr <:+ s.ptr ∧ s1.ptr.length < s.ptr.length) ∧
    (∀ (s s1 : LexState), s.ptr ≠ [] → LexicalAnalyzer.lex_step s = .ok s1 →
      s1.ptr <:+ s.ptr ∧ s1.ptr.length < s.ptr.length) ∧
    (∀ source_code : List Char,
      ((∃ e, StarInterpreter.tokenize_source_code source_code = .error e) ∨
        (∃ ts w, StarInterpreter.tokenize_source_code source_code = .tokens ts w) ∨
        StarInterpreter.tokenize_source_code source_code = .undefined) ∧
      ((∃ e, LexicalAnalyzer.tokenize_source_code source_code = .error e) ∨
        (∃ ts w, LexicalAnalyzer.tokenize_source_code source_code = .tokens ts w) ∨
        LexicalAnalyzer.tokenize_source_code source_code = .undefined)) ∧
    (∀ (source_code : List Char) (fuel : Nat), source_code.length < fuel →
      lex_loop StarInterpreter.lex_step fuel ⟨source_code, false, [], 0⟩ =
        StarInterpreter.tokenize_source_code source_code ∧
      lex_loop LexicalAnalyzer.lex_step fuel ⟨source_code, false, [], 0⟩ =
        LexicalAnalyzer.tokenize_source_code source_code) := by
  refine ⟨?_, ?_, ?_, ?_⟩
  · intro s s1 hne h
    exact ⟨interpreter_lex_step_suffix s s1 h, interpreter_lex_step_progress.1 s s1 hne h⟩
  · intro s s1 hne h
    exact ⟨LexicalAnalyzer.analyzer_lex_step_suffix s s1 h,
      LexicalAnalyzer.analyzer_lex_step_progress.1 s s1 hne h⟩
  · intro source_code
    exact ⟨interpreter_tokenize_total source_code,
      LexicalAnalyzer.analyzer_tokenize_total source_code⟩
  · intro source_code fuel hf
    exact ⟨lex_loop_fuel _ interpreter_lex_step_progress source_code.length
        ⟨source_code, false, [], 0⟩ _ _ (Nat.le_refl _) hf (Nat.lt_succ_self _),
      lex_loop_fuel _ LexicalAnalyzer.analyzer_lex_step_progress source_code.length
        ⟨source_code, false, [], 0⟩ _ _ (Nat.le_refl _) hf (Nat.lt_succ_self _)⟩

set_option maxRecDepth 100000 in
/-- C25: the tokenizer is not total. On the source text of 256 full stops the scan loop of
either program makes its 256 iterations, each of which advances the scan position by one
character and fills one entry of the token array of 256 entries, and then writes the
Terminator at `tokens[256]`, past the end of the array: `tokenize_source_code` returns
neither a lexical error nor a token sequence, its behaviour is undefined. On 255 full
stops it returns the 255 EndOfLine tokens and the Terminator. -/
theorem token_array_overrun :
    StarInterpreter.tokenize_source_code (List.replicate 256 '.') = .undefined ∧
      LexicalAnalyzer.tokenize_source_code (List.replicate 256 '.') = .undefined ∧
      StarInterpreter.tokenize_source_code (List.replicate 255 '.') =
        .tokens (List.replicate 255 ⟨.EndOfLine, []⟩ ++ [⟨.Terminator, []⟩]) 0 ∧
      LexicalAnalyzer.tokenize_source_code (List.replicate 255 '.') =
        .tokens (List.replicate 255 ⟨.EndOfLine, []⟩ ++ [⟨.Terminator, []⟩]) 0 := by
  refine ⟨?_, ?_, ?_, ?_⟩ <;> rfl

end Star
